import Mathlib

/-! gocli: JSON-sample type inference and identifier case conversion

A shallow embedding of the type inferencer (`ModelGenerator.getFieldType`), the
schema extraction loop (`ModelGenerator.generateFields`), the `model` command
from its arguments to the generator (`runModel`), the naming helper
(`NamingHelper`), the validators `ValidateProjectName` and
`ValidateOrganization`, the file writes of `ModelGenerator.Generate`, the
`generate` command, the `flutter create` command, the pubspec template, the
steps of `ProjectGenerator.Generate` and the screens of the wizard.
-/

namespace Gocli

/-! ## Decoded JSON values -/

/-- A finite IEEE-754 binary64 value, denoting the rational `mant * 2 ^ exp`.
`encoding/json` decodes every JSON number into such a value (never NaN or an
infinity). Several pairs may denote the same number; all comparisons go through
`Float64.toRat`. -/
structure Float64 where
  mant : Int
  exp : Int

/-- The pairs that are binary64 values: a significand of at most 53 bits and an
exponent in the binary64 range. -/
def Float64.WellFormed (v : Float64) : Prop :=
  v.mant.natAbs < 2 ^ 53 ∧ -1074 ≤ v.exp ∧ v.exp ≤ 971

instance (v : Float64) : Decidable v.WellFormed := by
  unfold Float64.WellFormed; infer_instance

/-- The number a binary64 value denotes. -/
def Float64.toRat (v : Float64) : ℚ := (v.mant : ℚ) * (2 : ℚ) ^ v.exp

/-- A value decoded by `encoding/json` into `interface{}`: `nil`, `bool`,
`float64`, `string`, `[]interface{}` or `map[string]interface{}`. An object is
kept as its members in source order. -/
inductive JSON where
  | null : JSON
  | bool (b : Bool) : JSON
  | num (v : Float64) : JSON
  | str (s : String) : JSON
  | arr (xs : List JSON) : JSON
  | obj (kvs : List (String × JSON)) : JSON

/-- Truncation toward zero of a rational. -/
def truncRat (x : ℚ) : Int := if 0 ≤ x then ⌊x⌋ else ⌈x⌉

/-- Go conversion `int64(v)` of a float64: the truncation toward zero when it
fits a signed 64-bit integer; otherwise the result is implementation-dependent
and is read from `ovf`. -/
def int64OfFloat (ovf : Float64 → Int) (v : Float64) : Int :=
  let t := truncRat v.toRat
  if -2 ^ 63 ≤ t ∧ t < 2 ^ 63 then t else ovf v

/-- Go conversion `float64(n)` of an integer: `n` itself when it has at most 53
significant bits, else the nearest 53-bit significand, ties to even. -/
def float64OfInt (n : Int) : Float64 :=
  let a := n.natAbs
  let len := if a = 0 then 0 else Nat.log2 a + 1
  if len ≤ 53 then ⟨n, 0⟩
  else
    let sh := len - 53
    let q := a / 2 ^ sh
    let r := a % 2 ^ sh
    let half := 2 ^ (sh - 1)
    let q' := if half < r ∨ (r = half ∧ q % 2 = 1) then q + 1 else q
    ⟨n.sign * (q' : Int), (sh : Int)⟩

/-- `ModelGenerator.getFieldType` (model.go:576-603). The `default` branch of
the type switch is not reachable for a decoded JSON value. -/
def getFieldType (ovf : Float64 → Int) : JSON → String
  | .null => "dynamic"
  | .bool _ => "bool"
  | .num v =>
      if v.toRat = (float64OfInt (int64OfFloat ovf v)).toRat then "int" else "double"
  | .str _ => "String"
  | .arr [] => "List<dynamic>"
  | .arr (x :: _) => "List<" ++ getFieldType ovf x ++ ">"
  | .obj _ => "Map<String, dynamic>"

/-- Number of recursive invocations `getFieldType` makes on a value: one per
array level entered through a first element (model.go:596). -/
def getFieldTypeCalls : JSON → Nat
  | .arr (x :: _) => getFieldTypeCalls x + 1
  | _ => 0

/-- `getFieldType` run with a budget of recursive calls: `none` when the budget
is used up before the value is typed. -/
def getFieldTypeFuel (ovf : Float64 → Int) : Nat → JSON → Option String
  | _, .null => some "dynamic"
  | _, .bool _ => some "bool"
  | _, .num v =>
      some (if v.toRat = (float64OfInt (int64OfFloat ovf v)).toRat then "int" else "double")
  | _, .str _ => some "String"
  | _, .arr [] => some "List<dynamic>"
  | 0, .arr (_ :: _) => none
  | fuel + 1, .arr (x :: _) =>
      (getFieldTypeFuel ovf fuel x).map (fun elemType => "List<" ++ elemType ++ ">")
  | _, .obj _ => some "Map<String, dynamic>"

mutual
/-- Nesting depth of a decoded value: scalars have depth 0, an array or object
is one deeper than its deepest member. -/
def JSON.depth : JSON → Nat
  | .arr xs => JSON.depthList xs + 1
  | .obj kvs => JSON.depthMembers kvs + 1
  | _ => 0
/-- Largest depth among the elements of an array. -/
def JSON.depthList : List JSON → Nat
  | [] => 0
  | x :: xs => max (JSON.depth x) (JSON.depthList xs)
/-- Largest depth among the member values of an object. -/
def JSON.depthMembers : List (String × JSON) → Nat
  | [] => 0
  | (_, x) :: kvs => max (JSON.depth x) (JSON.depthMembers kvs)
end

/-- The type tags `getFieldType` can produce: the six base tags and `List<T>`
for a tag `T`. -/
inductive IsTypeTag : String → Prop
  | dynamic : IsTypeTag "dynamic"
  | bool : IsTypeTag "bool"
  | int : IsTypeTag "int"
  | double : IsTypeTag "double"
  | string : IsTypeTag "String"
  | map : IsTypeTag "Map<String, dynamic>"
  | list (t : String) : IsTypeTag t → IsTypeTag ("List<" ++ t ++ ">")

/-! ## Maps, `range` and the schema extraction loop -/

/-- A Go `map[string]interface{}` holding decoded JSON: entries with pairwise
distinct keys. The order of the list is an artefact of the representation; a Go
map carries no order. -/
abbrev GoMap := List (String × JSON)

/-- Map assignment `m[k] = v`: overwrite the entry of `k` or add one. -/
def GoMap.set (m : GoMap) (k : String) (v : JSON) : GoMap :=
  if m.any (fun e => e.1 == k) then m.map (fun e => if e.1 == k then (k, v) else e)
  else m ++ [(k, v)]

/-- The map `encoding/json` builds from the members of an object: members are
assigned in source order, a repeated key keeps its last value. -/
def decodeObject (kvs : List (String × JSON)) : GoMap :=
  kvs.foldl (fun m e => m.set e.1 e.2) []

/-- The orders in which `for key, value := range m` may visit a map: each entry
exactly once, in an order the language leaves unspecified ("The iteration order
over maps is not specified", Go specification). -/
def RangeOrder (m : GoMap) (visit : List (String × JSON)) : Prop := visit.Perm m

/-- The line `generateFields` formats for one entry (model.go:555):
`fmt.Sprintf("final %s %s;", fieldType, key)`. -/
def fieldLine (ovf : Float64 → Int) (e : String × JSON) : String :=
  "final " ++ getFieldType ovf e.2 ++ " " ++ e.1 ++ ";"

/-- The slice `fields` built by the loop of `generateFields` (model.go:552-556)
when `range g.jsonData` visits the entries in the order `visit`. -/
def fieldLines (ovf : Float64 → Int) (visit : List (String × JSON)) : List String :=
  visit.foldl (fun fields e => fields ++ [fieldLine ovf e]) []

/-- `ModelGenerator.generateFields` (model.go:551-558) under the visiting order
`visit`. -/
def generateFields (ovf : Float64 → Int) (visit : List (String × JSON)) : String :=
  "\n  ".intercalate (fieldLines ovf visit)

/-- The members of the sample object `{"id": 1, "name": "Ann", "active": true}`
in source order. -/
def sampleMembers : List (String × JSON) :=
  [("id", .num ⟨1, 0⟩), ("name", .str "Ann"), ("active", .bool true)]

/-! ## The decoding step of the `model` command -/

/-- A number literal of a JSON text: the characters as written, and the number
they denote, `mant * 10 ^ exp10`. -/
structure NumLit where
  text : String
  mant : Int
  exp10 : Int

/-- A JSON text that `encoding/json` finds syntactically valid, as the tree of
its values; numbers are kept as written, objects as their members in source
order. -/
inductive JSONText where
  | null : JSONText
  | bool (b : Bool) : JSONText
  | num (n : NumLit) : JSONText
  | str (s : String) : JSONText
  | arr (xs : List JSONText) : JSONText
  | obj (kvs : List (String × JSONText)) : JSONText

/-- The least magnitude that rounds past the largest float64,
`2 ^ 1024 - 2 ^ 970`: half a unit in the last place above
`(2 ^ 53 - 1) * 2 ^ 971`. -/
@[irreducible] def float64Limit : Nat := (2 ^ 54 - 1) * 2 ^ 970

/-- The range error of `strconv.ParseFloat(s, 64)`, which `encoding/json` calls
on every number literal it decodes into an `interface{}`: the literal rounds
past the largest float64, that is, its magnitude `|mant| * 10 ^ exp10` is at
least `float64Limit`. A literal too small for a float64 is no error. -/
def NumLit.overflows (n : NumLit) : Bool :=
  decide (float64Limit * 10 ^ (-n.exp10).toNat ≤ n.mant.natAbs * 10 ^ n.exp10.toNat)

/-- The function `convertNumber` of `encoding/json` without `UseNumber`: the
float64 of the literal, or an `UnmarshalTypeError` when `strconv.ParseFloat`
reports a range error. `round` is the float64 nearest to a literal in range. -/
def convertNumber (round : NumLit → Float64) (n : NumLit) : Except String Float64 :=
  if n.overflows then
    .error ("json: cannot unmarshal number " ++ n.text ++ " into Go value of type float64")
  else .ok (round n)

mutual
/-- The value `encoding/json` stores into an `interface{}` for a JSON text, or
the first error it saved while decoding it. -/
def decodeValue (round : NumLit → Float64) : JSONText → Except String JSON
  | .null => .ok .null
  | .bool b => .ok (.bool b)
  | .num n =>
    match convertNumber round n with
    | .ok v => .ok (.num v)
    | .error e => .error e
  | .str s => .ok (.str s)
  | .arr xs =>
    match decodeValues round xs with
    | .ok ys => .ok (.arr ys)
    | .error e => .error e
  | .obj kvs =>
    match decodeMembers round kvs with
    | .ok ms => .ok (.obj ms)
    | .error e => .error e
/-- The elements of an array decoded in order. -/
def decodeValues (round : NumLit → Float64) : List JSONText → Except String (List JSON)
  | [] => .ok []
  | x :: xs =>
    match decodeValue round x with
    | .error e => .error e
    | .ok y =>
      match decodeValues round xs with
      | .ok ys => .ok (y :: ys)
      | .error e => .error e
/-- The members of an object decoded in order. -/
def decodeMembers (round : NumLit → Float64) :
    List (String × JSONText) → Except String (List (String × JSON))
  | [] => .ok []
  | kv :: kvs =>
    match decodeValue round kv.2 with
    | .error e => .error e
    | .ok y =>
      match decodeMembers round kvs with
      | .ok ms => .ok ((kv.1, y) :: ms)
      | .error e => .error e
end

mutual
/-- No number literal of the text is out of the float64 range. -/
def JSONText.inRange : JSONText → Bool
  | .null => true
  | .bool _ => true
  | .num n => !n.overflows
  | .str _ => true
  | .arr xs => JSONText.inRangeList xs
  | .obj kvs => JSONText.inRangeMembers kvs
/-- No number literal of the elements is out of the float64 range. -/
def JSONText.inRangeList : List JSONText → Bool
  | [] => true
  | x :: xs => x.inRange && JSONText.inRangeList xs
/-- No number literal of the members is out of the float64 range. -/
def JSONText.inRangeMembers : List (String × JSONText) → Bool
  | [] => true
  | kv :: kvs => kv.2.inRange && JSONText.inRangeMembers kvs
end

/-- `json.Unmarshal(data, &jsonData)` with `jsonData` a nil
`map[string]interface{}`, on a syntactically valid text, as `encoding/json`
documents it: an object fills a map, unless one of its numbers is out of the
float64 range; `null` "unmarshals into an interface, map, pointer, or slice by
setting that Go value to nil" and is no error; any other value is an
`UnmarshalTypeError`. `none` is the nil map. -/
def unmarshalMap (round : NumLit → Float64) : JSONText → Except String (Option GoMap)
  | .obj kvs =>
    match decodeMembers round kvs with
    | .ok ms => .ok (some (decodeObject ms))
    | .error e => .error e
  | .null => .ok none
  | .bool _ => .error "json: cannot unmarshal bool into Go value of type map[string]interface {}"
  | .num _ => .error "json: cannot unmarshal number into Go value of type map[string]interface {}"
  | .str _ => .error "json: cannot unmarshal string into Go value of type map[string]interface {}"
  | .arr _ => .error "json: cannot unmarshal array into Go value of type map[string]interface {}"

/-- What `runModel` did from the decode on: the error it returned, if any, and
the `jsonData` the generator was built with, if the generator was reached. -/
structure ModelRun where
  err : Option String
  generatorInput : Option (Option GoMap)

/-- `runModel` from the decode to the call of `gen.Generate()`
(cmd/model.go:96-122); `generate` stands for the outcome of `gen.Generate()` on
the decoded data (`none` when it succeeds). -/
def runModel (generate : Option GoMap → Option String) (round : NumLit → Float64)
    (sample : JSONText) : ModelRun :=
  match unmarshalMap round sample with
  | .error e => ⟨some ("failed to parse JSON: " ++ e), none⟩
  | .ok jsonData => ⟨generate jsonData, some jsonData⟩

/-! ## Identifier case conversion

`NamingHelper` (internal/utils/naming.go) delegates every accessor to the
package `github.com/iancoleman/strcase`, which the repository imports and does
not contain. A Go string is modelled by its sequence of code points (valid
UTF-8): the conversions test and rewrite ASCII bytes only, so on such a string
they act code point by code point. -/

/-- The byte test `v >= 'A' && v <= 'Z'`. -/
def isCap (c : Char) : Bool := decide (65 ≤ c.toNat ∧ c.toNat ≤ 90)

/-- The byte test `v >= 'a' && v <= 'z'`. -/
def isLow (c : Char) : Bool := decide (97 ≤ c.toNat ∧ c.toNat ≤ 122)

/-- The byte test `v >= '0' && v <= '9'`. -/
def isNum (c : Char) : Bool := decide (48 ≤ c.toNat ∧ c.toNat ≤ 57)

/-- The separator test `v == ' ' || v == '_' || v == '-' || v == '.'`. -/
def isSeparator (c : Char) : Bool :=
  decide (c.toNat = 32 ∨ c.toNat = 95 ∨ c.toNat = 45 ∨ c.toNat = 46)

/-- The byte update `v += 'A'; v -= 'a'`, used on lowercase letters. -/
def upperByte (c : Char) : Char := Char.ofNat (c.toNat - 32)

/-- The byte update `v += 'a'; v -= 'A'`, used on capital letters. -/
def lowerByte (c : Char) : Char := Char.ofNat (c.toNat + 32)

/-- Go `unicode.IsSpace`: the code points with the White_Space property. -/
def isSpace (c : Char) : Bool :=
  decide ((9 ≤ c.toNat ∧ c.toNat ≤ 13) ∨ c.toNat = 32 ∨ c.toNat = 0x85 ∨ c.toNat = 0xA0 ∨
    c.toNat = 0x1680 ∨ (0x2000 ≤ c.toNat ∧ c.toNat ≤ 0x200A) ∨ c.toNat = 0x2028 ∨
    c.toNat = 0x2029 ∨ c.toNat = 0x202F ∨ c.toNat = 0x205F ∨ c.toNat = 0x3000)

/-- Go `strings.TrimSpace`: the string without its leading and trailing white
space. -/
def trimSpace (s : List Char) : List Char :=
  ((s.dropWhile isSpace).reverse.dropWhile isSpace).reverse

/-- The test `i > 0 && s[i-1] >= 'A' && s[i-1] <= 'Z'` on the byte before the
current one. -/
def prevIsCap : Option Char → Bool
  | some p => isCap p
  | none => false

/-- Modelled from the spec: the loop of `strcase.ToScreamingDelimited`, the
function behind `ToSnake`, `ToKebab` and `ToScreamingSnake`; the package
`github.com/iancoleman/strcase` is imported by naming.go and is not among the
sources. The model is the single left-to-right pass of that package (release
v0.3.0, empty ignore set), which realises the policy of spec section 4.1: words
in lowercase (uppercase when `screaming`) joined by the delimiter, a boundary at
every separator and at every lowercase to uppercase transition; the package
also puts a boundary between a letter and a digit and before the last capital of
a run of capitals that a lowercase letter follows. `prev` is the byte before the
current one, if any. -/
def delimitedLoop (delimiter : Char) (screaming : Bool) : Option Char → List Char → List Char
  | _, [] => []
  | prev, c :: rest =>
    let vIsCap := isCap c
    let vIsLow := isLow c
    let v := if vIsLow && screaming then upperByte c
      else if vIsCap && !screaming then lowerByte c else c
    let plain := (if isSeparator v then delimiter else v) ::
      delimitedLoop delimiter screaming (some c) rest
    match rest with
    | [] => plain
    | next :: _ =>
      let vIsNum := isNum v
      let nextIsCap := isCap next
      let nextIsLow := isLow next
      let nextIsNum := isNum next
      if (vIsCap && (nextIsLow || nextIsNum)) || (vIsLow && (nextIsCap || nextIsNum)) ||
          (vIsNum && (nextIsCap || nextIsLow)) then
        (if vIsCap && nextIsLow && prevIsCap prev then [delimiter] else []) ++ [v] ++
          (if vIsLow || vIsNum || nextIsNum then [delimiter] else []) ++
          delimitedLoop delimiter screaming (some c) rest
      else plain

/-- Modelled from the spec: `strcase.ToScreamingDelimited(s, delimiter, "",
screaming)` of the imported package `github.com/iancoleman/strcase` (not among
the sources): trim the white space, then run the pass `delimitedLoop`. -/
def toScreamingDelimited (s : List Char) (delimiter : Char) (screaming : Bool) : List Char :=
  delimitedLoop delimiter screaming none (trimSpace s)

/-- Modelled from the spec: `strcase.ToSnake` (package not among the sources),
spec section 4.1 "lowercase words joined by underscore". -/
def toSnake (s : List Char) : List Char := toScreamingDelimited s '_' false

/-- Modelled from the spec: `strcase.ToKebab` (package not among the sources),
spec section 4.1 "lowercase words joined by hyphen". -/
def toKebab (s : List Char) : List Char := toScreamingDelimited s '-' false

/-- Modelled from the spec: `strcase.ToScreamingSnake` (package not among the
sources), spec section 4.1 "uppercase words joined by underscore". -/
def toScreamingSnake (s : List Char) : List Char := toScreamingDelimited s '_' true

/-- Modelled from the spec: the loop of `strcase.toCamelInitCase` (package
`github.com/iancoleman/strcase`, release v0.3.0, not among the sources, no
acronym configured): separators are dropped and the letter after a separator
or a digit is capitalised; `first` says the byte is the first of the string,
`capNext` that the next letter is to be capitalised, `prevIsCap` that the byte
before was a capital. -/
def camelLoop : Bool → Bool → Bool → List Char → List Char
  | _, _, _, [] => []
  | first, capNext, prevIsCap, c :: rest =>
    let vIsCap := isCap c
    let vIsLow := isLow c
    let v := if capNext then (if vIsLow then upperByte c else c)
      else if first then (if vIsCap then lowerByte c else c)
      else if prevIsCap && vIsCap then lowerByte c
      else c
    if vIsCap || vIsLow then v :: camelLoop false false vIsCap rest
    else if isNum v then v :: camelLoop false true vIsCap rest
    else camelLoop false (isSeparator v) vIsCap rest

/-- Modelled from the spec: `strcase.toCamelInitCase(s, initCase)` (package not
among the sources): trim the white space, then run `camelLoop`; spec section
4.1 "each word capitalized, concatenated, no separator". -/
def toCamelInitCase (s : List Char) (initCase : Bool) : List Char :=
  camelLoop true initCase false (trimSpace s)

/-- Modelled from the spec: `strcase.ToCamel` (package not among the
sources). -/
def toCamel (s : List Char) : List Char := toCamelInitCase s true

/-- Modelled from the spec: `strcase.ToLowerCamel` (package not among the
sources), spec section 4.1 "same as PascalCase but first word lowercase". -/
def toLowerCamel (s : List Char) : List Char := toCamelInitCase s false

/-- `NamingHelper` (naming.go:9-11). -/
structure NamingHelper where
  original : String

/-- `NewNamingHelper` (naming.go:14-16). -/
def NewNamingHelper (name : String) : NamingHelper := ⟨name⟩

/-- `NamingHelper.SnakeCase` (naming.go:19-21). -/
def NamingHelper.SnakeCase (n : NamingHelper) : String := ⟨toSnake n.original.data⟩

/-- `NamingHelper.PascalCase` (naming.go:24-26). -/
def NamingHelper.PascalCase (n : NamingHelper) : String := ⟨toCamel n.original.data⟩

/-- `NamingHelper.CamelCase` (naming.go:29-31). -/
def NamingHelper.CamelCase (n : NamingHelper) : String := ⟨toLowerCamel n.original.data⟩

/-- `NamingHelper.KebabCase` (naming.go:34-36). -/
def NamingHelper.KebabCase (n : NamingHelper) : String := ⟨toKebab n.original.data⟩

/-- `NamingHelper.ScreamingSnakeCase` (naming.go:39-41). -/
def NamingHelper.ScreamingSnakeCase (n : NamingHelper) : String :=
  ⟨toScreamingSnake n.original.data⟩

/-- `NamingHelper.Original` (naming.go:44-46). -/
def NamingHelper.Original (n : NamingHelper) : String := n.original

/-- The pieces of a string between the occurrences of a separator byte, as
`strings.Split` returns them: the empty string has the one piece `""`. -/
def splitOnByte (sep : Char) : List Char → List (List Char)
  | [] => [[]]
  | c :: cs =>
    if c = sep then [] :: splitOnByte sep cs
    else match splitOnByte sep cs with
      | [] => [[c]]
      | w :: ws => (c :: w) :: ws

/-- A word with its first letter turned to uppercase. -/
def capitalize : List Char → List Char
  | [] => []
  | c :: w => upperByte c :: w

/-- The byte the non-screaming pass writes for a byte that is not a separator:
a capital is lowered, any other byte is kept. -/
def convLower (c : Char) : Char := if isCap c then lowerByte c else c

/-- The underscore takes the place of the hyphen. -/
def hyphenate (c : Char) : Char := if c = '_' then '-' else c

/-- A byte that the snake pass leaves as it is: no capital, and no separator
other than the underscore. -/
def SnakeOk (c : Char) : Prop := isCap c = false ∧ (isSeparator c = true → c = '_')

/-- Two neighbouring bytes between which the snake pass inserts nothing: not a
lowercase letter next to a digit. -/
def SnakeAdj (a b : Char) : Prop :=
  ¬ (isLow a = true ∧ isNum b = true) ∧ ¬ (isNum a = true ∧ isLow b = true)

/-- The strings the snake pass leaves unchanged. -/
def SnakeStable (l : List Char) : Prop := (∀ c ∈ l, SnakeOk c) ∧ List.Chain' SnakeAdj l

/-! ## Validation of the project name and the organization -/

/-- `ValidationError` (naming.go:101-104). -/
structure ValidationError where
  Field : String
  Message : String

/-- The outcome of a Go call that may panic instead of returning. -/
inductive Outcome (α : Type) where
  | panic : Outcome α
  | ret (a : α) : Outcome α

/-- `reservedNames` (naming.go:49-52). -/
def reservedNames : List String :=
  ["test", "flutter", "dart", "build", "integration_test",
    "flutter_test", "flutter_driver", "sky_engine"]

/-- `isLetter` (naming.go:110-112), on the value of the rune. -/
def isLetter (r : Nat) : Bool := decide ((97 ≤ r ∧ r ≤ 122) ∨ (65 ≤ r ∧ r ≤ 90))

/-- The first byte of the UTF-8 encoding of a code point. -/
def leadByte (c : Char) : Nat :=
  if c.toNat < 0x80 then c.toNat
  else if c.toNat < 0x800 then 0xC0 + c.toNat / 0x40
  else if c.toNat < 0x10000 then 0xE0 + c.toNat / 0x1000
  else 0xF0 + c.toNat / 0x40000

/-- The byte `name[0]`: there is none when the string is empty (the index
expression panics). -/
def firstByte (name : String) : Option Nat :=
  match name.data with
  | [] => none
  | c :: _ => some (leadByte c)

/-- A representative of the orbit of a rune under Unicode simple case folding,
for the orbits that hold an ASCII rune: a capital letter and its lowercase
letter, with U+212A (Kelvin sign) in the orbit of `k` and U+017F (long s) in
the orbit of `s`. Any other rune stands for itself. -/
def foldKey (c : Char) : Nat :=
  if 65 ≤ c.toNat ∧ c.toNat ≤ 90 then c.toNat + 32
  else if c.toNat = 0x212A then 107
  else if c.toNat = 0x17F then 115
  else c.toNat

/-- Go `strings.EqualFold(s, t)`: the same number of runes, equal rune by rune
under simple case folding. The model is exact when one of the two strings is
ASCII, as every reserved name is. -/
def equalFold (s t : String) : Bool := decide (s.data.map foldKey = t.data.map foldKey)

/-- `ValidateProjectName` (naming.go:55-84). -/
def ValidateProjectName (name : String) : Outcome (Option ValidationError) :=
  if name = "" then
    .ret (some ⟨"name", "project name cannot be empty"⟩)
  else if ' ' ∈ name.data then
    .ret (some ⟨"name", "project name cannot contain spaces"⟩)
  else if '-' ∈ name.data then
    .ret (some ⟨"name", "project name should use underscores instead of dashes"⟩)
  else
    match firstByte name with
    | none => .panic
    | some b =>
      if !isLetter b then
        .ret (some ⟨"name", "project name must start with a letter"⟩)
      else if reservedNames.any (fun reserved => equalFold name reserved) then
        .ret (some ⟨"name", "'" ++ name ++
          "' is a reserved name and cannot be used. Please choose a different name"⟩)
      else .ret none

/-- `ValidateOrganization` (naming.go:87-98); `strings.Split(org, ".")` is
`splitOnByte`. -/
def ValidateOrganization (org : String) : Option ValidationError :=
  if org = "" then
    some ⟨"organization", "organization cannot be empty"⟩
  else if (splitOnByte '.' org.data).length < 2 then
    some ⟨"organization", "organization must be in format: com.example"⟩
  else none

/-- The form the wizard asks for (create.go:114 "Use lowercase with underscores
(e.g., my_app)"), which is the form of a Dart package name: lowercase letters,
digits and underscores, starting with a letter. -/
def IsFlutterName (name : String) : Prop :=
  (∀ c ∈ name.data, isLow c = true ∨ isNum c = true ∨ c = '_') ∧
    ∃ c rest, name.data = c :: rest ∧ isLow c = true

/-- The format `com.example` (create.go:128 "Reverse domain notation"): at
least two parts between the dots, none of them empty. -/
def IsReverseDomain (org : String) : Prop :=
  2 ≤ (splitOnByte '.' org.data).length ∧ ∀ part ∈ splitOnByte '.' org.data, part ≠ []

/-! ## The endpoint and the files of the `model` command -/

/-- The endpoint `runModel` hands to `NewModelGenerator` (cmd/model.go:101-105
and 111-117) for the model name and the endpoint that was supplied. -/
def modelEndpoint (modelName endpoint : String) : String :=
  if endpoint = "" then "/api/" ++ (NewNamingHelper modelName).KebabCase else endpoint

/-- The arguments `runModel` builds the generator with (cmd/model.go:111-117),
as far as they depend on the command line and the form. -/
structure ModelGeneratorArgs where
  modelName : String
  jsonData : Option GoMap
  endpoint : String
  packageName : String

/-- The flags of the `model` command (cmd/model.go:36-39), the empty string
when a flag is not given. -/
structure ModelFlags where
  name : String
  json : String
  jsonFile : String
  endpoint : String

/-- What `runModel` reads from its surroundings: the outcome of the form
`runModelInteractive()` (model name, JSON text, endpoint), whether
`pubspec.yaml` exists, the outcome of `getPackageName()`, of `os.ReadFile`, of
the syntax check of `json.Unmarshal` on a text, and the float64 nearest to a
number literal. -/
structure ModelEnv where
  form : Except String (String × String × String)
  pubspecExists : Bool
  packageName : Except String String
  readFile : String → Except String String
  parse : String → Except String JSONText
  round : NumLit → Float64

/-- The model name `runModel` takes from the command line (cmd/model.go:45-54):
the first argument, else the flag `name`. -/
def modelNameArg (args : List String) (flags : ModelFlags) : String :=
  match args with
  | a :: _ => a
  | [] => flags.name

/-- The test `modelName == "" || (jsonStr == "" && jsonFile == "")`
(cmd/model.go:62) that opens the form. -/
def needsForm (args : List String) (flags : ModelFlags) : Bool :=
  decide (modelNameArg args flags = "" ∨ (flags.json = "" ∧ flags.jsonFile = ""))

/-- `runModel` from the check for a Flutter project to
`generator.NewModelGenerator(...)` (cmd/model.go:70-117), for the model name,
JSON text and endpoint in force after the form. -/
def runModelFrom (env : ModelEnv) (modelName jsonStr jsonFile endpoint : String) :
    Except String ModelGeneratorArgs :=
  if !env.pubspecExists then .error "pubspec.yaml not found"
  else
    match env.packageName with
    | .error e => .error e
    | .ok packageName =>
      match (if jsonFile ≠ "" then env.readFile jsonFile else .ok jsonStr) with
      | .error e => .error e
      | .ok text =>
        match env.parse text with
        | .error e => .error ("failed to parse JSON: " ++ e)
        | .ok sample =>
          match unmarshalMap env.round sample with
          | .error e => .error ("failed to parse JSON: " ++ e)
          | .ok jsonData => .ok ⟨modelName, jsonData, modelEndpoint modelName endpoint, packageName⟩

/-- `runModel` up to `generator.NewModelGenerator(...)` (cmd/model.go:42-117):
the error returned, or the arguments of the generator. When the form is opened
its three answers replace the model name, the JSON text and the endpoint of the
command line. -/
def runModelArgs (env : ModelEnv) (args : List String) (flags : ModelFlags) :
    Except String ModelGeneratorArgs :=
  if needsForm args flags then
    match env.form with
    | .error e => .error e
    | .ok (modelName, jsonStr, endpoint) =>
      runModelFrom env modelName jsonStr flags.jsonFile endpoint
  else runModelFrom env (modelNameArg args flags) flags.json flags.jsonFile flags.endpoint

/-- Surroundings in which the form is answered with the model name `user`, the
sample `\x7b"id": 1\x7d` and an empty endpoint, inside a Flutter project whose
package is `app`. -/
def formEnv : ModelEnv where
  form := .ok ("user", "\x7b\"id\": 1\x7d", "")
  pubspecExists := true
  packageName := .ok "app"
  readFile := fun _ => .error "open: no such file or directory"
  parse := fun text =>
    if text = "\x7b\"id\": 1\x7d" then .ok (.obj [("id", .num ⟨"1", 1, 0⟩)])
    else .error "invalid character"
  round := fun n => ⟨n.mant, 0⟩

/-- `FileWriter.WriteFile` (file.go:20-35) as the generator sees it: `fs path`
is the error of creating the directory or writing the file at `path`, if any;
on success the path joins the files written so far. -/
def WriteFile (fs : String → Option String) (written : List String) (path : String) :
    Option String × List String :=
  match fs path with
  | some e => (some e, written)
  | none => (none, written ++ [path])

/-- `ModelGenerator.generateModel` (model.go:61-105), its write. -/
def generateModel (fs : String → Option String) (naming : NamingHelper)
    (written : List String) : Option String × List String :=
  WriteFile fs written ("lib/model/" ++ naming.SnakeCase ++ ".dart")

/-- `ModelGenerator.generateService` (model.go:107-162), its write. -/
def generateService (fs : String → Option String) (naming : NamingHelper)
    (written : List String) : Option String × List String :=
  WriteFile fs written ("lib/network/service/" ++ naming.SnakeCase ++ "_service.dart")

/-- `ModelGenerator.generateRepository` (model.go:164-254), its write. -/
def generateRepository (fs : String → Option String) (naming : NamingHelper)
    (written : List String) : Option String × List String :=
  WriteFile fs written ("lib/repositories/" ++ naming.SnakeCase ++ "_repository.dart")

/-- `ModelGenerator.generateBloc` (model.go:256-284): three writes, the first
error is returned at once. -/
def generateBloc (fs : String → Option String) (naming : NamingHelper)
    (written : List String) : Option String × List String :=
  match WriteFile fs written ("lib/state_management/bloc/" ++ naming.SnakeCase ++ "/" ++
      naming.SnakeCase ++ "_bloc.dart") with
  | (some e, w1) => (some e, w1)
  | (none, w1) =>
    match WriteFile fs w1 ("lib/state_management/bloc/" ++ naming.SnakeCase ++ "/" ++
        naming.SnakeCase ++ "_event.dart") with
    | (some e, w2) => (some e, w2)
    | (none, w2) =>
      WriteFile fs w2 ("lib/state_management/bloc/" ++ naming.SnakeCase ++ "/" ++
        naming.SnakeCase ++ "_state.dart")

/-- `ModelGenerator.Generate` (model.go:41-59): the error it returns and the
files it has written, in order. -/
def Generate (fs : String → Option String) (modelName : String) :
    Option String × List String :=
  match generateModel fs (NewNamingHelper modelName) [] with
  | (some e, w) => (some ("failed to generate model: " ++ e), w)
  | (none, w) =>
    match generateService fs (NewNamingHelper modelName) w with
    | (some e, w) => (some ("failed to generate service: " ++ e), w)
    | (none, w) =>
      match generateRepository fs (NewNamingHelper modelName) w with
      | (some e, w) => (some ("failed to generate repository: " ++ e), w)
      | (none, w) =>
        match generateBloc fs (NewNamingHelper modelName) w with
        | (some e, w) => (some ("failed to generate bloc: " ++ e), w)
        | (none, w) => (none, w)

/-- The six paths of a model whose snake-case name is `n`, in the order of the
writes. -/
def modelFiles (n : String) : List String :=
  ["lib/model/" ++ n ++ ".dart",
    "lib/network/service/" ++ n ++ "_service.dart",
    "lib/repositories/" ++ n ++ "_repository.dart",
    "lib/state_management/bloc/" ++ n ++ "/" ++ n ++ "_bloc.dart",
    "lib/state_management/bloc/" ++ n ++ "/" ++ n ++ "_event.dart",
    "lib/state_management/bloc/" ++ n ++ "/" ++ n ++ "_state.dart"]

/-- The box "Generated files:" that `runModel` prints after a successful run
(cmd/model.go:126-131). -/
def announcedFiles (modelName : String) : List String :=
  ["lib/model/" ++ (NewNamingHelper modelName).SnakeCase ++ ".dart",
    "lib/network/service/" ++ (NewNamingHelper modelName).SnakeCase ++ "_service.dart",
    "lib/repositories/" ++ (NewNamingHelper modelName).SnakeCase ++ "_repository.dart",
    "lib/state_management/bloc/" ++ (NewNamingHelper modelName).SnakeCase ++ "/*"]

/-- The uppercase form of an ASCII lowercase letter; any other byte is kept. -/
def asciiUpper (c : Char) : Char := if isLow c then upperByte c else c

/-- Words joined by single underscores. -/
def underscoreJoin : List (List Char) → List Char
  | [] => []
  | w :: ws => w ++ (ws.map (fun x => ['_'] ++ x)).flatten

/-- What the snake pass writes after a word for the text `R` that follows it:
nothing when `R` is empty, else an underscore and the pass over `R`. -/
def underscoreThen (R : List Char) : List Char :=
  if R = [] then [] else '_' :: delimitedLoop '_' false none R

/-- A word: a non-empty run of ASCII letters. -/
def IsWord (w : List Char) : Prop := w ≠ [] ∧ ∀ c ∈ w, isCap c = true ∨ isLow c = true

/-- A run of the separators space, underscore and hyphen. -/
def IsGap (g : List Char) : Prop := ∀ c ∈ g, c = ' ' ∨ c = '_' ∨ c = '-'

/-- A sequence of words, each with the run of separators that follows it; only
the run after the last word may be empty. -/
def WordItems : List (List Char × List Char) → Prop
  | [] => True
  | [it] => IsWord it.1 ∧ IsGap it.2
  | it :: next :: rest => IsWord it.1 ∧ IsGap it.2 ∧ it.2 ≠ [] ∧ WordItems (next :: rest)

/-- The text of a sequence of words and separator runs. -/
def itemsText (items : List (List Char × List Char)) : List Char :=
  (items.map (fun it => it.1 ++ it.2)).flatten

/-- The Pascal form of one word: the camel pass started with the next letter to
be capitalised. -/
def pascalWord (w : List Char) : List Char := camelLoop false true false w

/-- The snake form of one word: the snake pass over the word alone. -/
def snakeWord (w : List Char) : List Char := delimitedLoop '_' false none w

/-- One underscore for every byte of a run of separators. -/
def underscores (g : List Char) : List Char := g.map (fun _ => '_')

/-- The byte the camel pass makes of the current byte (the updates of `v` at
the head of the loop of `toCamelInitCase`). -/
def camelByte (first capNext prevCap : Bool) (c : Char) : Char :=
  if capNext then (if isLow c then upperByte c else c)
  else if first then (if isCap c then lowerByte c else c)
  else if prevCap && isCap c then lowerByte c
  else c

/-! ## The feature generator of the `generate` command -/

/-- `FeatureGenerator` (cmd/generate.go:143-148), with the field its writes
depend on. -/
structure FeatureGenerator where
  featureName : String

/-- `FeatureGenerator.generateService` (cmd/generate.go:163-214), its write. -/
def FeatureGenerator.generateService (g : FeatureGenerator) (fs : String → Option String)
    (written : List String) : Option String × List String :=
  WriteFile fs written
    ("lib/network/service/" ++ (NewNamingHelper g.featureName).SnakeCase ++ "_service.dart")

/-- `FeatureGenerator.generateRepository` (cmd/generate.go:216-305), its
write. -/
def FeatureGenerator.generateRepository (g : FeatureGenerator) (fs : String → Option String)
    (written : List String) : Option String × List String :=
  WriteFile fs written
    ("lib/repositories/" ++ (NewNamingHelper g.featureName).SnakeCase ++ "_repository.dart")

/-- `FeatureGenerator.generateBloc` (cmd/generate.go:307-325): it builds a
`ModelGenerator` for the feature name and runs its `Generate`. -/
def FeatureGenerator.generateBloc (g : FeatureGenerator) (fs : String → Option String)
    (written : List String) : Option String × List String :=
  ((Generate fs g.featureName).1, written ++ (Generate fs g.featureName).2)

/-- `FeatureGenerator.generateAll` (cmd/generate.go:150-161). -/
def FeatureGenerator.generateAll (g : FeatureGenerator) (fs : String → Option String)
    (written : List String) : Option String × List String :=
  match g.generateService fs written with
  | (some e, w) => (some e, w)
  | (none, w) =>
    match g.generateRepository fs w with
    | (some e, w) => (some e, w)
    | (none, w) => g.generateBloc fs w

/-- `runGenerate` from the switch on the component type on
(cmd/generate.go:108-139): the error returned and the files written. -/
def runGenerate (fs : String → Option String) (featureName componentType : String) :
    Option String × List String :=
  if componentType = "service" then (FeatureGenerator.mk featureName).generateService fs []
  else if componentType = "repository" then
    (FeatureGenerator.mk featureName).generateRepository fs []
  else if componentType = "bloc" then (FeatureGenerator.mk featureName).generateBloc fs []
  else if componentType = "all" then (FeatureGenerator.mk featureName).generateAll fs []
  else (some ("invalid component type: " ++ componentType), [])

/-! ## The project configuration and the Flutter commands -/

/-- `ModelConfig` (config/project.go:33-37). -/
structure ModelConfig where
  Name : String
  JSONData : Option GoMap
  Endpoint : String

/-- `ProjectConfig` (config/project.go:4-30). -/
structure ProjectConfig where
  ProjectName : String
  OrganizationName : String
  Description : String
  TargetDirectory : String
  UseFirebase : Bool
  UseSupabase : Bool
  EnableNotifications : Bool
  NotificationService : String
  Models : List ModelConfig
  GenerateLoginScreen : Bool
  GenerateHomeScreen : Bool
  GenerateProfileScreen : Bool
  GenerateSettingsScreen : Bool
  Force : Bool

/-- `DefaultProjectConfig` (config/project.go:59-71); the fields it does not
name have their zero value. -/
def DefaultProjectConfig : ProjectConfig where
  ProjectName := ""
  OrganizationName := "com.example"
  Description := ""
  TargetDirectory := "."
  UseFirebase := false
  UseSupabase := false
  EnableNotifications := false
  NotificationService := ""
  Models := []
  GenerateLoginScreen := true
  GenerateHomeScreen := true
  GenerateProfileScreen := false
  GenerateSettingsScreen := false
  Force := false

/-- An `exec.Cmd` as the tool builds it: the program, its arguments and the
field `Dir`; an empty `Dir` runs the command in the current directory of the
calling process. -/
structure Cmd where
  name : String
  args : List String
  dir : String

/-- `FlutterCLI` (flutter.go:10-12). -/
structure FlutterCLI where
  workingDir : String

/-- `NewFlutterCLI` (flutter.go:15-17). -/
def NewFlutterCLI (workingDir : String) : FlutterCLI := ⟨workingDir⟩

/-- The command `FlutterCLI.Create` builds and runs (flutter.go:20-34): `Dir`
is not assigned and keeps its zero value. -/
def FlutterCLI.Create (_f : FlutterCLI) (projectName org : String) (force : Bool) : Cmd where
  name := "flutter"
  args := ["create", "--org", org, "--project-name", projectName] ++
    (if force then ["--overwrite"] else []) ++ [projectName]
  dir := ""

/-- The command `FlutterCLI.runCommand` builds and runs (flutter.go:77-81). -/
def FlutterCLI.runCommand (f : FlutterCLI) (args : List String) : Cmd where
  name := "flutter"
  args := args
  dir := f.workingDir

/-- The command of `ProjectGenerator.createFlutterProject`
(generator/project.go:106-113). -/
def createFlutterProject (cfg : ProjectConfig) : Cmd :=
  (NewFlutterCLI cfg.TargetDirectory).Create cfg.ProjectName cfg.OrganizationName cfg.Force

/-- The project path `ProjectGenerator.Generate` builds its file writer and its
Flutter wrapper with (generator/project.go:36-45). -/
def projectPath (cfg : ProjectConfig) : String :=
  if cfg.TargetDirectory ≠ "." then cfg.TargetDirectory ++ "/" ++ cfg.ProjectName
  else cfg.ProjectName

/-- The directory `flutter create NAME` makes the project in, as a path from
the current directory of the tool: `NAME` inside the directory the command runs
in. -/
def createdProjectPath (c : Cmd) : String :=
  if c.dir = "" then c.args.getLastD "" else c.dir ++ "/" ++ c.args.getLastD ""

/-! ## The pubspec template -/

/-- The slice `dependencies` of `GeneratePubspec` when it is formatted
(templates.go:11-57). -/
def pubspecDependencies (cfg : ProjectConfig) : List String :=
  ["flutter:", "  sdk: flutter", "flutter_localizations:", "  sdk: flutter",
    "cupertino_icons: ^1.0.8", "logger: ^2.5.0", "flutter_secure_storage: ^9.2.2",
    "flutter_bloc: ^8.1.6", "hydrated_bloc: ^9.1.5", "equatable: ^2.0.7",
    "font_awesome_flutter: ^10.8.0", "pine: ^1.0.3", "provider: ^6.0.5", "retrofit: ^4.4.1",
    "dio: ^5.7.0", "pretty_dio_logger: ^1.4.0", "auto_route: ^9.2.2",
    "cached_network_image: ^3.2.3", "json_annotation: ^4.9.0",
    "sqlite3_flutter_libs: ^0.5.27", "path_provider: ^2.1.5", "path: ^1.9.0",
    "shared_preferences: ^2.3.3", "intl: ^0.20.2", "google_fonts: ^6.3.2",
    "flutter_local_notifications: ^18.0.1"] ++
  (if cfg.UseFirebase then
    ["firebase_core: ^4.1.1", "firebase_auth: ^6.1.0", "cloud_firestore: ^6.0.2",
      "google_sign_in: ^7.2.0"] ++
    (if cfg.EnableNotifications then ["firebase_messaging: ^15.1.6"] else [])
  else []) ++
  (if cfg.UseSupabase then ["supabase_flutter: ^2.9.1"] else [])

/-- The slice `devDependencies` of `GeneratePubspec` (templates.go:59-71). -/
def pubspecDevDependencies : List String :=
  ["flutter_test:", "  sdk: flutter", "flutter_lints: ^5.0.0", "build_runner: ^2.4.13",
    "bloc_test: ^9.1.0", "retrofit_generator: ^9.1.5", "auto_route_generator: ^9.0.0",
    "http_mock_adapter: ^0.6.1", "data_fixture_dart: ^2.2.0", "mockito: ^5.3.2",
    "json_serializable: ^6.7.1"]

/-- The variable `description` of `GeneratePubspec` (templates.go:73-76). -/
def pubspecDescription (cfg : ProjectConfig) : String :=
  if cfg.Description = "" then "A new Flutter project with Pine architecture."
  else cfg.Description

/-- `GeneratePubspec` (templates.go:10-101). -/
def GeneratePubspec (cfg : ProjectConfig) : String :=
  "name: " ++ cfg.ProjectName ++ "\ndescription: " ++ pubspecDescription cfg ++
    "\npublish_to: 'none'\nversion: 1.0.0+1\n\nenvironment:\n  sdk: '>=3.0.0 <4.0.0'\n\n" ++
    "dependencies:\n  " ++ "\n  ".intercalate (pubspecDependencies cfg) ++
    "\n\ndev_dependencies:\n  " ++ "\n  ".intercalate pubspecDevDependencies ++
    "\n\nflutter:\n  uses-material-design: true\n  generate: true\n"

/-- The package an entry of a dependency list names: the text before the
colon. -/
def packageOf (entry : String) : String := ⟨entry.data.takeWhile (fun c => c ≠ ':')⟩

/-! ## The steps of the project generator -/

/-- The steps of `ProjectGenerator.Generate` that can fail, and the two
commands of `runCodeGeneration`. -/
inductive Step where
  | createFlutterProject
  | updatePubspec
  | createFolderStructure
  | generateCoreFiles
  | pubGet
  | setupFirebase
  | setupSupabase
  | generateModels
  | generateScreens
  | genL10n
  | buildRunnerBuild
deriving DecidableEq

/-- The state of a run of `Generate`: the error it is about to return, if any,
and the steps it has entered so far, in order. -/
abbrev Run := Option String × List Step

/-- One guarded step `if err := step(); err != nil { return fmt.Errorf(msg +
": %w", err) }`: nothing happens once an error is being returned; otherwise the
step is entered and its error, if any, is wrapped. `outcome s` is the error of
step `s`. -/
def doStep (outcome : Step → Option String) (msg : String) (s : Step) (r : Run) : Run :=
  match r.1 with
  | some _ => r
  | none =>
    match outcome s with
    | some e => (some (msg ++ ": " ++ e), r.2 ++ [s])
    | none => (none, r.2 ++ [s])

/-- `ProjectGenerator.runCodeGeneration` (generator/project.go:206-218): the
error it returns and the commands it has run after `done`. -/
def runCodeGeneration (outcome : Step → Option String) (done : List Step) : Run :=
  match outcome .genL10n with
  | some e => (some e, done ++ [.genL10n])
  | none =>
    match outcome .buildRunnerBuild with
    | some e => (some e, done ++ [.genL10n, .buildRunnerBuild])
    | none => (none, done ++ [.genL10n, .buildRunnerBuild])

/-- `ProjectGenerator` (generator/project.go:13-18), with its configuration. -/
structure ProjectGenerator where
  config : ProjectConfig

/-- `ProjectGenerator.Generate` (generator/project.go:29-104). The error of
`runCodeGeneration` is logged as a warning and dropped. -/
def ProjectGenerator.Generate (g : ProjectGenerator) (outcome : Step → Option String) : Run :=
  let r := doStep outcome "failed to create Flutter project" .createFlutterProject (none, [])
  let r := doStep outcome "failed to update pubspec" .updatePubspec r
  let r := doStep outcome "failed to create folders" .createFolderStructure r
  let r := doStep outcome "failed to generate core files" .generateCoreFiles r
  let r := doStep outcome "failed to install dependencies" .pubGet r
  let r := if g.config.UseFirebase then
    doStep outcome "failed to setup Firebase" .setupFirebase r else r
  let r := if g.config.UseSupabase then
    doStep outcome "failed to setup Supabase" .setupSupabase r else r
  let r := if g.config.Models.length > 0 then
    doStep outcome "failed to generate models" .generateModels r else r
  let r := doStep outcome "failed to generate screens" .generateScreens r
  match r.1 with
  | some _ => r
  | none => (none, (runCodeGeneration outcome r.2).2)

/-- The guarded steps of `Generate` for a configuration, in order, each with
the message its error is wrapped in. -/
def guardedSteps (cfg : ProjectConfig) : List (Step × String) :=
  [(.createFlutterProject, "failed to create Flutter project"),
    (.updatePubspec, "failed to update pubspec"),
    (.createFolderStructure, "failed to create folders"),
    (.generateCoreFiles, "failed to generate core files"),
    (.pubGet, "failed to install dependencies")] ++
  (if cfg.UseFirebase then [(.setupFirebase, "failed to setup Firebase")] else []) ++
  (if cfg.UseSupabase then [(.setupSupabase, "failed to setup Supabase")] else []) ++
  (if cfg.Models.length > 0 then [(.generateModels, "failed to generate models")] else []) ++
  [(.generateScreens, "failed to generate screens")]

/-- A list of guarded steps run one after the other. -/
def runSteps (outcome : Step → Option String) (steps : List (Step × String)) (r : Run) : Run :=
  steps.foldl (fun r sm => doStep outcome sm.2 sm.1 r) r

/-! ## The screens of the wizard -/

/-- The body of the loop over the selected screens
(cmd/create.go:233-244). -/
def setScreenFlag (cfg : ProjectConfig) (screen : String) : ProjectConfig :=
  if screen = "login" then { cfg with GenerateLoginScreen := true }
  else if screen = "home" then { cfg with GenerateHomeScreen := true }
  else if screen = "profile" then { cfg with GenerateProfileScreen := true }
  else if screen = "settings" then { cfg with GenerateSettingsScreen := true }
  else cfg

/-- The loop "Set screen flags" of `runInteractiveWizard`
(cmd/create.go:232-244). -/
def setScreenFlags (cfg : ProjectConfig) (selectedScreens : List String) : ProjectConfig :=
  selectedScreens.foldl setScreenFlag cfg

/-- The configuration `runInteractiveWizard` returns, as far as the screens are
concerned: it starts from `DefaultProjectConfig()` (cmd/create.go:108) and no
step before the loop assigns a screen flag. -/
def wizardScreens (selectedScreens : List String) : ProjectConfig :=
  setScreenFlags DefaultProjectConfig selectedScreens

/-- One guarded write `if flag { if err := write(); err != nil { return err }
}` of `ScreenGenerator.Generate`. -/
def writeIf (fs : String → Option String) (flag : Bool) (path : String)
    (r : Option String × List String) : Option String × List String :=
  match r.1 with
  | some _ => r
  | none => if flag then WriteFile fs r.2 path else r

/-- `ScreenGenerator` (generator/screens.go:10-14), with its configuration. -/
structure ScreenGenerator where
  config : ProjectConfig

/-- `ScreenGenerator.Generate` (generator/screens.go:26-56) with the writes of
the four screens (screens.go:242, 457, 578, 725): the error returned and the
files written. -/
def ScreenGenerator.Generate (g : ScreenGenerator) (fs : String → Option String) :
    Option String × List String :=
  writeIf fs g.config.GenerateSettingsScreen "lib/ui/settings/settings_page.dart"
    (writeIf fs g.config.GenerateProfileScreen "lib/ui/profile/profile_page.dart"
      (writeIf fs g.config.GenerateHomeScreen "lib/ui/home/home_page.dart"
        (writeIf fs g.config.GenerateLoginScreen "lib/ui/login/login_page.dart" (none, []))))

/-! ## Words of an identifier and the round trip through a cased form -/

/-- A test on the byte before or after a position; false where there is no
byte. -/
def byteIs (f : Char → Bool) : Option Char → Bool
  | some c => f c
  | none => false

/-- An ASCII letter. -/
def isAlpha (c : Char) : Bool := isCap c || isLow c

/-- A word starts at the letter `x`: it is the first byte, or follows a
separator or a digit, or is a capital after a lowercase letter. -/
def startsWord (prev : Option Char) (x : Char) : Bool :=
  isAlpha x && (prev.isNone || byteIs isSeparator prev || byteIs isNum prev ||
    (byteIs isLow prev && isCap x))

/-- A word ends at the letter `x`: it is the last byte, or a separator or a
digit follows, or it is a lowercase letter before a capital. -/
def endsWord (x : Char) (next : Option Char) : Bool :=
  isAlpha x && (next.isNone || byteIs isSeparator next || byteIs isNum next ||
    (isLow x && byteIs isCap next))

/-- The letter `x` is a word of its own. -/
def oneLetterWord (prev : Option Char) (x : Char) (next : Option Char) : Bool :=
  startsWord prev x && endsWord x next

/-- What breaks the round trip at the first byte `x` of a piece of text that
follows the byte `prev`: `x` is no letter, digit or separator; `x` is a
separator at the start or the end of the text or before another separator; `x`
is a separator between two digits; `x` is the first of two capitals that a
lowercase letter follows; or `x` is a one-letter word and the next word, after
one separator or none, is a one-letter word too. With `init` false (the camel
form, whose first letter is lowered) the last case does not count at the first
byte of the text. -/
def breaksAt (init : Bool) (prev : Option Char) : List Char → Bool
  | [] => false
  | x :: rest =>
    (!(isAlpha x || isNum x || isSeparator x)) ||
    (isSeparator x && (prev.isNone || rest.head?.isNone || byteIs isSeparator rest.head?)) ||
    (byteIs isNum prev && isSeparator x && byteIs isNum rest.head?) ||
    (isCap x &&
      (match rest with
       | y :: z :: _ => isCap y && isLow z
       | _ => false)) ||
    (oneLetterWord prev x rest.head? && (init || prev.isSome) &&
      (match rest with
       | y :: rest2 =>
         if isSeparator y then
           (match rest2 with
            | z :: rest3 => oneLetterWord (some y) z rest3.head?
            | [] => false)
         else oneLetterWord (some x) y rest2.head?
       | [] => false))

/-- Nothing breaks the round trip at any byte of the text that follows the
byte `prev`. -/
def noBreak (init : Bool) : Option Char → List Char → Bool
  | _, [] => true
  | prev, x :: rest => !breaksAt init prev (x :: rest) && noBreak init (some x) rest

/-- The byte the snake pass writes for a byte: the underscore for a separator,
the lowercase letter for a capital, else the byte. -/
def snakeByte (c : Char) : Char := if isSeparator (convLower c) then '_' else convLower c

/-- At most one underscore. -/
def und (b : Bool) : List Char := if b then ['_'] else []

/-- The snake pass writes an underscore between the neighbours `x` and `y`, the
byte after `y` being `next`: after a lowercase letter or a digit when the kind
of byte changes, before a digit, and between two capitals when a lowercase
letter follows. -/
def gapAfter (x y : Char) (next : Option Char) : Bool :=
  (isLow x && (isCap y || isNum y)) || (isNum x && (isCap y || isLow y)) ||
    (isCap x && isNum y) || (isCap x && isCap y && byteIs isLow next)

/-- The flag `capNext` of the camel pass at a byte that follows `prev`. -/
def capNextOf (init : Bool) : Option Char → Bool
  | none => init
  | some c => isNum c || isSeparator c

/-- The camel pass over the text that follows the byte `prev`. -/
def camelFrom (init : Bool) (prev : Option Char) (r : List Char) : List Char :=
  camelLoop prev.isNone (capNextOf init prev) (prevIsCap prev) r

/-- The byte the camel pass makes of `c` after the byte `prev`. -/
def camelOut (init : Bool) (prev : Option Char) (c : Char) : Char :=
  camelByte prev.isNone (capNextOf init prev) (prevIsCap prev) c

/-- A letter, a digit or a separator. -/
def isIdByte (c : Char) : Bool := isAlpha c || isNum c || isSeparator c

/-! # Theorems -/

/-! ## Facts about the float conversions -/

theorem toRat_natExp (a : Int) (s : Nat) :
    (Float64.mk a (s : Int)).toRat = ((a * 2 ^ s : Int) : ℚ) := by
  simp only [Float64.toRat, zpow_natCast]
  push_cast
  rfl

theorem float64OfInt_toRat_int (n : Int) :
    ∃ k : Int, (float64OfInt n).toRat = (k : ℚ) := by
  unfold float64OfInt
  simp only
  by_cases h : (if n.natAbs = 0 then 0 else Nat.log2 n.natAbs + 1) ≤ 53
  · rw [if_pos h]; exact ⟨n, by simp [Float64.toRat]⟩
  · rw [if_neg h]; exact ⟨_, toRat_natExp _ _⟩

theorem float64OfInt_small (n : Int) (h : n.natAbs < 2 ^ 53) :
    float64OfInt n = ⟨n, 0⟩ := by
  unfold float64OfInt
  simp only
  rw [if_pos]
  split
  · omega
  · rename_i h0
    have := (Nat.log2_lt h0).2 h
    omega

theorem float64OfInt_exact (m : Int) (k : Nat) (hm : m.natAbs < 2 ^ 53) :
    (float64OfInt (m * 2 ^ k)).toRat = ((m * 2 ^ k : Int) : ℚ) := by
  by_cases hsmall : (m * 2 ^ k).natAbs < 2 ^ 53
  · rw [float64OfInt_small _ hsmall]; simp [Float64.toRat]
  · have ha : (m * 2 ^ k).natAbs = m.natAbs * 2 ^ k := by
      rw [Int.natAbs_mul, Int.natAbs_pow]; rfl
    have h0 : (m * 2 ^ k).natAbs ≠ 0 := by
      intro h; rw [h] at hsmall; exact hsmall (by positivity)
    have hlt : (m * 2 ^ k).natAbs < 2 ^ (53 + k) := by
      rw [ha, pow_add]
      exact Nat.mul_lt_mul_of_pos_right hm (by positivity)
    have hlog : Nat.log2 (m * 2 ^ k).natAbs < 53 + k := (Nat.log2_lt h0).2 hlt
    have hlog2 : 53 ≤ Nat.log2 (m * 2 ^ k).natAbs := by
      by_contra hc
      exact hsmall ((Nat.log2_lt h0).1 (by omega))
    unfold float64OfInt
    simp only [if_neg h0]
    rw [if_neg (by omega)]
    set sh := Nat.log2 (m * 2 ^ k).natAbs + 1 - 53 with hsh
    have hshk : sh ≤ k := by omega
    have hshpos : 0 < sh := by omega
    have hdvd : 2 ^ sh ∣ (m * 2 ^ k).natAbs := by
      rw [ha]; exact Dvd.dvd.mul_left (pow_dvd_pow 2 hshk) _
    have hr : (m * 2 ^ k).natAbs % 2 ^ sh = 0 := Nat.mod_eq_zero_of_dvd hdvd
    have hhalf : 0 < 2 ^ (sh - 1) := by positivity
    rw [hr, if_neg (by omega)]
    simp only [Float64.toRat, zpow_natCast]
    have hq : (m * 2 ^ k).natAbs / 2 ^ sh * 2 ^ sh = (m * 2 ^ k).natAbs :=
      Nat.div_mul_cancel hdvd
    have key : (m * 2 ^ k).sign * (((m * 2 ^ k).natAbs / 2 ^ sh : Nat) : Int) * 2 ^ sh
        = m * 2 ^ k := by
      have : ((((m * 2 ^ k).natAbs / 2 ^ sh : Nat) : Int)) * 2 ^ sh
          = ((m * 2 ^ k).natAbs : Int) := by exact_mod_cast hq
      rw [mul_assoc, this, Int.sign_mul_natAbs]
    have key2 := congrArg (fun z : Int => (z : ℚ)) key
    simp only at key2
    push_cast at key2 ⊢
    exact key2

theorem truncRat_intCast (n : Int) : truncRat (n : ℚ) = n := by
  unfold truncRat
  split <;> simp

/-- An integer-valued binary64 inside the int64 range survives the round trip
through `int64`, so it is typed `int`. -/
theorem getFieldType_num_integral (ovf : Float64 → Int) (v : Float64)
    (hw : v.WellFormed) (hf : Int.fract v.toRat = 0)
    (hlo : -(2 : ℚ) ^ 63 ≤ v.toRat) (hhi : v.toRat < (2 : ℚ) ^ 63) :
    getFieldType ovf (.num v) = "int" := by
  obtain ⟨n, hn⟩ : ∃ n : Int, v.toRat = n := ⟨⌊v.toRat⌋, by
    have := Int.floor_add_fract v.toRat
    rw [hf, add_zero] at this
    exact this.symm⟩
  have hrange : -2 ^ 63 ≤ n ∧ n < 2 ^ 63 := by
    rw [hn] at hlo hhi
    constructor
    · exact_mod_cast hlo
    · exact_mod_cast hhi
  have hconv : int64OfFloat ovf v = n := by
    unfold int64OfFloat
    simp only [hn, truncRat_intCast]
    rw [if_pos hrange]
  have hexact : (float64OfInt n).toRat = n := by
    rcases le_or_lt 0 v.exp with he | he
    · obtain ⟨k, hk⟩ := Int.eq_ofNat_of_zero_le he
      have hnk : n = v.mant * 2 ^ k := by
        have h1 : v.toRat = ((v.mant * 2 ^ k : Int) : ℚ) := by
          unfold Float64.toRat
          rw [hk, zpow_natCast]
          push_cast
          rfl
        rw [hn] at h1
        exact_mod_cast h1
      rw [hnk]
      exact float64OfInt_exact _ _ hw.1
    · have hsmall : n.natAbs < 2 ^ 53 := by
        have h1 : |(n : ℚ)| ≤ |(v.mant : ℚ)| := by
          rw [← hn]
          unfold Float64.toRat
          rw [abs_mul]
          have h2 : |(2 : ℚ) ^ v.exp| ≤ 1 := by
            rw [abs_of_pos (by positivity)]
            exact zpow_le_one_of_nonpos₀ (by norm_num) he.le
          calc |(v.mant : ℚ)| * |(2 : ℚ) ^ v.exp| ≤ |(v.mant : ℚ)| * 1 := by gcongr
            _ = _ := mul_one _
        have h3 : (n.natAbs : ℚ) ≤ (v.mant.natAbs : ℚ) := by
          simpa [Nat.cast_natAbs] using h1
        have h4 : n.natAbs ≤ v.mant.natAbs := by exact_mod_cast h3
        exact lt_of_le_of_lt h4 hw.1
      rw [float64OfInt_small _ hsmall]
      simp [Float64.toRat]
  simp only [getFieldType, hconv, hexact, hn, if_true]

/-- A binary64 with a non-zero fractional part differs from every converted
integer, so it is typed `double` whatever an out-of-range conversion gives. -/
theorem getFieldType_num_fractional (ovf : Float64 → Int) (v : Float64)
    (hf : Int.fract v.toRat ≠ 0) :
    getFieldType ovf (.num v) = "double" := by
  obtain ⟨k, hk⟩ := float64OfInt_toRat_int (int64OfFloat ovf v)
  have hne : v.toRat ≠ (float64OfInt (int64OfFloat ovf v)).toRat := by
    intro h
    apply hf
    rw [h, hk]
    exact Int.fract_intCast k
  simp only [getFieldType, if_neg hne]

theorem toRat_zero_exp (m : Int) : (Float64.mk m 0).toRat = (m : ℚ) := by
  simp [Float64.toRat]

theorem fract_toRat_zero_exp (m : Int) : Int.fract (Float64.mk m 0).toRat = 0 := by
  rw [toRat_zero_exp]
  exact Int.fract_intCast m

theorem fract_five_halves : Int.fract (Float64.mk 5 (-1)).toRat ≠ 0 := by
  intro h
  have h1 := Int.floor_add_fract (Float64.mk 5 (-1)).toRat
  rw [h, add_zero] at h1
  have h2 : (Float64.mk 5 (-1)).toRat = 5 / 2 := by
    simp [Float64.toRat]
    norm_num
  rw [h2] at h1
  have h3 : (2 : ℚ) * (⌊(5 / 2 : ℚ)⌋ : ℚ) = 5 := by rw [h1]; norm_num
  have h4 : (2 : Int) * ⌊(5 / 2 : ℚ)⌋ = 5 := by exact_mod_cast h3
  omega

theorem getFieldType_num_pos (ovf : Float64 → Int) (v : Float64)
    (h : v.toRat = (float64OfInt (int64OfFloat ovf v)).toRat) :
    getFieldType ovf (.num v) = "int" := by
  simp only [getFieldType, if_pos h]

theorem getFieldType_num_neg (ovf : Float64 → Int) (v : Float64)
    (h : ¬ v.toRat = (float64OfInt (int64OfFloat ovf v)).toRat) :
    getFieldType ovf (.num v) = "double" := by
  simp only [getFieldType, if_neg h]

theorem getFieldType_cons (ovf : Float64 → Int) (x : JSON) (rest : List JSON) :
    getFieldType ovf (.arr (x :: rest)) = "List<" ++ getFieldType ovf x ++ ">" := by
  simp only [getFieldType]

/-! ## The type inferencer -/

/-- C1: on a JSON number `getFieldType` answers `int` exactly when the float
equals the float conversion of its conversion to int64, and `double` otherwise;
every binary64 with zero fractional part inside the int64 range is typed `int`,
every number with a non-zero fractional part is typed `double`; in particular 5,
-3 and 2.0 give `int` and 2.5 gives `double`. -/
theorem getFieldType_number (ovf : Float64 → Int) (v : Float64) :
    (getFieldType ovf (.num v) = "int" ↔
      v.toRat = (float64OfInt (int64OfFloat ovf v)).toRat) ∧
    (getFieldType ovf (.num v) = "double" ↔
      v.toRat ≠ (float64OfInt (int64OfFloat ovf v)).toRat) ∧
    (-2 ^ 63 ≤ truncRat v.toRat → truncRat v.toRat < 2 ^ 63 →
      int64OfFloat ovf v = truncRat v.toRat) ∧
    (v.WellFormed → Int.fract v.toRat = 0 → -(2 : ℚ) ^ 63 ≤ v.toRat →
      v.toRat < (2 : ℚ) ^ 63 → getFieldType ovf (.num v) = "int") ∧
    (Int.fract v.toRat ≠ 0 → getFieldType ovf (.num v) = "double") ∧
    getFieldType ovf (.num ⟨5, 0⟩) = "int" ∧
    getFieldType ovf (.num ⟨-3, 0⟩) = "int" ∧
    getFieldType ovf (.num ⟨2, 0⟩) = "int" ∧
    getFieldType ovf (.num ⟨5, -1⟩) = "double" := by
  refine ⟨?_, ?_, ?_, getFieldType_num_integral ovf v, getFieldType_num_fractional ovf v,
    ?_, ?_, ?_, getFieldType_num_fractional ovf _ fract_five_halves⟩
  · by_cases h : v.toRat = (float64OfInt (int64OfFloat ovf v)).toRat
    · exact ⟨fun _ => h, fun _ => getFieldType_num_pos ovf v h⟩
    · refine ⟨fun h' => ?_, fun h' => absurd h' h⟩
      rw [getFieldType_num_neg ovf v h] at h'
      exact absurd h' (by decide)
  · by_cases h : v.toRat = (float64OfInt (int64OfFloat ovf v)).toRat
    · refine ⟨fun h' => ?_, fun h' => absurd h h'⟩
      rw [getFieldType_num_pos ovf v h] at h'
      exact absurd h' (by decide)
    · exact ⟨fun _ => h, fun _ => getFieldType_num_neg ovf v h⟩
  · intro h1 h2
    unfold int64OfFloat
    simp only
    rw [if_pos ⟨h1, h2⟩]
  · refine getFieldType_num_integral ovf _ (by decide) (fract_toRat_zero_exp _) ?_ ?_ <;>
      rw [toRat_zero_exp] <;> norm_num
  · refine getFieldType_num_integral ovf _ (by decide) (fract_toRat_zero_exp _) ?_ ?_ <;>
      rw [toRat_zero_exp] <;> norm_num
  · refine getFieldType_num_integral ovf _ (by decide) (fract_toRat_zero_exp _) ?_ ?_ <;>
      rw [toRat_zero_exp] <;> norm_num

/-- C1 at the value 7: a well-formed, integer-valued float inside the int64
range is typed `int`. -/
theorem getFieldType_number_witness :
    (Float64.mk 7 0).WellFormed ∧ Int.fract (Float64.mk 7 0).toRat = 0 ∧
    -(2 : ℚ) ^ 63 ≤ (Float64.mk 7 0).toRat ∧ (Float64.mk 7 0).toRat < (2 : ℚ) ^ 63 ∧
    getFieldType (fun _ => -2 ^ 63) (.num ⟨7, 0⟩) = "int" :=
  ⟨by decide, fract_toRat_zero_exp 7, by rw [toRat_zero_exp]; norm_num,
    by rw [toRat_zero_exp]; norm_num,
    (getFieldType_number (fun _ => -2 ^ 63) ⟨7, 0⟩).2.2.2.1 (by decide)
      (fract_toRat_zero_exp 7) (by rw [toRat_zero_exp]; norm_num)
      (by rw [toRat_zero_exp]; norm_num)⟩

/-- C2: an empty array is typed `List<dynamic>`; a non-empty array is typed
`List<T>` with `T` the type of its first element, whatever follows it, so
`[1,2,3]` and `[1,"a"]` are both typed `List<int>`. -/
theorem getFieldType_array (ovf : Float64 → Int) :
    getFieldType ovf (.arr []) = "List<dynamic>" ∧
    (∀ (x : JSON) (rest : List JSON),
      getFieldType ovf (.arr (x :: rest)) = "List<" ++ getFieldType ovf x ++ ">") ∧
    (∀ (x : JSON) (rest rest' : List JSON),
      getFieldType ovf (.arr (x :: rest)) = getFieldType ovf (.arr (x :: rest'))) ∧
    getFieldType ovf (.arr [.num ⟨1, 0⟩, .num ⟨2, 0⟩, .num ⟨3, 0⟩]) = "List<int>" ∧
    getFieldType ovf (.arr [.num ⟨1, 0⟩, .str "a"]) = "List<int>" := by
  have h1 : getFieldType ovf (.num ⟨1, 0⟩) = "int" := by
    refine getFieldType_num_integral ovf _ (by decide) (fract_toRat_zero_exp _) ?_ ?_ <;>
      rw [toRat_zero_exp] <;> norm_num
  refine ⟨by simp only [getFieldType], fun x rest => by simp only [getFieldType],
    fun x rest rest' => by simp only [getFieldType], ?_, ?_⟩
  · rw [getFieldType_cons, h1]; decide
  · rw [getFieldType_cons, h1]; decide

/-- C3: `null` is typed `dynamic`, every boolean `bool` and every string,
the empty one included, `String`. -/
theorem getFieldType_scalars (ovf : Float64 → Int) :
    getFieldType ovf .null = "dynamic" ∧
    (∀ b : Bool, getFieldType ovf (.bool b) = "bool") ∧
    (∀ s : String, getFieldType ovf (.str s) = "String") ∧
    getFieldType ovf (.str "") = "String" := by
  refine ⟨?_, fun b => ?_, fun s => ?_, ?_⟩ <;> simp only [getFieldType]

/-- C4: every object, empty or not, is typed `Map<String, dynamic>`; any two
objects get the same tag. -/
theorem getFieldType_object (ovf : Float64 → Int) (kvs kvs' : List (String × JSON)) :
    getFieldType ovf (.obj kvs) = "Map<String, dynamic>" ∧
    getFieldType ovf (.obj []) = "Map<String, dynamic>" ∧
    getFieldType ovf (.obj kvs) = getFieldType ovf (.obj kvs') := by
  refine ⟨?_, ?_, ?_⟩ <;> simp only [getFieldType]

/-! ## The schema extraction loop -/

theorem foldl_append_singleton {α β : Type} (f : α → β) (xs : List α) (acc : List β) :
    xs.foldl (fun fields e => fields ++ [f e]) acc = acc ++ xs.map f := by
  induction xs generalizing acc with
  | nil => simp
  | cons x xs ih => simp [ih]

theorem fieldLines_eq_map (ovf : Float64 → Int) (visit : List (String × JSON)) :
    fieldLines ovf visit = visit.map (fieldLine ovf) := by
  unfold fieldLines
  rw [foldl_append_singleton]
  simp

theorem GoMap.set_keys (m : GoMap) (k : String) (v : JSON) :
    (m.set k v).map Prod.fst =
      if k ∈ m.map Prod.fst then m.map Prod.fst else m.map Prod.fst ++ [k] := by
  unfold GoMap.set
  by_cases h : k ∈ m.map Prod.fst
  · have hany : m.any (fun e => e.1 == k) = true := by
      obtain ⟨e, he, hk⟩ := List.mem_map.1 h
      exact List.any_eq_true.2 ⟨e, he, by simp [hk]⟩
    rw [if_pos hany, if_pos h, List.map_map]
    apply List.map_congr_left
    intro e _
    by_cases hk : e.1 = k
    · simp [hk]
    · simp [hk]
  · have hany : ¬ m.any (fun e => e.1 == k) = true := by
      intro hc
      obtain ⟨e, he, hk⟩ := List.any_eq_true.1 hc
      exact h (List.mem_map.2 ⟨e, he, by simpa using hk⟩)
    rw [if_neg hany, if_neg h]
    simp

theorem foldl_set_keys_nodup (kvs : List (String × JSON)) (m : GoMap)
    (h : (m.map Prod.fst).Nodup) :
    ((kvs.foldl (fun m e => GoMap.set m e.1 e.2) m).map Prod.fst).Nodup := by
  induction kvs generalizing m with
  | nil => exact h
  | cons e kvs ih =>
    apply ih
    rw [GoMap.set_keys]
    split
    · exact h
    · rename_i hk
      exact List.Nodup.append h (List.nodup_singleton _) (by simpa using hk)

theorem foldl_set_keys_mem (kvs : List (String × JSON)) (m : GoMap) (k : String) :
    k ∈ (kvs.foldl (fun m e => GoMap.set m e.1 e.2) m).map Prod.fst ↔
      k ∈ m.map Prod.fst ∨ k ∈ kvs.map Prod.fst := by
  induction kvs generalizing m with
  | nil => simp
  | cons e kvs ih =>
    rw [List.foldl_cons, ih, GoMap.set_keys]
    by_cases he : e.1 ∈ m.map Prod.fst
    · rw [if_pos he]
      constructor
      · rintro (h | h)
        · exact Or.inl h
        · exact Or.inr (by simp only [List.map_cons, List.mem_cons]; exact Or.inr h)
      · rintro (h | h)
        · exact Or.inl h
        · simp only [List.map_cons, List.mem_cons] at h
          rcases h with h | h
          · exact Or.inl (h ▸ he)
          · exact Or.inr h
    · rw [if_neg he]
      simp only [List.mem_append, List.mem_singleton, List.map_cons, List.mem_cons]
      tauto

theorem foldl_set_of_nodup (kvs : List (String × JSON)) (m : GoMap)
    (h : ((m ++ kvs).map Prod.fst).Nodup) :
    kvs.foldl (fun m e => GoMap.set m e.1 e.2) m = m ++ kvs := by
  induction kvs generalizing m with
  | nil => simp
  | cons e kvs ih =>
    have hnot : ¬ m.any (fun x => x.1 == e.1) = true := by
      intro hc
      obtain ⟨x, hx, hk⟩ := List.any_eq_true.1 hc
      have hk' : x.1 = e.1 := by simpa using hk
      rw [List.map_append, List.nodup_append] at h
      exact h.2.2 (List.mem_map.2 ⟨x, hx, hk'⟩) (by simp)
    have hset : GoMap.set m e.1 e.2 = m ++ [e] := by
      unfold GoMap.set
      rw [if_neg hnot]
    rw [List.foldl_cons, hset, ih]
    · simp
    · simpa using h

theorem decodeObject_of_nodup (kvs : List (String × JSON))
    (h : (kvs.map Prod.fst).Nodup) : decodeObject kvs = kvs := by
  unfold decodeObject
  rw [foldl_set_of_nodup kvs [] (by simpa using h)]
  simp

theorem sampleMembers_keys_nodup : (sampleMembers.map Prod.fst).Nodup := by
  simp [sampleMembers]

theorem sampleMembers_reverse_rangeOrder :
    RangeOrder (decodeObject sampleMembers) sampleMembers.reverse := by
  unfold RangeOrder
  rw [decodeObject_of_nodup _ sampleMembers_keys_nodup]
  exact List.reverse_perm _

/-- C5, as stated, fails: `range` may visit the decoded sample object
`{"id": 1, "name": "Ann", "active": true}` in an order other than the source
order, and then the fields do not come out as (id,int), (name,String),
(active,bool). -/
theorem generateFields_order_counterexample :
    ¬ ∀ visit : List (String × JSON), RangeOrder (decodeObject sampleMembers) visit →
      fieldLines (fun _ => -2 ^ 63) visit =
        ["final int id;", "final String name;", "final bool active;"] := by
  intro h
  have h1 := h _ sampleMembers_reverse_rangeOrder
  rw [fieldLines_eq_map] at h1
  have h2 := congrArg List.head? h1
  simp only [sampleMembers, List.reverse_cons, List.reverse_nil, List.nil_append,
    List.cons_append, List.map_cons, List.head?_cons, fieldLine, getFieldType,
    Option.some.injEq] at h2
  exact absurd h2 (by decide)

/-- C5 (amended): for every decoded object and every order in which `range` may
visit its map, `generateFields` yields one line per visited entry, pairing the
key verbatim with `getFieldType` of its value, in the visiting order; the map
has one entry per distinct key of the object, and for an object with distinct
keys the lines are a permutation of the per-member lines in source order. -/
theorem generateFields_entries (ovf : Float64 → Int) (kvs visit : List (String × JSON))
    (h : RangeOrder (decodeObject kvs) visit) :
    fieldLines ovf visit =
      visit.map (fun e => "final " ++ getFieldType ovf e.2 ++ " " ++ e.1 ++ ";") ∧
    generateFields ovf visit = "\n  ".intercalate (fieldLines ovf visit) ∧
    (fieldLines ovf visit).length = (decodeObject kvs).length ∧
    ((decodeObject kvs).map Prod.fst).Nodup ∧
    (∀ k, k ∈ (decodeObject kvs).map Prod.fst ↔ k ∈ kvs.map Prod.fst) ∧
    (visit.map Prod.fst).Perm ((decodeObject kvs).map Prod.fst) ∧
    ((kvs.map Prod.fst).Nodup →
      (fieldLines ovf visit).Perm
        (kvs.map (fun e => "final " ++ getFieldType ovf e.2 ++ " " ++ e.1 ++ ";"))) := by
  unfold RangeOrder at h
  refine ⟨fieldLines_eq_map ovf visit, rfl, ?_, ?_, ?_, h.map _, ?_⟩
  · rw [fieldLines_eq_map, List.length_map]
    exact h.length_eq
  · exact foldl_set_keys_nodup kvs [] (by simp)
  · intro k
    unfold decodeObject
    rw [foldl_set_keys_mem]
    simp
  · intro hnd
    rw [fieldLines_eq_map]
    rw [decodeObject_of_nodup kvs hnd] at h
    exact h.map _

/-- C5 (amended) at the sample object visited in reverse order. -/
theorem generateFields_entries_witness :
    RangeOrder (decodeObject sampleMembers) sampleMembers.reverse ∧
    (fieldLines (fun _ => -2 ^ 63) sampleMembers.reverse).length =
      (decodeObject sampleMembers).length :=
  ⟨sampleMembers_reverse_rangeOrder,
    (generateFields_entries (fun _ => -2 ^ 63) sampleMembers sampleMembers.reverse
      sampleMembers_reverse_rangeOrder).2.2.1⟩

/-! ## The decoding step of the model command -/

theorem decodeMembers_nil (round : NumLit → Float64) : decodeMembers round [] = .ok [] := by
  simp [decodeMembers]

set_option exponentiation.threshold 2048 in
/-- The literal `1e400` is out of the float64 range. -/
theorem overflows_1e400 : (NumLit.mk "1e400" 1 400).overflows = true := by
  unfold NumLit.overflows float64Limit
  decide

set_option exponentiation.threshold 2048 in
/-- The literal `1` is in the float64 range. -/
theorem overflows_one : (NumLit.mk "1" 1 0).overflows = false := by
  unfold NumLit.overflows float64Limit
  decide

mutual
theorem decodeValue_inRange (round : NumLit → Float64) :
    ∀ v : JSONText, v.inRange = true → ∃ y, decodeValue round v = .ok y
  | .null, _ => ⟨.null, by simp [decodeValue]⟩
  | .bool b, _ => ⟨.bool b, by simp [decodeValue]⟩
  | .num n, h => by
      simp only [JSONText.inRange, Bool.not_eq_true'] at h
      exact ⟨.num (round n), by simp [decodeValue, convertNumber, h]⟩
  | .str s, _ => ⟨.str s, by simp [decodeValue]⟩
  | .arr xs, h => by
      simp only [JSONText.inRange] at h
      obtain ⟨ys, hys⟩ := decodeValues_inRange round xs h
      exact ⟨.arr ys, by simp [decodeValue, hys]⟩
  | .obj kvs, h => by
      simp only [JSONText.inRange] at h
      obtain ⟨ms, hms⟩ := decodeMembers_inRange round kvs h
      exact ⟨.obj ms, by simp [decodeValue, hms]⟩
theorem decodeValues_inRange (round : NumLit → Float64) :
    ∀ xs : List JSONText, JSONText.inRangeList xs = true → ∃ ys, decodeValues round xs = .ok ys
  | [], _ => ⟨[], by simp [decodeValues]⟩
  | x :: xs, h => by
      simp only [JSONText.inRangeList, Bool.and_eq_true] at h
      obtain ⟨y, hy⟩ := decodeValue_inRange round x h.1
      obtain ⟨ys, hys⟩ := decodeValues_inRange round xs h.2
      exact ⟨y :: ys, by simp [decodeValues, hy, hys]⟩
theorem decodeMembers_inRange (round : NumLit → Float64) :
    ∀ kvs : List (String × JSONText), JSONText.inRangeMembers kvs = true →
      ∃ ms, decodeMembers round kvs = .ok ms
  | [], _ => ⟨[], by simp [decodeMembers]⟩
  | kv :: kvs, h => by
      simp only [JSONText.inRangeMembers, Bool.and_eq_true] at h
      obtain ⟨y, hy⟩ := decodeValue_inRange round kv.2 h.1
      obtain ⟨ms, hms⟩ := decodeMembers_inRange round kvs h.2
      exact ⟨(kv.1, y) :: ms, by simp [decodeMembers, hy, hms]⟩
end

mutual
theorem decodeValue_outOfRange (round : NumLit → Float64) :
    ∀ v : JSONText, v.inRange = false → ∃ e, decodeValue round v = .error e
  | .null, h => by simp [JSONText.inRange] at h
  | .bool _, h => by simp [JSONText.inRange] at h
  | .num n, h => by
      simp only [JSONText.inRange, Bool.not_eq_false'] at h
      exact ⟨"json: cannot unmarshal number " ++ n.text ++ " into Go value of type float64",
        by simp [decodeValue, convertNumber, h]⟩
  | .str _, h => by simp [JSONText.inRange] at h
  | .arr xs, h => by
      simp only [JSONText.inRange] at h
      obtain ⟨e, he⟩ := decodeValues_outOfRange round xs h
      exact ⟨e, by simp [decodeValue, he]⟩
  | .obj kvs, h => by
      simp only [JSONText.inRange] at h
      obtain ⟨e, he⟩ := decodeMembers_outOfRange round kvs h
      exact ⟨e, by simp [decodeValue, he]⟩
theorem decodeValues_outOfRange (round : NumLit → Float64) :
    ∀ xs : List JSONText, JSONText.inRangeList xs = false →
      ∃ e, decodeValues round xs = .error e
  | [], h => by simp [JSONText.inRangeList] at h
  | x :: xs, h => by
      simp only [JSONText.inRangeList, Bool.and_eq_false_iff] at h
      cases hx : x.inRange with
      | false =>
        obtain ⟨e, he⟩ := decodeValue_outOfRange round x hx
        exact ⟨e, by simp [decodeValues, he]⟩
      | true =>
        obtain ⟨y, hy⟩ := decodeValue_inRange round x hx
        have h2 : JSONText.inRangeList xs = false := by
          rcases h with h | h
          · rw [hx] at h; exact absurd h (by simp)
          · exact h
        obtain ⟨e, he⟩ := decodeValues_outOfRange round xs h2
        exact ⟨e, by simp [decodeValues, hy, he]⟩
theorem decodeMembers_outOfRange (round : NumLit → Float64) :
    ∀ kvs : List (String × JSONText), JSONText.inRangeMembers kvs = false →
      ∃ e, decodeMembers round kvs = .error e
  | [], h => by simp [JSONText.inRangeMembers] at h
  | kv :: kvs, h => by
      simp only [JSONText.inRangeMembers, Bool.and_eq_false_iff] at h
      cases hx : kv.2.inRange with
      | false =>
        obtain ⟨e, he⟩ := decodeValue_outOfRange round kv.2 hx
        exact ⟨e, by simp [decodeMembers, he]⟩
      | true =>
        obtain ⟨y, hy⟩ := decodeValue_inRange round kv.2 hx
        have h2 : JSONText.inRangeMembers kvs = false := by
          rcases h with h | h
          · rw [hx] at h; exact absurd h (by simp)
          · exact h
        obtain ⟨e, he⟩ := decodeMembers_outOfRange round kvs h2
        exact ⟨e, by simp [decodeMembers, hy, he]⟩
end

/-- C6: on the top-level value `null` the decode reports no error and the
generator is built with a nil map and run; arrays, strings, numbers and
booleans are rejected before the generator is reached; an object is decoded
and handed to the generator when all its numbers are in the float64 range, and
rejected before the generator is reached when one is not, as is the object with
the one member `"a": 1e400`. -/
theorem runModel_null_reaches_generator (generate : Option GoMap → Option String)
    (round : NumLit → Float64) :
    (runModel generate round .null).generatorInput = some none ∧
    (runModel generate round .null).err = generate none ∧
    (∀ xs, (runModel generate round (.arr xs)).generatorInput = none ∧
      (runModel generate round (.arr xs)).err.isSome = true) ∧
    (∀ s, (runModel generate round (.str s)).generatorInput = none ∧
      (runModel generate round (.str s)).err.isSome = true) ∧
    (∀ x, (runModel generate round (.num x)).generatorInput = none ∧
      (runModel generate round (.num x)).err.isSome = true) ∧
    (∀ b, (runModel generate round (.bool b)).generatorInput = none ∧
      (runModel generate round (.bool b)).err.isSome = true) ∧
    (∀ kvs, JSONText.inRangeMembers kvs = true →
      ∃ ms, decodeMembers round kvs = .ok ms ∧
        runModel generate round (.obj kvs) =
          ⟨generate (some (decodeObject ms)), some (some (decodeObject ms))⟩) ∧
    (∀ kvs, JSONText.inRangeMembers kvs = false →
      (runModel generate round (.obj kvs)).generatorInput = none ∧
      (runModel generate round (.obj kvs)).err.isSome = true) ∧
    runModel generate round (.obj [("a", .num ⟨"1e400", 1, 400⟩)]) =
      ⟨some ("failed to parse JSON: " ++
        "json: cannot unmarshal number 1e400 into Go value of type float64"), none⟩ := by
  refine ⟨rfl, rfl, fun _ => ⟨rfl, rfl⟩, fun _ => ⟨rfl, rfl⟩, fun _ => ⟨rfl, rfl⟩,
    fun _ => ⟨rfl, rfl⟩, fun kvs h => ?_, fun kvs h => ?_, ?_⟩
  · obtain ⟨ms, hms⟩ := decodeMembers_inRange round kvs h
    exact ⟨ms, hms, by simp [runModel, unmarshalMap, hms]⟩
  · obtain ⟨e, he⟩ := decodeMembers_outOfRange round kvs h
    simp [runModel, unmarshalMap, he]
  · simp [runModel, unmarshalMap, decodeMembers, decodeValue, convertNumber,
      overflows_1e400]

/-- C7: `getFieldType` is total: on every decoded value it returns a type tag,
it makes at most as many recursive calls as the value is deep, and run with
that many calls as budget it returns its result. -/
theorem getFieldType_total (ovf : Float64 → Int) : ∀ v : JSON,
    IsTypeTag (getFieldType ovf v) ∧ getFieldTypeCalls v ≤ v.depth ∧
    getFieldTypeFuel ovf (getFieldTypeCalls v) v = some (getFieldType ovf v)
  | .null => ⟨by simp only [getFieldType]; exact .dynamic, by simp [getFieldTypeCalls],
      by simp [getFieldTypeFuel, getFieldType]⟩
  | .bool _ => ⟨by simp only [getFieldType]; exact .bool, by simp [getFieldTypeCalls],
      by simp [getFieldTypeFuel, getFieldType]⟩
  | .num v => by
      refine ⟨?_, by simp [getFieldTypeCalls], by simp [getFieldTypeFuel, getFieldType]⟩
      by_cases h : v.toRat = (float64OfInt (int64OfFloat ovf v)).toRat
      · rw [getFieldType_num_pos ovf v h]; exact .int
      · rw [getFieldType_num_neg ovf v h]; exact .double
  | .str _ => ⟨by simp only [getFieldType]; exact .string, by simp [getFieldTypeCalls],
      by simp [getFieldTypeFuel, getFieldType]⟩
  | .arr [] => ⟨by simp only [getFieldType]; exact .list _ .dynamic,
      by simp [getFieldTypeCalls], by simp [getFieldTypeFuel, getFieldType]⟩
  | .arr (x :: xs) => by
      obtain ⟨h1, h2, h3⟩ := getFieldType_total ovf x
      refine ⟨?_, ?_, ?_⟩
      · rw [getFieldType_cons]; exact .list _ h1
      · simp only [getFieldTypeCalls, JSON.depth, JSON.depthList]
        omega
      · simp only [getFieldTypeCalls, getFieldTypeFuel, h3, getFieldType_cons, Option.map_some']
  | .obj _ => ⟨by simp only [getFieldType]; exact .map, by simp [getFieldTypeCalls],
      by simp [getFieldTypeFuel, getFieldType]⟩

/-! ## Facts about bytes -/

theorem toNat_ofNat_small (n : Nat) (h : n < 55296) : (Char.ofNat n).toNat = n := by
  unfold Char.ofNat
  rw [dif_pos (Or.inl h)]
  rfl

theorem toNat_lowerByte (c : Char) (h : isCap c = true) : (lowerByte c).toNat = c.toNat + 32 := by
  simp only [isCap, decide_eq_true_eq] at h
  exact toNat_ofNat_small _ (by omega)

theorem toNat_upperByte (c : Char) (h : isLow c = true) : (upperByte c).toNat = c.toNat - 32 := by
  simp only [isLow, decide_eq_true_eq] at h
  exact toNat_ofNat_small _ (by omega)

theorem eq_of_toNat_eq {c d : Char} (h : c.toNat = d.toNat) : c = d := by
  rw [← Char.ofNat_toNat c, ← Char.ofNat_toNat d, h]

theorem toNat_convLower (c : Char) :
    (convLower c).toNat = if isCap c = true then c.toNat + 32 else c.toNat := by
  unfold convLower
  split
  · rename_i h; exact toNat_lowerByte c h
  · rfl

/-! ## The delimiter pass without screaming -/

theorem convLower_eq (c : Char) :
    (if (isLow c && false) = true then upperByte c
      else if (isCap c && !false) = true then lowerByte c else c) = convLower c := by
  simp [convLower]

theorem delimitedLoop_single (d : Char) (prev : Option Char) (c : Char) :
    delimitedLoop d false prev [c] =
      [if isSeparator (convLower c) then d else convLower c] := by
  simp only [delimitedLoop, convLower_eq]

theorem delimitedLoop_cons_cons (d : Char) (prev : Option Char) (c next : Char)
    (rest : List Char) :
    delimitedLoop d false prev (c :: next :: rest) =
      if (isCap c && (isLow next || isNum next)) || (isLow c && (isCap next || isNum next)) ||
          (isNum (convLower c) && (isCap next || isLow next)) then
        (if isCap c && isLow next && prevIsCap prev then [d] else []) ++ [convLower c] ++
          (if isLow c || isNum (convLower c) || isNum next then [d] else []) ++
          delimitedLoop d false (some c) (next :: rest)
      else (if isSeparator (convLower c) then d else convLower c) ::
        delimitedLoop d false (some c) (next :: rest) := by
  simp only [delimitedLoop, convLower_eq]

theorem isCap_convLower (c : Char) : isCap (convLower c) = false := by
  have h := toNat_convLower c
  by_cases hc : isCap c = true
  · rw [if_pos hc] at h
    simp only [isCap, decide_eq_true_eq, decide_eq_false_iff_not] at hc ⊢
    omega
  · rw [if_neg hc] at h
    simp only [isCap, decide_eq_true_eq, decide_eq_false_iff_not] at hc ⊢
    omega

theorem isLow_convLower (c : Char) : isLow (convLower c) = (isCap c || isLow c) := by
  have h := toNat_convLower c
  rw [Bool.eq_iff_iff]
  by_cases hc : isCap c = true
  · rw [if_pos hc] at h
    simp only [isCap, isLow, decide_eq_true_eq, Bool.or_eq_true] at hc ⊢
    omega
  · rw [if_neg hc] at h
    simp only [isCap, isLow, decide_eq_true_eq, Bool.or_eq_true] at hc ⊢
    omega

theorem isNum_convLower (c : Char) : isNum (convLower c) = isNum c := by
  have h := toNat_convLower c
  rw [Bool.eq_iff_iff]
  by_cases hc : isCap c = true
  · rw [if_pos hc] at h
    simp only [isCap, isNum, decide_eq_true_eq] at hc ⊢
    omega
  · rw [if_neg hc] at h
    simp only [isCap, isNum, decide_eq_true_eq] at hc ⊢
    omega

theorem isSeparator_convLower (c : Char) : isSeparator (convLower c) = isSeparator c := by
  have h := toNat_convLower c
  rw [Bool.eq_iff_iff]
  by_cases hc : isCap c = true
  · rw [if_pos hc] at h
    simp only [isCap, isSeparator, decide_eq_true_eq] at hc ⊢
    omega
  · rw [if_neg hc] at h
    simp only [isCap, isSeparator, decide_eq_true_eq] at hc ⊢
    omega

theorem isSpace_convLower (c : Char) : isSpace (convLower c) = isSpace c := by
  have h := toNat_convLower c
  rw [Bool.eq_iff_iff]
  by_cases hc : isCap c = true
  · rw [if_pos hc] at h
    simp only [isCap, isSpace, decide_eq_true_eq] at hc ⊢
    omega
  · rw [if_neg hc] at h
    simp only [isCap, isSpace, decide_eq_true_eq] at hc ⊢
    omega

theorem convLower_of_not_cap (c : Char) (h : isCap c = false) : convLower c = c := by
  simp [convLower, h]

theorem eq_underscore_iff (c : Char) : c = '_' ↔ c.toNat = 95 :=
  ⟨fun h => by rw [h]; rfl, fun h => eq_of_toNat_eq (by rw [h]; rfl)⟩

theorem eq_hyphen_iff (c : Char) : c = '-' ↔ c.toNat = 45 :=
  ⟨fun h => by rw [h]; rfl, fun h => eq_of_toNat_eq (by rw [h]; rfl)⟩

theorem plain_of_snakeOk (c : Char) (h : SnakeOk c) :
    (if isSeparator (convLower c) = true then '_' else convLower c) = c := by
  rw [convLower_of_not_cap c h.1]
  by_cases hs : isSeparator c = true
  · rw [if_pos hs]; exact (h.2 hs).symm
  · rw [if_neg hs]

theorem delimitedLoop_of_stable : ∀ (l : List Char) (prev : Option Char), SnakeStable l →
    delimitedLoop '_' false prev l = l
  | [], _, _ => by simp [delimitedLoop]
  | [c], prev, h => by
      rw [delimitedLoop_single, plain_of_snakeOk c (h.1 c (by simp))]
  | c :: next :: rest, prev, h => by
      have hc := h.1 c (by simp)
      have hn := h.1 next (by simp)
      have hadj : SnakeAdj c next := (List.chain'_cons.1 h.2).1
      have htail : SnakeStable (next :: rest) :=
        ⟨fun x hx => h.1 x (List.mem_cons_of_mem _ hx), (List.chain'_cons.1 h.2).2⟩
      have hcond : ((isCap c && (isLow next || isNum next)) ||
          (isLow c && (isCap next || isNum next)) ||
          (isNum (convLower c) && (isCap next || isLow next))) = false := by
        rw [isNum_convLower, hc.1, hn.1]
        have h1 := hadj.1
        have h2 := hadj.2
        cases hl : isLow c <;> cases hm : isNum next <;> cases hk : isNum c <;>
          cases hj : isLow next <;> simp_all
      rw [delimitedLoop_cons_cons, hcond, delimitedLoop_of_stable (next :: rest) (some c) htail,
        plain_of_snakeOk c hc]
      simp

theorem snakeOk_underscore : SnakeOk '_' := ⟨by decide, fun _ => rfl⟩

theorem snakeAdj_underscore_left (x : Char) : SnakeAdj '_' x :=
  ⟨fun h => absurd h.1 (by decide), fun h => absurd h.1 (by decide)⟩

theorem snakeAdj_underscore_right (x : Char) : SnakeAdj x '_' :=
  ⟨fun h => absurd h.2 (by decide), fun h => absurd h.2 (by decide)⟩

theorem snakeOk_convLower (c : Char) (h : isSeparator c = false) : SnakeOk (convLower c) :=
  ⟨isCap_convLower c, fun hs => by rw [isSeparator_convLower, h] at hs; exact absurd hs (by decide)⟩

theorem snakeOk_plain (c : Char) :
    SnakeOk (if isSeparator (convLower c) = true then '_' else convLower c) := by
  by_cases hs : isSeparator (convLower c) = true
  · rw [if_pos hs]; exact snakeOk_underscore
  · rw [if_neg hs]
    rw [isSeparator_convLower] at hs
    exact snakeOk_convLower c (by simpa using hs)

theorem not_separator_of_alnum (c : Char)
    (h : (isCap c || isLow c || isNum c) = true) : isSeparator c = false := by
  simp only [isCap, isLow, isNum, isSeparator, Bool.or_eq_true, decide_eq_true_eq,
    decide_eq_false_iff_not] at h ⊢
  omega

theorem stable_cons (x : Char) (l : List Char) (hx : SnakeOk x) (hl : SnakeStable l)
    (hadj : ∀ y ∈ l.head?, SnakeAdj x y) : SnakeStable (x :: l) :=
  ⟨fun c hc => by
      rcases List.mem_cons.1 hc with h | h
      · rw [h]; exact hx
      · exact hl.1 c h,
    List.chain'_cons'.2 ⟨hadj, hl.2⟩⟩

theorem stable_underscore_cons (l : List Char) (hl : SnakeStable l) :
    SnakeStable ('_' :: l) :=
  stable_cons '_' l snakeOk_underscore hl (fun y _ => snakeAdj_underscore_left y)

theorem adj_of_head (v next : Char) (out : List Char)
    (hhead : ∀ x ∈ out.head?, x = '_' ∨ (x = convLower next ∧ isSeparator next = false))
    (h : SnakeAdj v (convLower next)) : ∀ y ∈ out.head?, SnakeAdj v y := by
  intro y hy
  rcases hhead y hy with h1 | h1
  · rw [h1]; exact snakeAdj_underscore_right v
  · rw [h1.1]; exact h

theorem delimitedLoop_stable : ∀ (t : List Char) (prev : Option Char),
    SnakeStable (delimitedLoop '_' false prev t) ∧
    (∀ x ∈ (delimitedLoop '_' false prev t).head?,
      x = '_' ∨ ∀ c ∈ t.head?, (x = convLower c ∧ isSeparator c = false))
  | [], _ => by simp [delimitedLoop, SnakeStable]
  | [c], prev => by
      rw [delimitedLoop_single]
      refine ⟨stable_cons _ [] (snakeOk_plain c) ⟨by simp, List.chain'_nil⟩ (by simp),
        fun x hx => ?_⟩
      simp only [List.head?_cons, Option.mem_def, Option.some.injEq] at hx
      subst hx
      by_cases hs : isSeparator (convLower c) = true
      · left; rw [if_pos hs]
      · right
        rw [if_neg hs]
        intro c' hc'
        simp only [List.head?_cons, Option.mem_def, Option.some.injEq] at hc'
        subst hc'
        rw [isSeparator_convLower] at hs
        exact ⟨rfl, by simpa using hs⟩
  | c :: next :: rest, prev => by
      obtain ⟨hst, hhead⟩ := delimitedLoop_stable (next :: rest) (some c)
      rw [delimitedLoop_cons_cons]
      generalize delimitedLoop '_' false (some c) (next :: rest) = out at hst hhead ⊢
      have hhead' : ∀ x ∈ out.head?,
          x = '_' ∨ (x = convLower next ∧ isSeparator next = false) := by
        intro x hx
        rcases hhead x hx with h | h
        · exact Or.inl h
        · exact Or.inr (h next rfl)
      by_cases hcond : ((isCap c && (isLow next || isNum next)) ||
          (isLow c && (isCap next || isNum next)) ||
          (isNum (convLower c) && (isCap next || isLow next))) = true
      · rw [if_pos hcond]
        rw [isNum_convLower] at hcond ⊢
        have hsep : isSeparator c = false := by
          apply not_separator_of_alnum
          cases h1 : isCap c <;> cases h2 : isLow c <;> cases h3 : isNum c <;> simp_all
        have hv : SnakeOk (convLower c) := snakeOk_convLower c hsep
        have hcore : SnakeStable ([convLower c] ++
            (if (isLow c || isNum c || isNum next) = true then ['_'] else []) ++ out) := by
          by_cases hq : (isLow c || isNum c || isNum next) = true
          · rw [if_pos hq]
            show SnakeStable (convLower c :: '_' :: out)
            exact stable_cons _ _ hv (stable_underscore_cons out hst)
              (fun y hy => by
                simp only [List.head?_cons, Option.mem_def, Option.some.injEq] at hy
                rw [← hy]; exact snakeAdj_underscore_right _)
          · rw [if_neg hq]
            show SnakeStable (convLower c :: out)
            refine stable_cons _ _ hv hst (adj_of_head _ next out hhead' ?_)
            refine ⟨?_, ?_⟩
            · rw [isNum_convLower]
              intro h
              cases h3 : isNum next <;> simp_all
            · rw [isNum_convLower]
              intro h
              cases h3 : isNum c <;> simp_all
        refine ⟨?_, ?_⟩
        · by_cases hp : (isCap c && isLow next && prevIsCap prev) = true
          · rw [if_pos hp]
            have := stable_underscore_cons _ hcore
            simpa using this
          · rw [if_neg hp]
            simpa using hcore
        · intro x hx
          by_cases hp : (isCap c && isLow next && prevIsCap prev) = true
          · rw [if_pos hp] at hx
            left
            simpa using hx.symm
          · rw [if_neg hp] at hx
            right
            intro c' hc'
            simp only [List.head?_cons, Option.mem_def, Option.some.injEq] at hc'
            subst hc'
            simp only [List.nil_append, List.singleton_append, List.cons_append, List.head?_cons,
              Option.mem_def, Option.some.injEq] at hx
            exact ⟨hx.symm, hsep⟩
      · rw [if_neg hcond]
        rw [isNum_convLower] at hcond
        refine ⟨stable_cons _ _ (snakeOk_plain c) hst ?_, ?_⟩
        · by_cases hs : isSeparator (convLower c) = true
          · rw [if_pos hs]
            exact fun y _ => snakeAdj_underscore_left y
          · rw [if_neg hs]
            refine adj_of_head _ next out hhead' ⟨?_, ?_⟩
            · rw [isLow_convLower, isNum_convLower]
              intro h
              cases h1 : isCap c <;> cases h2 : isLow c <;> cases h3 : isNum next <;> simp_all
            · rw [isLow_convLower, isNum_convLower]
              intro h
              cases h1 : isCap next <;> cases h2 : isLow next <;> cases h3 : isNum c <;>
                simp_all
        · intro x hx
          simp only [List.head?_cons, Option.mem_def, Option.some.injEq] at hx
          subst hx
          by_cases hs : isSeparator (convLower c) = true
          · left; rw [if_pos hs]
          · right
            rw [if_neg hs]
            intro c' hc'
            simp only [List.head?_cons, Option.mem_def, Option.some.injEq] at hc'
            subst hc'
            rw [isSeparator_convLower] at hs
            exact ⟨rfl, by simpa using hs⟩

/-! ## Trimming -/

theorem dropWhile_of_head {p : Char → Bool} (l : List Char)
    (h : ∀ x ∈ l.head?, p x = false) : l.dropWhile p = l := by
  cases l with
  | nil => rfl
  | cons a l => simp [List.dropWhile, h a rfl]

theorem trimSpace_of_ends (l : List Char) (hh : ∀ x ∈ l.head?, isSpace x = false)
    (hl : ∀ x ∈ l.getLast?, isSpace x = false) : trimSpace l = l := by
  unfold trimSpace
  rw [dropWhile_of_head l hh, dropWhile_of_head l.reverse (by rwa [List.head?_reverse]),
    List.reverse_reverse]

theorem trimSpace_getLast (s : List Char) : ∀ x ∈ (trimSpace s).getLast?, isSpace x = false := by
  intro x hx
  unfold trimSpace at hx
  rw [List.getLast?_reverse] at hx
  have h := List.head?_dropWhile_not isSpace (s.dropWhile isSpace).reverse
  rw [Option.mem_def.1 hx] at h
  exact h

theorem trimSpace_head (s : List Char) : ∀ x ∈ (trimSpace s).head?, isSpace x = false := by
  intro x hx
  unfold trimSpace at hx
  have hsuf : (s.dropWhile isSpace).reverse.dropWhile isSpace <:+ (s.dropWhile isSpace).reverse :=
    List.dropWhile_suffix _
  have hpre : ((s.dropWhile isSpace).reverse.dropWhile isSpace).reverse <+: s.dropWhile isSpace := by
    have := List.reverse_prefix.2 hsuf
    rwa [List.reverse_reverse] at this
  obtain ⟨t, ht⟩ := hpre
  have h := List.head?_dropWhile_not isSpace s
  rw [← ht] at h
  cases hr : ((s.dropWhile isSpace).reverse.dropWhile isSpace).reverse with
  | nil => rw [hr] at hx; simp at hx
  | cons a r =>
    rw [hr] at hx h
    simp only [List.head?_cons, Option.mem_def, Option.some.injEq] at hx
    simp only [List.cons_append, List.head?_cons] at h
    rw [← hx]; exact h

theorem delimitedLoop_getLast? (d : Char) : ∀ (t : List Char) (prev : Option Char),
    (delimitedLoop d false prev t).getLast? =
      t.getLast?.map (fun c => if isSeparator (convLower c) = true then d else convLower c)
  | [], _ => by simp [delimitedLoop]
  | [c], prev => by rw [delimitedLoop_single]; rfl
  | c :: next :: rest, prev => by
      have ih := delimitedLoop_getLast? d (next :: rest) (some c)
      obtain ⟨y, hy⟩ : ∃ y, (next :: rest).getLast? = some y :=
        ⟨_, List.getLast?_eq_getLast _ (List.cons_ne_nil _ _)⟩
      rw [hy] at ih
      rw [delimitedLoop_cons_cons, List.getLast?_cons_cons, hy]
      split
      · rw [List.getLast?_append, ih]; rfl
      · rw [List.getLast?_cons, ih]; rfl

theorem isSpace_plain (c : Char) (h : isSpace c = false) :
    isSpace (if isSeparator (convLower c) = true then '_' else convLower c) = false := by
  split
  · decide
  · rw [isSpace_convLower]; exact h

theorem trimSpace_delimitedLoop (s : List Char) :
    trimSpace (delimitedLoop '_' false none (trimSpace s)) =
      delimitedLoop '_' false none (trimSpace s) := by
  apply trimSpace_of_ends
  · intro x hx
    rcases (delimitedLoop_stable (trimSpace s) none).2 x hx with h | h
    · rw [h]; decide
    · cases ht : trimSpace s with
      | nil => rw [ht] at hx; simp [delimitedLoop] at hx
      | cons c t =>
        rw [ht] at h
        have hc := trimSpace_head s c (by rw [ht]; rfl)
        rw [(h c rfl).1, isSpace_convLower]
        exact hc
  · intro x hx
    rw [delimitedLoop_getLast?] at hx
    obtain ⟨c, hc, hx'⟩ := Option.map_eq_some'.1 (Option.mem_def.1 hx)
    rw [← hx']
    exact isSpace_plain c (trimSpace_getLast s c hc)

theorem toSnake_idempotent (s : List Char) : toSnake (toSnake s) = toSnake s := by
  unfold toSnake toScreamingDelimited
  rw [trimSpace_delimitedLoop]
  exact delimitedLoop_of_stable _ none (delimitedLoop_stable _ none).1

/-! ## Snake and kebab -/

theorem hyphenate_of_not_separator (x : Char) (h : isSeparator x = false) : hyphenate x = x := by
  unfold hyphenate
  rw [if_neg]
  intro hx
  rw [hx] at h
  exact absurd h (by decide)

theorem hyphenate_plain (c : Char) :
    hyphenate (if isSeparator (convLower c) = true then '_' else convLower c) =
      if isSeparator (convLower c) = true then '-' else convLower c := by
  by_cases hs : isSeparator (convLower c) = true
  · rw [if_pos hs, if_pos hs]; rfl
  · rw [if_neg hs, if_neg hs]
    exact hyphenate_of_not_separator _ (by simpa using hs)

theorem delimitedLoop_hyphen : ∀ (t : List Char) (prev : Option Char),
    delimitedLoop '-' false prev t = (delimitedLoop '_' false prev t).map hyphenate
  | [], _ => by simp [delimitedLoop]
  | [c], prev => by
      rw [delimitedLoop_single, delimitedLoop_single, List.map_singleton, hyphenate_plain]
  | c :: next :: rest, prev => by
      have ih := delimitedLoop_hyphen (next :: rest) (some c)
      rw [delimitedLoop_cons_cons, delimitedLoop_cons_cons, ih]
      by_cases hcond : ((isCap c && (isLow next || isNum next)) ||
          (isLow c && (isCap next || isNum next)) ||
          (isNum (convLower c) && (isCap next || isLow next))) = true
      · rw [if_pos hcond, if_pos hcond]
        have hsep : isSeparator (convLower c) = false := by
          rw [isSeparator_convLower]
          apply not_separator_of_alnum
          rw [isNum_convLower] at hcond
          cases h1 : isCap c <;> cases h2 : isLow c <;> cases h3 : isNum c <;> simp_all
        have hv := hyphenate_of_not_separator _ hsep
        have hd : hyphenate '_' = '-' := rfl
        by_cases hp : (isCap c && isLow next && prevIsCap prev) = true <;>
          by_cases hq : (isLow c || isNum (convLower c) || isNum next) = true <;>
          simp only [hp, hq, if_true, if_false, List.map_append, List.map_cons, List.map_nil,
            hv, hd, Bool.false_eq_true]
      · rw [if_neg hcond, if_neg hcond, List.map_cons, hyphenate_plain]

theorem hyphen_not_mem_of_stable (l : List Char) (h : SnakeStable l) : '-' ∉ l := by
  intro hm
  have h1 := (h.1 _ hm).2 (by decide)
  exact absurd h1 (by decide)

theorem splitOnByte_hyphenate : ∀ l : List Char, '-' ∉ l →
    splitOnByte '-' (l.map hyphenate) = splitOnByte '_' l
  | [], _ => rfl
  | c :: cs, h => by
      have hc : c ≠ '-' := fun hc => h (by rw [hc]; exact List.mem_cons_self _ _)
      have ih := splitOnByte_hyphenate cs (fun hm => h (List.mem_cons_of_mem _ hm))
      by_cases hu : c = '_'
      · subst hu
        simp only [List.map_cons, splitOnByte, hyphenate, if_true, ih]
      · have hh : hyphenate c = c := by simp [hyphenate, hu]
        simp only [List.map_cons, splitOnByte, hh, if_neg hc, if_neg hu, ih]

theorem toKebab_eq_map_toSnake (s : List Char) : toKebab s = (toSnake s).map hyphenate := by
  unfold toKebab toSnake toScreamingDelimited
  exact delimitedLoop_hyphen _ none

/-! ## Identifiers made of lowercase words -/

theorem intercalate_cons (sep : List Char) (w : List Char) (ws : List (List Char)) :
    List.intercalate sep (w :: ws) = w ++ (ws.map (fun x => sep ++ x)).flatten := by
  induction ws generalizing w with
  | nil => simp [List.intercalate]
  | cons x xs ih =>
    have h := ih x
    unfold List.intercalate at h ⊢
    rw [List.intersperse_cons₂, List.flatten_cons, List.flatten_cons, h]
    simp

theorem isCap_of_isLow (c : Char) (h : isLow c = true) : isCap c = false := by
  simp only [isCap, isLow, decide_eq_true_eq, decide_eq_false_iff_not] at h ⊢
  omega

theorem isNum_of_isLow (c : Char) (h : isLow c = true) : isNum c = false := by
  simp only [isNum, isLow, decide_eq_true_eq, decide_eq_false_iff_not] at h ⊢
  omega

theorem isSeparator_of_isLow (c : Char) (h : isLow c = true) : isSeparator c = false := by
  simp only [isSeparator, isLow, decide_eq_true_eq, decide_eq_false_iff_not] at h ⊢
  omega

theorem isSpace_of_isLow (c : Char) (h : isLow c = true) : isSpace c = false := by
  simp only [isSpace, isLow, decide_eq_true_eq, decide_eq_false_iff_not] at h ⊢
  omega

theorem stable_of_low_or_underscore (l : List Char)
    (h : ∀ c ∈ l, isLow c = true ∨ c = '_') : SnakeStable l := by
  refine ⟨fun c hc => ?_, ?_⟩
  · rcases h c hc with h1 | h1
    · exact ⟨isCap_of_isLow c h1, fun hs => by
        rw [isSeparator_of_isLow c h1] at hs; exact absurd hs (by decide)⟩
    · rw [h1]; exact snakeOk_underscore
  · have hnum : ∀ c ∈ l, isNum c = false := by
      intro c hc
      rcases h c hc with h1 | h1
      · exact isNum_of_isLow c h1
      · rw [h1]; decide
    clear h
    induction l with
    | nil => exact List.chain'_nil
    | cons a l ih =>
      refine List.chain'_cons'.2 ⟨fun y hy => ?_, ih (fun c hc => hnum c (List.mem_cons_of_mem _ hc))⟩
      have hy' : y ∈ l := List.mem_of_mem_head? hy
      refine ⟨fun hh => ?_, fun hh => ?_⟩
      · rw [hnum y (List.mem_cons_of_mem _ hy')] at hh; exact absurd hh.2 (by decide)
      · rw [hnum a (List.mem_cons_self _ _)] at hh; exact absurd hh.1 (by decide)

theorem mem_identifier (w : List Char) (ws : List (List Char)) (c : Char)
    (hc : c ∈ w ++ (ws.map (fun x => ['_'] ++ x)).flatten) :
    c = '_' ∨ ∃ x ∈ w :: ws, c ∈ x := by
  rcases List.mem_append.1 hc with h | h
  · exact Or.inr ⟨w, List.mem_cons_self _ _, h⟩
  · obtain ⟨y, hy, hcy⟩ := List.mem_flatten.1 h
    obtain ⟨x, hx, rfl⟩ := List.mem_map.1 hy
    rcases List.mem_append.1 hcy with h1 | h1
    · exact Or.inl (List.mem_singleton.1 h1)
    · exact Or.inr ⟨x, List.mem_cons_of_mem _ hx, h1⟩

theorem camelLoop_low (first capNext prevCap : Bool) (c : Char) (rest : List Char)
    (hc : isLow c = true) :
    camelLoop first capNext prevCap (c :: rest) =
      (if capNext = true then upperByte c else c) :: camelLoop false false false rest := by
  have h1 := isCap_of_isLow c hc
  cases capNext <;> cases first <;> cases prevCap <;> simp [camelLoop, hc, h1]

theorem camelLoop_low_word (w rest : List Char) (h : ∀ c ∈ w, isLow c = true) :
    camelLoop false false false (w ++ rest) = w ++ camelLoop false false false rest := by
  induction w with
  | nil => rfl
  | cons c w ih =>
    rw [List.cons_append, camelLoop_low _ _ _ c _ (h c (List.mem_cons_self _ _)),
      ih (fun x hx => h x (List.mem_cons_of_mem _ hx))]
    rfl

theorem camelLoop_underscore (rest : List Char) :
    camelLoop false false false ('_' :: rest) = camelLoop false true false rest := by
  have h1 : isCap '_' = false := by decide
  have h2 : isLow '_' = false := by decide
  have h3 : isNum '_' = false := by decide
  have h4 : isSeparator '_' = true := by decide
  simp [camelLoop, h1, h2, h3, h4]

theorem camelLoop_capitalize (first prevCap : Bool) (w rest : List Char) (hne : w ≠ [])
    (h : ∀ c ∈ w, isLow c = true) :
    camelLoop first true prevCap (w ++ rest) =
      capitalize w ++ camelLoop false false false rest := by
  cases w with
  | nil => exact absurd rfl hne
  | cons c w =>
    rw [List.cons_append, camelLoop_low _ _ _ c _ (h c (List.mem_cons_self _ _)),
      camelLoop_low_word w rest (fun x hx => h x (List.mem_cons_of_mem _ hx))]
    rfl

theorem camelLoop_words (ws : List (List Char))
    (hw : ∀ w ∈ ws, w ≠ [] ∧ ∀ c ∈ w, isLow c = true) :
    camelLoop false false false (ws.map (fun x => ['_'] ++ x)).flatten =
      (ws.map capitalize).flatten := by
  induction ws with
  | nil => rfl
  | cons x xs ih =>
    have hx := hw x (List.mem_cons_self _ _)
    rw [List.map_cons, List.flatten_cons, List.map_cons, List.flatten_cons,
      List.append_assoc, List.singleton_append, camelLoop_underscore,
      camelLoop_capitalize _ _ x _ hx.1 hx.2, ih (fun w hm => hw w (List.mem_cons_of_mem _ hm))]

theorem map_hyphenate_low (w : List Char) (h : ∀ c ∈ w, isLow c = true) :
    w.map hyphenate = w := by
  induction w with
  | nil => rfl
  | cons c w ih =>
    rw [List.map_cons, ih (fun x hx => h x (List.mem_cons_of_mem _ hx)),
      hyphenate_of_not_separator c (isSeparator_of_isLow c (h c (List.mem_cons_self _ _)))]

theorem map_hyphenate_words (ws : List (List Char))
    (hw : ∀ w ∈ ws, w ≠ [] ∧ ∀ c ∈ w, isLow c = true) :
    (ws.map (fun x => ['_'] ++ x)).flatten.map hyphenate =
      (ws.map (fun x => ['-'] ++ x)).flatten := by
  induction ws with
  | nil => rfl
  | cons x xs ih =>
    have hx := hw x (List.mem_cons_self _ _)
    rw [List.map_cons, List.flatten_cons, List.map_append, List.map_cons, List.flatten_cons,
      ih (fun w hm => hw w (List.mem_cons_of_mem _ hm)), List.map_append,
      map_hyphenate_low x hx.2]
    rfl

theorem identifier_low_or_underscore (w : List Char) (ws : List (List Char))
    (hw : ∀ x ∈ w :: ws, x ≠ [] ∧ ∀ c ∈ x, isLow c = true) :
    ∀ c ∈ w ++ (ws.map (fun x => ['_'] ++ x)).flatten, isLow c = true ∨ c = '_' := by
  intro c hc
  rcases mem_identifier w ws c hc with h | ⟨x, hx, hcx⟩
  · exact Or.inr h
  · exact Or.inl ((hw x hx).2 c hcx)

theorem trimSpace_identifier (l : List Char) (h : ∀ c ∈ l, isLow c = true ∨ c = '_') :
    trimSpace l = l := by
  have hs : ∀ c ∈ l, isSpace c = false := by
    intro c hc
    rcases h c hc with h1 | h1
    · exact isSpace_of_isLow c h1
    · rw [h1]; decide
  exact trimSpace_of_ends l (fun x hx => hs x (List.mem_of_mem_head? hx))
    (fun x hx => hs x (List.mem_of_mem_getLast? hx))

theorem toSnake_identifier (l : List Char) (h : ∀ c ∈ l, isLow c = true ∨ c = '_') :
    toSnake l = l := by
  unfold toSnake toScreamingDelimited
  rw [trimSpace_identifier l h]
  exact delimitedLoop_of_stable l none (stable_of_low_or_underscore l h)

/-! ## The naming helper -/

/-- C8: for an identifier made of one or more non-empty lowercase words joined
by single underscores, `SnakeCase` returns the identifier, `KebabCase` the words
joined by hyphens, `PascalCase` the capitalised words concatenated and
`CamelCase` the same with the first word left in lowercase. -/
theorem naming_lowercase_words (ws : List (List Char)) (hne : ws ≠ [])
    (hw : ∀ w ∈ ws, w ≠ [] ∧ ∀ c ∈ w, isLow c = true) :
    (NewNamingHelper ⟨List.intercalate ['_'] ws⟩).SnakeCase = ⟨List.intercalate ['_'] ws⟩ ∧
    (NewNamingHelper ⟨List.intercalate ['_'] ws⟩).KebabCase = ⟨List.intercalate ['-'] ws⟩ ∧
    (NewNamingHelper ⟨List.intercalate ['_'] ws⟩).PascalCase =
      ⟨(ws.map capitalize).flatten⟩ ∧
    (NewNamingHelper ⟨List.intercalate ['_'] ws⟩).CamelCase =
      ⟨ws.head hne ++ (ws.tail.map capitalize).flatten⟩ := by
  cases ws with
  | nil => exact absurd rfl hne
  | cons w ws =>
    have hall := identifier_low_or_underscore w ws hw
    have hsnake := toSnake_identifier _ hall
    have htrim := trimSpace_identifier _ hall
    have hw0 := hw w (List.mem_cons_self _ _)
    have hws : ∀ x ∈ ws, x ≠ [] ∧ ∀ c ∈ x, isLow c = true :=
      fun x hx => hw x (List.mem_cons_of_mem _ hx)
    simp only [NewNamingHelper, NamingHelper.SnakeCase, NamingHelper.KebabCase,
      NamingHelper.PascalCase, NamingHelper.CamelCase, intercalate_cons, List.head_cons,
      List.tail_cons, List.map_cons, List.flatten_cons]
    refine ⟨congrArg String.mk hsnake, congrArg String.mk ?_, congrArg String.mk ?_,
      congrArg String.mk ?_⟩
    · rw [toKebab_eq_map_toSnake, hsnake, List.map_append, map_hyphenate_low w hw0.2,
        map_hyphenate_words ws hws]
    · unfold toCamel toCamelInitCase
      rw [htrim, camelLoop_capitalize _ _ w _ hw0.1 hw0.2, camelLoop_words ws hws]
    · unfold toLowerCamel toCamelInitCase
      rw [htrim]
      cases w with
      | nil => exact absurd rfl hw0.1
      | cons c w =>
        rw [List.cons_append, camelLoop_low _ _ _ c _ (hw0.2 c (List.mem_cons_self _ _)),
          camelLoop_low_word w _ (fun x hx => hw0.2 x (List.mem_cons_of_mem _ hx)),
          camelLoop_words ws hws]
        rfl

/-- C8 at the identifier `blog_post`: the four accessors give `blog_post`,
`blog-post`, `BlogPost` and `blogPost`. -/
theorem naming_lowercase_words_witness :
    (∀ w ∈ ["blog".data, "post".data], w ≠ [] ∧ ∀ c ∈ w, isLow c = true) ∧
    (NewNamingHelper "blog_post").SnakeCase = "blog_post" ∧
    (NewNamingHelper "blog_post").KebabCase = "blog-post" ∧
    (NewNamingHelper "blog_post").PascalCase = "BlogPost" ∧
    (NewNamingHelper "blog_post").CamelCase = "blogPost" :=
  ⟨by decide, naming_lowercase_words ["blog".data, "post".data] (by decide) (by decide)⟩

/-- C9: `SnakeCase` is idempotent: for every input, applying it to its own
result changes nothing. -/
theorem snakeCase_idempotent (s : String) :
    (NewNamingHelper (NewNamingHelper s).SnakeCase).SnakeCase = (NewNamingHelper s).SnakeCase := by
  simp only [NewNamingHelper, NamingHelper.SnakeCase, toSnake_idempotent]

/-- C10: for every input, splitting `SnakeCase` on the underscore and splitting
`KebabCase` on the hyphen give the same sequence of words. -/
theorem snake_kebab_same_words (s : String) :
    splitOnByte '_' (NewNamingHelper s).SnakeCase.data =
      splitOnByte '-' (NewNamingHelper s).KebabCase.data := by
  simp only [NewNamingHelper, NamingHelper.SnakeCase, NamingHelper.KebabCase]
  rw [toKebab_eq_map_toSnake]
  exact (splitOnByte_hyphenate _
    (hyphen_not_mem_of_stable _ (delimitedLoop_stable _ none).1)).symm


/-! ## Validation -/

theorem firstByte_eq_none (name : String) (h : firstByte name = none) : name = "" := by
  unfold firstByte at h
  split at h
  · rename_i hd
    exact String.ext hd
  · exact absurd h (by simp)

/-- C16: `ValidateProjectName` always returns (the access to the first byte is
only reached for a non-empty name), and it returns an error exactly when the
name is empty, or contains a space, or contains a dash, or its first byte is
not an ASCII letter, or the name equals a reserved name up to case. -/
theorem validateProjectName_error_iff (name : String) :
    ∃ r, ValidateProjectName name = .ret r ∧
      (r.isSome = true ↔
        (name = "" ∨ ' ' ∈ name.data ∨ '-' ∈ name.data ∨
          (∃ b ∈ firstByte name, isLetter b = false) ∨
          ∃ reserved ∈ reservedNames, equalFold name reserved = true)) := by
  unfold ValidateProjectName
  by_cases h1 : name = ""
  · exact ⟨_, if_pos h1, by simp [h1]⟩
  rw [if_neg h1]
  by_cases h2 : ' ' ∈ name.data
  · exact ⟨_, if_pos h2, by simp [h2]⟩
  rw [if_neg h2]
  by_cases h3 : '-' ∈ name.data
  · exact ⟨_, if_pos h3, by simp [h3]⟩
  rw [if_neg h3]
  cases hb : firstByte name with
  | none => exact absurd (firstByte_eq_none name hb) h1
  | some b =>
    simp only
    by_cases h4 : isLetter b = true
    · by_cases h5 : reservedNames.any (fun reserved => equalFold name reserved) = true
      · obtain ⟨r, hr, hrf⟩ := List.any_eq_true.1 h5
        simp only [h4, h5, Bool.not_true, Bool.false_eq_true, if_false, if_true]
        refine ⟨_, rfl, ?_⟩
        simp only [Option.isSome_some, true_iff]
        exact Or.inr (Or.inr (Or.inr (Or.inr ⟨r, hr, hrf⟩)))
      · simp only [h4, h5, Bool.not_true, Bool.false_eq_true, if_false]
        refine ⟨_, rfl, ?_⟩
        simp only [Option.isSome_none, Bool.false_eq_true, false_iff]
        rintro (h | h | h | ⟨b', hb', hl⟩ | ⟨r, hr, hrf⟩)
        · exact h1 h
        · exact h2 h
        · exact h3 h
        · rw [Option.mem_def] at hb'
          cases hb'
          rw [h4] at hl
          exact absurd hl (by decide)
        · exact h5 (List.any_eq_true.2 ⟨r, hr, hrf⟩)
    · have h4' : isLetter b = false := by simpa using h4
      simp only [h4', Bool.not_false, if_true]
      refine ⟨_, rfl, ?_⟩
      simp only [Option.isSome_some, true_iff]
      exact Or.inr (Or.inr (Or.inr (Or.inl ⟨b, rfl, h4'⟩)))

/-- C17: `ValidateProjectName` accepts `MyApp`, which has capital letters and
so is not of the form the wizard asks for. -/
theorem validateProjectName_accepts_capitals :
    ValidateProjectName "MyApp" = .ret none ∧ ¬ IsFlutterName "MyApp" := by
  refine ⟨by rfl, ?_⟩
  intro h
  have := h.1 'M' (by decide)
  revert this
  decide

theorem splitOnByte_ne_nil (sep : Char) (l : List Char) : splitOnByte sep l ≠ [] := by
  cases l with
  | nil => simp [splitOnByte]
  | cons c cs =>
    unfold splitOnByte
    split
    · simp
    · split <;> simp

theorem two_le_length_splitOnByte (sep : Char) (l : List Char) :
    2 ≤ (splitOnByte sep l).length ↔ sep ∈ l := by
  induction l with
  | nil => simp [splitOnByte]
  | cons c cs ih =>
    have hne := splitOnByte_ne_nil sep cs
    unfold splitOnByte
    by_cases hc : c = sep
    · rw [if_pos hc]
      have : 1 ≤ (splitOnByte sep cs).length := List.length_pos.2 hne
      simp only [List.length_cons, List.mem_cons]
      constructor
      · intro _; exact Or.inl hc.symm
      · intro _; omega
    · rw [if_neg hc]
      cases hs : splitOnByte sep cs with
      | nil => exact absurd hs hne
      | cons w ws =>
        rw [hs] at ih
        simp only [List.length_cons, List.mem_cons] at ih ⊢
        rw [ih]
        constructor
        · intro h; exact Or.inr h
        · rintro (h | h)
          · exact absurd h.symm hc
          · exact h

/-- C18: `ValidateOrganization` accepts `com.`, whose second part is empty and
which therefore is not in the format `com.example`; it accepts exactly the
strings that contain a dot, and every error it returns is on the field
`organization`. -/
theorem validateOrganization_accepts_empty_part :
    ValidateOrganization "com." = none ∧ ¬ IsReverseDomain "com." ∧
    (∀ org : String, ValidateOrganization org = none ↔ '.' ∈ org.data) ∧
    (∀ (org : String) (e : ValidationError),
      ValidateOrganization org = some e → e.Field = "organization") := by
  refine ⟨by rfl, ?_, ?_, ?_⟩
  · intro h
    have := h.2 [] (by decide)
    exact this rfl
  · intro org
    unfold ValidateOrganization
    by_cases h1 : org = ""
    · rw [if_pos h1, h1]
      simp
    · rw [if_neg h1]
      by_cases h2 : (splitOnByte '.' org.data).length < 2
      · rw [if_pos h2]
        have := (two_le_length_splitOnByte '.' org.data).not.1 (by omega)
        simp [this]
      · rw [if_neg h2]
        have := (two_le_length_splitOnByte '.' org.data).1 (by omega)
        simp [this]
  · intro org e h
    unfold ValidateOrganization at h
    split at h
    · cases h; rfl
    · split at h
      · cases h; rfl
      · exact absurd h (by simp)


/-! ## The endpoint and the files of the model command -/

theorem runModelFrom_endpoint (env : ModelEnv) (modelName jsonStr jsonFile endpoint : String)
    (a : ModelGeneratorArgs) (h : runModelFrom env modelName jsonStr jsonFile endpoint = .ok a) :
    a.modelName = modelName ∧ a.endpoint = modelEndpoint modelName endpoint := by
  unfold runModelFrom at h
  split at h
  · cases h
  · split at h
    · cases h
    · split at h
      · cases h
      · split at h
        · cases h
        · split at h
          · cases h
          · cases h
            exact ⟨rfl, rfl⟩

theorem formEnv_sample :
    unmarshalMap formEnv.round (.obj [("id", .num ⟨"1", 1, 0⟩)]) =
      .ok (some [("id", .num ⟨1, 0⟩)]) := by
  simp [unmarshalMap, decodeMembers, decodeValue, convertNumber, overflows_one, formEnv,
    decodeObject, GoMap.set]

theorem formEnv_form_run :
    runModelArgs formEnv ["user"] ⟨"", "", "", "/v2/users"⟩ =
      .ok ⟨"user", some [("id", .num ⟨1, 0⟩)], "/api/user", "app"⟩ := by
  have hk : modelEndpoint "user" "" = "/api/user" := by decide
  have hf : needsForm ["user"] ⟨"", "", "", "/v2/users"⟩ = true := by decide
  have hs := formEnv_sample
  unfold runModelArgs
  rw [hf]
  simp only [formEnv, runModelFrom, if_true] at hs ⊢
  simp [hs, hk]

theorem formEnv_flag_run :
    runModelArgs formEnv ["user"] ⟨"", "\x7b\"id\": 1\x7d", "", "/v2/users"⟩ =
      .ok ⟨"user", some [("id", .num ⟨1, 0⟩)], "/v2/users", "app"⟩ := by
  have hk : modelEndpoint "user" "/v2/users" = "/v2/users" := by decide
  have hf : needsForm ["user"] ⟨"", "\x7b\"id\": 1\x7d", "", "/v2/users"⟩ = false := by decide
  have hs := formEnv_sample
  unfold runModelArgs
  rw [hf]
  simp only [formEnv, runModelFrom, modelNameArg] at hs ⊢
  simp [hs, hk]

/-- C19: the endpoint handed to the generator is `/api/` followed by the
kebab-case form of the model name when the endpoint in force is empty, and the
endpoint in force otherwise; the endpoint in force is the flag's when the form
is not opened, and the form's answer when it is. So with the model name `user`
and the flag `--endpoint /v2/users` but no JSON on the command line, a form
answered with an empty endpoint makes the generator receive `/api/user`. -/
theorem runModel_form_replaces_endpoint :
    (∀ modelName : String,
      modelEndpoint modelName "" = "/api/" ++ (NewNamingHelper modelName).KebabCase) ∧
    (∀ modelName endpoint : String, endpoint ≠ "" →
      modelEndpoint modelName endpoint = endpoint) ∧
    (∀ (env : ModelEnv) (args : List String) (flags : ModelFlags) (a : ModelGeneratorArgs),
      needsForm args flags = false → runModelArgs env args flags = .ok a →
      a.modelName = modelNameArg args flags ∧
      a.endpoint = modelEndpoint (modelNameArg args flags) flags.endpoint) ∧
    (∀ (env : ModelEnv) (args : List String) (flags : ModelFlags) (a : ModelGeneratorArgs),
      needsForm args flags = true → runModelArgs env args flags = .ok a →
      ∃ modelName jsonStr endpoint, env.form = .ok (modelName, jsonStr, endpoint) ∧
        a.modelName = modelName ∧ a.endpoint = modelEndpoint modelName endpoint) ∧
    needsForm ["user"] ⟨"", "", "", "/v2/users"⟩ = true ∧
    runModelArgs formEnv ["user"] ⟨"", "", "", "/v2/users"⟩ =
      .ok ⟨"user", some [("id", .num ⟨1, 0⟩)], "/api/user", "app"⟩ ∧
    runModelArgs formEnv ["user"] ⟨"", "\x7b\"id\": 1\x7d", "", "/v2/users"⟩ =
      .ok ⟨"user", some [("id", .num ⟨1, 0⟩)], "/v2/users", "app"⟩ := by
  refine ⟨fun modelName => ?_, fun modelName endpoint h => ?_, fun env args flags a hf h => ?_,
    fun env args flags a hf h => ?_, by decide, ?_, ?_⟩
  · unfold modelEndpoint
    rw [if_pos rfl]
  · unfold modelEndpoint
    rw [if_neg h]
  · unfold runModelArgs at h
    rw [hf] at h
    exact runModelFrom_endpoint env _ _ _ _ a h
  · unfold runModelArgs at h
    rw [hf] at h
    simp only [if_true] at h
    split at h
    · cases h
    · rename_i modelName jsonStr endpoint hform
      exact ⟨modelName, jsonStr, endpoint, hform, runModelFrom_endpoint env _ _ _ _ a h⟩
  · exact formEnv_form_run
  · exact formEnv_flag_run

theorem writeFile_ok (fs : String → Option String) (written : List String) (path : String)
    (h : fs path = none) : WriteFile fs written path = (none, written ++ [path]) := by
  unfold WriteFile
  rw [h]

theorem writeFile_fail (fs : String → Option String) (written : List String) (path e : String)
    (h : fs path = some e) : WriteFile fs written path = (some e, written) := by
  unfold WriteFile
  rw [h]

/-- C20: `Generate` writes the six files of the model in order and stops at the
first write that fails: the files written are the longest run of successful
writes from the start of the list, the result is an error exactly when some
write of the list failed before all were done, and a run without failure
writes the six files; the first three are the first three announced, the last
three are in the directory announced with `/*`. -/
theorem generate_writes_six_files (fs : String → Option String) (modelName : String) :
    (Generate fs modelName).2 =
      (modelFiles (NewNamingHelper modelName).SnakeCase).takeWhile (fun p => (fs p).isNone) ∧
    ((Generate fs modelName).1 = none ↔
      ∀ p ∈ modelFiles (NewNamingHelper modelName).SnakeCase, fs p = none) ∧
    ((∀ p ∈ modelFiles (NewNamingHelper modelName).SnakeCase, fs p = none) →
      Generate fs modelName = (none, modelFiles (NewNamingHelper modelName).SnakeCase)) ∧
    (modelFiles (NewNamingHelper modelName).SnakeCase).length = 6 ∧
    (announcedFiles modelName).take 3 =
      (modelFiles (NewNamingHelper modelName).SnakeCase).take 3 ∧
    (announcedFiles modelName).drop 3 =
      ["lib/state_management/bloc/" ++ (NewNamingHelper modelName).SnakeCase ++ "/*"] ∧
    (modelFiles (NewNamingHelper modelName).SnakeCase).drop 3 =
      ["_bloc.dart", "_event.dart", "_state.dart"].map (fun suffix =>
        "lib/state_management/bloc/" ++ (NewNamingHelper modelName).SnakeCase ++ "/" ++
          (NewNamingHelper modelName).SnakeCase ++ suffix) := by
  refine ⟨?_, ?_, ?_, rfl, rfl, rfl, rfl⟩
  all_goals
    simp only [Generate, generateModel, generateService, generateRepository, generateBloc,
      modelFiles]
    generalize (NewNamingHelper modelName).SnakeCase = n
    generalize "lib/model/" ++ n ++ ".dart" = p1
    generalize "lib/network/service/" ++ n ++ "_service.dart" = p2
    generalize "lib/repositories/" ++ n ++ "_repository.dart" = p3
    generalize "lib/state_management/bloc/" ++ n ++ "/" ++ n ++ "_bloc.dart" = p4
    generalize "lib/state_management/bloc/" ++ n ++ "/" ++ n ++ "_event.dart" = p5
    generalize "lib/state_management/bloc/" ++ n ++ "/" ++ n ++ "_state.dart" = p6
    cases h1 : fs p1
    swap
    · simp [WriteFile, h1, List.takeWhile]
    cases h2 : fs p2
    swap
    · simp [WriteFile, h1, h2, List.takeWhile]
    cases h3 : fs p3
    swap
    · simp [WriteFile, h1, h2, h3, List.takeWhile]
    cases h4 : fs p4
    swap
    · simp [WriteFile, h1, h2, h3, h4, List.takeWhile]
    cases h5 : fs p5
    swap
    · simp [WriteFile, h1, h2, h3, h4, h5, List.takeWhile]
    cases h6 : fs p6
    swap
    · simp [WriteFile, h1, h2, h3, h4, h5, h6, List.takeWhile]
    simp [WriteFile, h1, h2, h3, h4, h5, h6, List.takeWhile]


/-- C20 at the model name `User` with every write succeeding. -/
theorem generate_writes_six_files_witness :
    (∀ p ∈ modelFiles (NewNamingHelper "User").SnakeCase,
      (fun _ => none : String → Option String) p = none) ∧
    Generate (fun _ => none) "User" = (none, modelFiles (NewNamingHelper "User").SnakeCase) :=
  ⟨fun _ _ => rfl, (generate_writes_six_files (fun _ => none) "User").2.2.1 (fun _ _ => rfl)⟩

/-! ## Screaming snake case -/

theorem toNat_asciiUpper (c : Char) :
    (asciiUpper c).toNat = if isLow c = true then c.toNat - 32 else c.toNat := by
  unfold asciiUpper
  split
  · rename_i h; exact toNat_upperByte c h
  · rfl

theorem asciiUpper_eq (c : Char) :
    (if (isLow c && true) = true then upperByte c
      else if (isCap c && !true) = true then lowerByte c else c) = asciiUpper c := by
  simp [asciiUpper]

theorem isNum_asciiUpper (c : Char) : isNum (asciiUpper c) = isNum c := by
  have h := toNat_asciiUpper c
  rw [Bool.eq_iff_iff]
  by_cases hc : isLow c = true
  · rw [if_pos hc] at h
    simp only [isLow, isNum, decide_eq_true_eq] at hc ⊢
    omega
  · rw [if_neg hc] at h
    simp only [isLow, isNum, decide_eq_true_eq] at hc ⊢
    omega

theorem isSeparator_asciiUpper (c : Char) : isSeparator (asciiUpper c) = isSeparator c := by
  have h := toNat_asciiUpper c
  rw [Bool.eq_iff_iff]
  by_cases hc : isLow c = true
  · rw [if_pos hc] at h
    simp only [isLow, isSeparator, decide_eq_true_eq] at hc ⊢
    omega
  · rw [if_neg hc] at h
    simp only [isLow, isSeparator, decide_eq_true_eq] at hc ⊢
    omega

theorem asciiUpper_convLower (c : Char) : asciiUpper (convLower c) = asciiUpper c := by
  apply eq_of_toNat_eq
  rw [toNat_asciiUpper, toNat_asciiUpper, isLow_convLower, toNat_convLower]
  by_cases h1 : isCap c = true
  · have h2 : isLow c = false := by
      simp only [isCap, isLow, decide_eq_true_eq, decide_eq_false_iff_not] at h1 ⊢
      omega
    simp only [h1, h2, Bool.true_or, if_true, Bool.false_eq_true, if_false]
    omega
  · have h1' : isCap c = false := by simpa using h1
    simp only [h1', Bool.false_or, Bool.false_eq_true, if_false]

theorem asciiUpper_underscore_iff (c : Char) : asciiUpper c = '_' ↔ c = '_' := by
  rw [eq_underscore_iff, eq_underscore_iff, toNat_asciiUpper]
  by_cases hc : isLow c = true
  · rw [if_pos hc]
    simp only [isLow, decide_eq_true_eq] at hc
    omega
  · rw [if_neg hc]

theorem screamingLoop_single (d : Char) (prev : Option Char) (c : Char) :
    delimitedLoop d true prev [c] =
      [if isSeparator (asciiUpper c) then d else asciiUpper c] := by
  simp only [delimitedLoop, asciiUpper_eq]

theorem screamingLoop_cons_cons (d : Char) (prev : Option Char) (c next : Char)
    (rest : List Char) :
    delimitedLoop d true prev (c :: next :: rest) =
      if (isCap c && (isLow next || isNum next)) || (isLow c && (isCap next || isNum next)) ||
          (isNum (asciiUpper c) && (isCap next || isLow next)) then
        (if isCap c && isLow next && prevIsCap prev then [d] else []) ++ [asciiUpper c] ++
          (if isLow c || isNum (asciiUpper c) || isNum next then [d] else []) ++
          delimitedLoop d true (some c) (next :: rest)
      else (if isSeparator (asciiUpper c) then d else asciiUpper c) ::
        delimitedLoop d true (some c) (next :: rest) := by
  simp only [delimitedLoop, asciiUpper_eq]

theorem asciiUpper_plain (c : Char) :
    asciiUpper (if isSeparator (convLower c) = true then '_' else convLower c) =
      if isSeparator (asciiUpper c) = true then '_' else asciiUpper c := by
  rw [isSeparator_convLower, isSeparator_asciiUpper]
  by_cases hs : isSeparator c = true
  · rw [if_pos hs, if_pos hs]; rfl
  · rw [if_neg hs, if_neg hs, asciiUpper_convLower]

theorem screamingLoop_eq_map : ∀ (t : List Char) (prev : Option Char),
    delimitedLoop '_' true prev t = (delimitedLoop '_' false prev t).map asciiUpper
  | [], _ => by simp [delimitedLoop]
  | [c], prev => by
      rw [screamingLoop_single, delimitedLoop_single, List.map_singleton, asciiUpper_plain]
  | c :: next :: rest, prev => by
      have ih := screamingLoop_eq_map (next :: rest) (some c)
      have hd : asciiUpper '_' = '_' := rfl
      rw [screamingLoop_cons_cons, delimitedLoop_cons_cons, ih, isNum_asciiUpper,
        isNum_convLower]
      by_cases hcond : ((isCap c && (isLow next || isNum next)) ||
          (isLow c && (isCap next || isNum next)) ||
          (isNum c && (isCap next || isLow next))) = true
      · rw [if_pos hcond, if_pos hcond]
        by_cases hp : (isCap c && isLow next && prevIsCap prev) = true <;>
          by_cases hq : (isLow c || isNum c || isNum next) = true <;>
          simp only [hp, hq, if_true, if_false, List.map_append, List.map_cons, List.map_nil,
            asciiUpper_convLower, hd, Bool.false_eq_true]
      · rw [if_neg hcond, if_neg hcond, List.map_cons, asciiUpper_plain]

/-- C14: for every input, `ScreamingSnakeCase` is `SnakeCase` with every ASCII
lowercase letter replaced by its uppercase form; the underscores stay where
they are. -/
theorem screamingSnakeCase_eq_upper_snakeCase (s : String) :
    (NewNamingHelper s).ScreamingSnakeCase.data =
      (NewNamingHelper s).SnakeCase.data.map asciiUpper ∧
    (∀ c : Char, (asciiUpper c).toNat = if isLow c = true then c.toNat - 32 else c.toNat) ∧
    (∀ c : Char, asciiUpper c = '_' ↔ c = '_') := by
  refine ⟨?_, toNat_asciiUpper, asciiUpper_underscore_iff⟩
  simp only [NewNamingHelper, NamingHelper.ScreamingSnakeCase, NamingHelper.SnakeCase,
    toScreamingSnake, toSnake, toScreamingDelimited]
  exact screamingLoop_eq_map _ none


/-! ## Degenerate input -/

theorem mem_of_mem_trimSpace (s : List Char) (c : Char) (h : c ∈ trimSpace s) : c ∈ s := by
  unfold trimSpace at h
  rw [List.mem_reverse] at h
  have h1 := (List.dropWhile_suffix isSpace).sublist.subset h
  rw [List.mem_reverse] at h1
  exact (List.dropWhile_suffix isSpace).sublist.subset h1

theorem camelLoop_symbols : ∀ (t : List Char) (first capNext prevCap : Bool),
    (∀ c ∈ t, isCap c = false ∧ isLow c = false ∧ isNum c = false) →
    camelLoop first capNext prevCap t = []
  | [], _, _, _, _ => by simp [camelLoop]
  | c :: rest, first, capNext, prevCap, h => by
      obtain ⟨h1, h2, h3⟩ := h c (List.mem_cons_self _ _)
      have ih := fun f cn p => camelLoop_symbols rest f cn p
        (fun x hx => h x (List.mem_cons_of_mem _ hx))
      cases capNext <;> cases first <;> cases prevCap <;> simp [camelLoop, h1, h2, h3, ih]

theorem convLower_symbol (c : Char) (h : isCap c = false) : convLower c = c := by
  simp [convLower, h]

theorem asciiUpper_symbol (c : Char) (h : isLow c = false) : asciiUpper c = c := by
  simp [asciiUpper, h]

theorem delimitedLoop_symbols (d : Char) : ∀ (t : List Char) (prev : Option Char),
    (∀ c ∈ t, isCap c = false ∧ isLow c = false ∧ isNum c = false) →
    delimitedLoop d false prev t = t.map (fun c => if isSeparator c = true then d else c)
  | [], _, _ => by simp [delimitedLoop]
  | [c], prev, h => by
      obtain ⟨h1, _, _⟩ := h c (List.mem_cons_self _ _)
      rw [delimitedLoop_single, convLower_symbol c h1]
      rfl
  | c :: next :: rest, prev, h => by
      obtain ⟨h1, h2, h3⟩ := h c (List.mem_cons_self _ _)
      have ih := delimitedLoop_symbols d (next :: rest) (some c)
        (fun x hx => h x (List.mem_cons_of_mem _ hx))
      rw [delimitedLoop_cons_cons, convLower_symbol c h1, ih, h1, h2, h3]
      simp

theorem screamingLoop_symbols (d : Char) : ∀ (t : List Char) (prev : Option Char),
    (∀ c ∈ t, isCap c = false ∧ isLow c = false ∧ isNum c = false) →
    delimitedLoop d true prev t = t.map (fun c => if isSeparator c = true then d else c)
  | [], _, _ => by simp [delimitedLoop]
  | [c], prev, h => by
      obtain ⟨_, h2, _⟩ := h c (List.mem_cons_self _ _)
      rw [screamingLoop_single, asciiUpper_symbol c h2]
      rfl
  | c :: next :: rest, prev, h => by
      obtain ⟨h1, h2, h3⟩ := h c (List.mem_cons_self _ _)
      have ih := screamingLoop_symbols d (next :: rest) (some c)
        (fun x hx => h x (List.mem_cons_of_mem _ hx))
      rw [screamingLoop_cons_cons, asciiUpper_symbol c h2, ih, h1, h2, h3]
      simp

/-- C15: the naming helper is defined on degenerate input. `Original` returns
the input; on the empty string every accessor returns the empty string; on a
string without letters and digits `PascalCase` and `CamelCase` return the
empty string and the three delimited forms return the trimmed input with every
separator replaced by the delimiter. -/
theorem naming_degenerate_input (s : String)
    (h : ∀ c ∈ s.data, isCap c = false ∧ isLow c = false ∧ isNum c = false) :
    (NewNamingHelper s).Original = s ∧
    (NewNamingHelper s).PascalCase = "" ∧
    (NewNamingHelper s).CamelCase = "" ∧
    (NewNamingHelper s).SnakeCase.data =
      (trimSpace s.data).map (fun c => if isSeparator c = true then '_' else c) ∧
    (NewNamingHelper s).KebabCase.data =
      (trimSpace s.data).map (fun c => if isSeparator c = true then '-' else c) ∧
    (NewNamingHelper s).ScreamingSnakeCase.data =
      (trimSpace s.data).map (fun c => if isSeparator c = true then '_' else c) ∧
    (NewNamingHelper "").Original = "" ∧
    (NewNamingHelper "").SnakeCase = "" ∧
    (NewNamingHelper "").PascalCase = "" ∧
    (NewNamingHelper "").CamelCase = "" ∧
    (NewNamingHelper "").KebabCase = "" ∧
    (NewNamingHelper "").ScreamingSnakeCase = "" := by
  have ht : ∀ c ∈ trimSpace s.data, isCap c = false ∧ isLow c = false ∧ isNum c = false :=
    fun c hc => h c (mem_of_mem_trimSpace _ c hc)
  refine ⟨rfl, ?_, ?_, ?_, ?_, ?_, rfl, by decide, by decide, by decide, by decide, by decide⟩
  · exact congrArg String.mk (camelLoop_symbols _ true true false ht)
  · exact congrArg String.mk (camelLoop_symbols _ true false false ht)
  · exact delimitedLoop_symbols '_' _ none ht
  · exact delimitedLoop_symbols '-' _ none ht
  · exact screamingLoop_symbols '_' _ none ht

/-- C15 at the input `" -_. !"`, made of separators and a symbol only. -/
theorem naming_degenerate_input_witness :
    (∀ c ∈ " -_. !".data, isCap c = false ∧ isLow c = false ∧ isNum c = false) ∧
    (NewNamingHelper " -_. !").PascalCase = "" ∧
    (NewNamingHelper " -_. !").SnakeCase.data =
      (trimSpace " -_. !".data).map (fun c => if isSeparator c = true then '_' else c) :=
  ⟨by decide, (naming_degenerate_input " -_. !" (by decide)).2.1,
    (naming_degenerate_input " -_. !" (by decide)).2.2.2.1⟩


/-! ## Camel case against Pascal case -/

theorem isCap_asciiUpper (c : Char) (h : isCap c = true ∨ isLow c = true) :
    isCap (asciiUpper c) = true := by
  have ht := toNat_asciiUpper c
  by_cases hc : isLow c = true
  · rw [if_pos hc] at ht
    simp only [isCap, isLow, decide_eq_true_eq] at hc ⊢
    omega
  · rw [if_neg hc] at ht
    rcases h with h | h
    · simp only [isCap, decide_eq_true_eq] at h ⊢
      omega
    · exact absurd h hc

theorem isLow_convLower_letter (c : Char) (h : isCap c = true ∨ isLow c = true) :
    isLow (convLower c) = true := by
  rw [isLow_convLower]
  rcases h with h | h <;> simp [h]

theorem camelLoop_letter_capNext (first prevCap : Bool) (c : Char) (rest : List Char)
    (h : isCap c = true ∨ isLow c = true) :
    camelLoop first true prevCap (c :: rest) =
      asciiUpper c :: camelLoop false false (isCap c) rest := by
  rcases h with h | h
  · have h2 : isLow c = false := by
      simp only [isCap, isLow, decide_eq_true_eq, decide_eq_false_iff_not] at h ⊢
      omega
    simp [camelLoop, asciiUpper, h, h2]
  · have h2 := isCap_of_isLow c h
    simp [camelLoop, asciiUpper, h, h2]

theorem camelLoop_letter_first (prevCap : Bool) (c : Char) (rest : List Char)
    (h : isCap c = true ∨ isLow c = true) :
    camelLoop true false prevCap (c :: rest) =
      convLower c :: camelLoop false false (isCap c) rest := by
  rcases h with h | h
  · have h2 : isLow c = false := by
      simp only [isCap, isLow, decide_eq_true_eq, decide_eq_false_iff_not] at h ⊢
      omega
    simp [camelLoop, convLower, h, h2]
  · have h2 := isCap_of_isLow c h
    simp [camelLoop, convLower, h, h2]

theorem camelLoop_other_first (c : Char) (rest : List Char)
    (h1 : isCap c = false) (h2 : isLow c = false) :
    camelLoop true false false (c :: rest) = camelLoop true true false (c :: rest) := by
  simp [camelLoop, h1, h2]

/-- C12, as stated, fails: on `_foo` both `PascalCase` and `CamelCase` return
`Foo`, so `CamelCase` does not begin with a lowercase letter although
`PascalCase` begins with a letter. -/
theorem camelCase_leading_separator_counterexample :
    ¬ ∀ (s : String) (c : Char) (rest : List Char),
      (NewNamingHelper s).PascalCase.data = c :: rest → (isCap c = true ∨ isLow c = true) →
      ∃ c' rest', (NewNamingHelper s).CamelCase.data = c' :: rest' ∧ isLow c' = true := by
  intro h
  obtain ⟨c', rest', h1, h2⟩ := h "_foo" 'F' ['o', 'o'] (by decide) (by decide)
  have h3 : (NewNamingHelper "_foo").CamelCase.data = ['F', 'o', 'o'] := by decide
  rw [h3] at h1
  cases h1
  exact absurd h2 (by decide)

/-- C12 (amended): `CamelCase` and `PascalCase` differ at most in their first
character. When the trimmed input begins with a letter, `PascalCase` begins with
that letter in uppercase, `CamelCase` with it in lowercase, and the rest of the
two results is the same; when it begins with any other byte, or is empty, the
two results are equal. -/
theorem camelCase_vs_pascalCase (s : String) :
    (∀ (c : Char) (rest : List Char), trimSpace s.data = c :: rest →
      (isCap c = true ∨ isLow c = true) →
      (NewNamingHelper s).PascalCase.data =
        asciiUpper c :: camelLoop false false (isCap c) rest ∧
      (NewNamingHelper s).CamelCase.data =
        convLower c :: camelLoop false false (isCap c) rest ∧
      isCap (asciiUpper c) = true ∧ isLow (convLower c) = true) ∧
    ((∀ c ∈ (trimSpace s.data).head?, isCap c = false ∧ isLow c = false) →
      (NewNamingHelper s).CamelCase = (NewNamingHelper s).PascalCase) := by
  simp only [NewNamingHelper, NamingHelper.PascalCase, NamingHelper.CamelCase, toCamel,
    toLowerCamel, toCamelInitCase]
  refine ⟨fun c rest ht hc => ?_, fun h => ?_⟩
  · rw [ht]
    exact ⟨camelLoop_letter_capNext _ _ c rest hc, camelLoop_letter_first _ c rest hc,
      isCap_asciiUpper c hc, isLow_convLower_letter c hc⟩
  · cases ht : trimSpace s.data with
    | nil => rfl
    | cons c rest =>
      rw [ht] at h
      obtain ⟨h1, h2⟩ := h c rfl
      rw [camelLoop_other_first c rest h1 h2]

/-- C12 (amended) at the inputs `blog_post`, which begins with a letter, and
`_foo`, which does not. -/
theorem camelCase_vs_pascalCase_witness :
    (trimSpace "blog_post".data = 'b' :: "log_post".data ∧
      (isCap 'b' = true ∨ isLow 'b' = true) ∧
      (NewNamingHelper "blog_post").CamelCase.data =
        convLower 'b' :: camelLoop false false (isCap 'b') "log_post".data) ∧
    ((∀ c ∈ (trimSpace "_foo".data).head?, isCap c = false ∧ isLow c = false) ∧
      (NewNamingHelper "_foo").CamelCase = (NewNamingHelper "_foo").PascalCase) :=
  ⟨⟨by decide, by decide,
      ((camelCase_vs_pascalCase "blog_post").1 'b' "log_post".data (by decide)
        (by decide)).2.1⟩,
    ⟨by decide, (camelCase_vs_pascalCase "_foo").2 (by decide)⟩⟩


/-! ## Snake case of a cased identifier -/

theorem delimitedLoop_prev_irrelevant (d : Char) (p q : Option Char) (t : List Char)
    (h : prevIsCap p = prevIsCap q) :
    delimitedLoop d false p t = delimitedLoop d false q t := by
  match t with
  | [] => simp [delimitedLoop]
  | [c] => rw [delimitedLoop_single, delimitedLoop_single]
  | c :: next :: rest => rw [delimitedLoop_cons_cons, delimitedLoop_cons_cons, h]

theorem isCap_upperByte (c : Char) (h : isLow c = true) : isCap (upperByte c) = true := by
  have ht := toNat_upperByte c h
  simp only [isCap, isLow, decide_eq_true_eq] at h ⊢
  omega

theorem isLow_upperByte (c : Char) (h : isLow c = true) : isLow (upperByte c) = false := by
  have ht := toNat_upperByte c h
  simp only [isLow, decide_eq_true_eq, decide_eq_false_iff_not] at h ⊢
  omega

theorem isSpace_upperByte (c : Char) (h : isLow c = true) : isSpace (upperByte c) = false := by
  have ht := toNat_upperByte c h
  simp only [isLow, isSpace, decide_eq_true_eq, decide_eq_false_iff_not] at h ⊢
  omega

theorem convLower_upperByte (c : Char) (h : isLow c = true) : convLower (upperByte c) = c := by
  apply eq_of_toNat_eq
  rw [toNat_convLower, if_pos (isCap_upperByte c h), toNat_upperByte c h]
  simp only [isLow, decide_eq_true_eq] at h
  omega

/-- The snake pass over a run of lowercase letters followed by nothing or by a
capital: the run, then an underscore if something follows. -/
theorem delimitedLoop_low_run : ∀ (w : List Char) (p : Option Char) (R : List Char),
    w ≠ [] → (∀ c ∈ w, isLow c = true) → (∀ D ∈ R.head?, isCap D = true) →
    delimitedLoop '_' false p (w ++ R) = w ++ underscoreThen R
  | [], _, _, hne, _, _ => absurd rfl hne
  | [c], p, R, _, hw, hR => by
      have hc := hw c (List.mem_cons_self _ _)
      have hcap := isCap_of_isLow c hc
      have hnum := isNum_of_isLow c hc
      have hsep := isSeparator_of_isLow c hc
      cases R with
      | nil =>
        rw [List.append_nil, delimitedLoop_single, convLower_of_not_cap c hcap, hsep]
        rfl
      | cons D R' =>
        have hD := hR D rfl
        rw [List.singleton_append, delimitedLoop_cons_cons, convLower_of_not_cap c hcap,
          delimitedLoop_prev_irrelevant '_' (some c) none _ (by simp [prevIsCap, hcap])]
        simp [underscoreThen, hc, hcap, hD]
  | c :: c' :: w, p, R, _, hw, hR => by
      have hc := hw c (List.mem_cons_self _ _)
      have hc' := hw c' (List.mem_cons_of_mem _ (List.mem_cons_self _ _))
      have hcap := isCap_of_isLow c hc
      have hnum := isNum_of_isLow c hc
      have hsep := isSeparator_of_isLow c hc
      have ih := delimitedLoop_low_run (c' :: w) (some c) R (List.cons_ne_nil _ _)
        (fun x hx => hw x (List.mem_cons_of_mem _ hx)) hR
      rw [List.cons_append, List.cons_append, delimitedLoop_cons_cons,
        convLower_of_not_cap c hcap]
      rw [List.cons_append] at ih
      rw [ih]
      simp [hc, hcap, hnum, hsep, isCap_of_isLow c' hc', isNum_of_isLow c' hc']

/-- The snake pass over a capitalised lowercase word of at least two letters,
after a byte that is no capital. -/
theorem delimitedLoop_capitalized (w : List Char) (p : Option Char) (R : List Char)
    (hlen : 2 ≤ w.length) (hw : ∀ c ∈ w, isLow c = true) (hp : prevIsCap p = false)
    (hR : ∀ D ∈ R.head?, isCap D = true) :
    delimitedLoop '_' false p (capitalize w ++ R) = w ++ underscoreThen R := by
  match w, hlen, hw with
  | c :: c' :: w', _, hw =>
    have hc := hw c (List.mem_cons_self _ _)
    have hc' := hw c' (List.mem_cons_of_mem _ (List.mem_cons_self _ _))
    have hrun := delimitedLoop_low_run (c' :: w') (some (upperByte c)) R (List.cons_ne_nil _ _)
      (fun x hx => hw x (List.mem_cons_of_mem _ hx)) hR
    rw [List.cons_append] at hrun
    simp only [capitalize, List.cons_append]
    rw [delimitedLoop_cons_cons, hrun, convLower_upperByte c hc, hp]
    simp [isCap_upperByte c hc, isLow_upperByte c hc, hc', isNum_of_isLow c hc,
      isNum_of_isLow c' hc']

theorem head_capitalized_words (ws : List (List Char))
    (hw : ∀ w ∈ ws, 2 ≤ w.length ∧ ∀ c ∈ w, isLow c = true) :
    ∀ D ∈ ((ws.map capitalize).flatten).head?, isCap D = true := by
  intro D hD
  cases ws with
  | nil => simp at hD
  | cons w ws =>
    obtain ⟨hlen, hlow⟩ := hw w (List.mem_cons_self _ _)
    match w, hlen, hlow with
    | c :: c' :: w', _, hlow =>
      simp only [List.map_cons, List.flatten_cons, capitalize, List.cons_append,
        List.head?_cons, Option.mem_def, Option.some.injEq] at hD
      rw [← hD]
      exact isCap_upperByte c (hlow c (List.mem_cons_self _ _))

theorem capitalized_words_ne_nil (w : List Char) (ws : List (List Char))
    (hlen : 2 ≤ w.length) : ((w :: ws).map capitalize).flatten ≠ [] := by
  match w, hlen with
  | c :: c' :: w', _ => simp [capitalize]

theorem delimitedLoop_capitalized_words : ∀ (ws : List (List Char)) (p : Option Char),
    (∀ w ∈ ws, 2 ≤ w.length ∧ ∀ c ∈ w, isLow c = true) → prevIsCap p = false →
    delimitedLoop '_' false p (ws.map capitalize).flatten = underscoreJoin ws
  | [], _, _, _ => by simp [delimitedLoop, underscoreJoin]
  | [w], p, hw, hp => by
      obtain ⟨hlen, hlow⟩ := hw w (List.mem_cons_self _ _)
      have h := delimitedLoop_capitalized w p [] hlen hlow hp (by simp)
      simpa [underscoreThen, underscoreJoin] using h
  | w :: w2 :: ws, p, hw, hp => by
      obtain ⟨hlen, hlow⟩ := hw w (List.mem_cons_self _ _)
      have hrest : ∀ x ∈ w2 :: ws, 2 ≤ x.length ∧ ∀ c ∈ x, isLow c = true :=
        fun x hx => hw x (List.mem_cons_of_mem _ hx)
      have ih := delimitedLoop_capitalized_words (w2 :: ws) none hrest rfl
      have hhead := head_capitalized_words (w2 :: ws) hrest
      have hne := capitalized_words_ne_nil w2 ws (hrest w2 (List.mem_cons_self _ _)).1
      have h := delimitedLoop_capitalized w p ((w2 :: ws).map capitalize).flatten hlen hlow hp
        hhead
      rw [List.map_cons, List.flatten_cons, h]
      unfold underscoreThen
      rw [if_neg hne, ih]
      simp [underscoreJoin]


theorem intercalate_eq_underscoreJoin (ws : List (List Char)) :
    List.intercalate ['_'] ws = underscoreJoin ws := by
  cases ws with
  | nil => rfl
  | cons w ws => rw [intercalate_cons]; rfl

theorem words_two_letters (ws : List (List Char))
    (hw : ∀ w ∈ ws, 2 ≤ w.length ∧ ∀ c ∈ w, isLow c = true) :
    ∀ w ∈ ws, w ≠ [] ∧ ∀ c ∈ w, isLow c = true := by
  intro w hm
  obtain ⟨hlen, hlow⟩ := hw w hm
  refine ⟨fun h => ?_, hlow⟩
  rw [h] at hlen
  simp at hlen

theorem toCamel_underscoreJoin (ws : List (List Char))
    (hw : ∀ w ∈ ws, w ≠ [] ∧ ∀ c ∈ w, isLow c = true) :
    toCamel (underscoreJoin ws) = (ws.map capitalize).flatten := by
  cases ws with
  | nil => rfl
  | cons w ws =>
    have hall := identifier_low_or_underscore w ws hw
    have hw0 := hw w (List.mem_cons_self _ _)
    unfold toCamel toCamelInitCase underscoreJoin
    rw [trimSpace_identifier _ hall, camelLoop_capitalize _ _ w _ hw0.1 hw0.2,
      camelLoop_words ws (fun x hx => hw x (List.mem_cons_of_mem _ hx))]
    rfl

theorem toLowerCamel_underscoreJoin (w : List Char) (ws : List (List Char))
    (hw : ∀ x ∈ w :: ws, x ≠ [] ∧ ∀ c ∈ x, isLow c = true) :
    toLowerCamel (underscoreJoin (w :: ws)) = w ++ (ws.map capitalize).flatten := by
  have hall := identifier_low_or_underscore w ws hw
  have hw0 := hw w (List.mem_cons_self _ _)
  unfold toLowerCamel toCamelInitCase underscoreJoin
  rw [trimSpace_identifier _ hall]
  cases w with
  | nil => exact absurd rfl hw0.1
  | cons c w =>
    rw [List.cons_append, camelLoop_low _ _ _ c _ (hw0.2 c (List.mem_cons_self _ _)),
      camelLoop_low_word w _ (fun x hx => hw0.2 x (List.mem_cons_of_mem _ hx)),
      camelLoop_words ws (fun x hx => hw x (List.mem_cons_of_mem _ hx))]
    rfl

theorem isSpace_capitalized_words (ws : List (List Char))
    (hw : ∀ w ∈ ws, w ≠ [] ∧ ∀ c ∈ w, isLow c = true) :
    ∀ c ∈ (ws.map capitalize).flatten, isSpace c = false := by
  intro c hc
  obtain ⟨l, hl, hcl⟩ := List.mem_flatten.1 hc
  obtain ⟨w, hwm, rfl⟩ := List.mem_map.1 hl
  obtain ⟨_, hlow⟩ := hw w hwm
  cases w with
  | nil => simp [capitalize] at hcl
  | cons a w =>
    simp only [capitalize, List.mem_cons] at hcl
    rcases hcl with h | h
    · rw [h]; exact isSpace_upperByte a (hlow a (List.mem_cons_self _ _))
    · exact isSpace_of_isLow c (hlow c (List.mem_cons_of_mem _ h))

theorem trimSpace_of_no_space (l : List Char) (h : ∀ c ∈ l, isSpace c = false) :
    trimSpace l = l :=
  trimSpace_of_ends l (fun x hx => h x (List.mem_of_mem_head? hx))
    (fun x hx => h x (List.mem_of_mem_getLast? hx))

theorem toSnake_capitalized_words (ws : List (List Char))
    (hw : ∀ w ∈ ws, 2 ≤ w.length ∧ ∀ c ∈ w, isLow c = true) :
    toSnake (ws.map capitalize).flatten = underscoreJoin ws := by
  unfold toSnake toScreamingDelimited
  rw [trimSpace_of_no_space _ (isSpace_capitalized_words ws (words_two_letters ws hw))]
  exact delimitedLoop_capitalized_words ws none hw rfl

theorem toSnake_camel_words (w : List Char) (ws : List (List Char))
    (hw : ∀ x ∈ w :: ws, 2 ≤ x.length ∧ ∀ c ∈ x, isLow c = true) :
    toSnake (w ++ (ws.map capitalize).flatten) = underscoreJoin (w :: ws) := by
  have hw' := words_two_letters _ hw
  have hws : ∀ x ∈ ws, 2 ≤ x.length ∧ ∀ c ∈ x, isLow c = true :=
    fun x hx => hw x (List.mem_cons_of_mem _ hx)
  have hw0 := hw' w (List.mem_cons_self _ _)
  have hsp : ∀ c ∈ w ++ (ws.map capitalize).flatten, isSpace c = false := by
    intro c hc
    rcases List.mem_append.1 hc with h | h
    · exact isSpace_of_isLow c (hw0.2 c h)
    · exact isSpace_capitalized_words ws (words_two_letters ws hws) c h
  unfold toSnake toScreamingDelimited
  rw [trimSpace_of_no_space _ hsp,
    delimitedLoop_low_run w none _ hw0.1 hw0.2 (head_capitalized_words ws hws)]
  unfold underscoreThen
  cases ws with
  | nil => simp [underscoreJoin]
  | cons w2 ws =>
    rw [if_neg (capitalized_words_ne_nil w2 ws (hws w2 (List.mem_cons_self _ _)).1),
      delimitedLoop_capitalized_words (w2 :: ws) none hws rfl]
    simp [underscoreJoin]

/-- C13, as stated, fails: `a_b` has the Pascal form `AB`, whose snake form is
`ab` and not `a_b`. -/
theorem snakeCase_pascalCase_counterexample :
    (NewNamingHelper (NewNamingHelper "a_b").PascalCase).SnakeCase ≠
      (NewNamingHelper "a_b").SnakeCase := by
  decide

/-! ## Words and separators: the camel pass -/

theorem camelLoop_cons (first capNext prevCap : Bool) (c : Char) (rest : List Char) :
    camelLoop first capNext prevCap (c :: rest) =
      if (isCap c || isLow c) = true then
        camelByte first capNext prevCap c :: camelLoop false false (isCap c) rest
      else if isNum (camelByte first capNext prevCap c) = true then
        camelByte first capNext prevCap c :: camelLoop false true (isCap c) rest
      else camelLoop false (isSeparator (camelByte first capNext prevCap c)) (isCap c) rest := by
  simp only [camelLoop, camelByte]

theorem camelByte_not_letter (first capNext prevCap : Bool) (c : Char)
    (h1 : isCap c = false) (h2 : isLow c = false) : camelByte first capNext prevCap c = c := by
  cases first <;> cases capNext <;> cases prevCap <;> simp [camelByte, h1, h2]

theorem isLow_lowerByte (c : Char) (h : isCap c = true) : isLow (lowerByte c) = true := by
  have ht := toNat_lowerByte c h
  simp only [isCap, isLow, decide_eq_true_eq] at h ⊢
  omega

theorem camelByte_letter (first capNext prevCap : Bool) (c : Char)
    (h : isCap c = true ∨ isLow c = true) :
    isCap (camelByte first capNext prevCap c) = true ∨
      isLow (camelByte first capNext prevCap c) = true := by
  unfold camelByte
  split
  · split
    · rename_i hl; exact Or.inl (isCap_upperByte c hl)
    · exact h
  · split
    · split
      · rename_i hc; exact Or.inr (isLow_lowerByte c hc)
      · exact h
    · split
      · rename_i hc
        rw [Bool.and_eq_true] at hc
        exact Or.inr (isLow_lowerByte c hc.2)
      · exact h

theorem camelLoop_alnum : ∀ (t : List Char) (first capNext prevCap : Bool),
    ∀ x ∈ camelLoop first capNext prevCap t,
      isCap x = true ∨ isLow x = true ∨ isNum x = true
  | [], _, _, _ => by simp [camelLoop]
  | c :: rest, first, capNext, prevCap => by
      intro x hx
      rw [camelLoop_cons] at hx
      split at hx
      · rename_i hl
        rcases List.mem_cons.1 hx with h | h
        · rw [h]
          rcases camelByte_letter first capNext prevCap c (by simpa using hl) with h1 | h1
          · exact Or.inl h1
          · exact Or.inr (Or.inl h1)
        · exact camelLoop_alnum rest _ _ _ x h
      · split at hx
        · rename_i hn
          rcases List.mem_cons.1 hx with h | h
          · rw [h]; exact Or.inr (Or.inr hn)
          · exact camelLoop_alnum rest _ _ _ x h
        · exact camelLoop_alnum rest _ _ _ x hx

theorem gap_byte (c : Char) (h : c = ' ' ∨ c = '_' ∨ c = '-') :
    isCap c = false ∧ isLow c = false ∧ isNum c = false ∧ isSeparator c = true := by
  rcases h with h | h | h <;> rw [h] <;> decide

theorem camelLoop_gap_byte (first capNext prevCap : Bool) (c : Char) (R : List Char)
    (h : c = ' ' ∨ c = '_' ∨ c = '-') :
    camelLoop first capNext prevCap (c :: R) = camelLoop false true false R := by
  obtain ⟨h1, h2, h3, h4⟩ := gap_byte c h
  rw [camelLoop_cons, camelByte_not_letter _ _ _ c h1 h2, h1, h2, h3, h4]
  simp

theorem camelLoop_gap : ∀ (g : List Char) (R : List Char) (first capNext prevCap : Bool),
    IsGap g → g ≠ [] →
    camelLoop first capNext prevCap (g ++ R) = camelLoop false true false R
  | [], _, _, _, _, _, hne => absurd rfl hne
  | [c], R, first, capNext, prevCap, hg, _ => by
      rw [List.singleton_append, camelLoop_gap_byte _ _ _ c R (hg c (List.mem_cons_self _ _))]
  | c :: c' :: g, R, first, capNext, prevCap, hg, _ => by
      rw [List.cons_append, camelLoop_gap_byte _ _ _ c _ (hg c (List.mem_cons_self _ _))]
      exact camelLoop_gap (c' :: g) R _ _ _ (fun x hx => hg x (List.mem_cons_of_mem _ hx))
        (List.cons_ne_nil _ _)

theorem camelLoop_gap_nil (g : List Char) (first capNext prevCap : Bool) (hg : IsGap g) :
    camelLoop first capNext prevCap g = [] := by
  by_cases h : g = []
  · rw [h]; simp [camelLoop]
  · have := camelLoop_gap g [] first capNext prevCap hg h
    rw [List.append_nil] at this
    rw [this]
    simp [camelLoop]

/-- The camel pass over letters followed by more text: the pass over the
letters, then the pass over the rest in the state the letters leave. -/
theorem camelLoop_letters_append : ∀ (w : List Char) (X : List Char)
    (first capNext prevCap : Bool),
    w ≠ [] → (∀ c ∈ w, isCap c = true ∨ isLow c = true) →
    ∃ q, camelLoop first capNext prevCap (w ++ X) =
      camelLoop first capNext prevCap w ++ camelLoop false false q X
  | [], _, _, _, _, hne, _ => absurd rfl hne
  | [c], X, first, capNext, prevCap, _, hw => by
      have hc := hw c (List.mem_cons_self _ _)
      have hl : (isCap c || isLow c) = true := by rcases hc with h | h <;> simp [h]
      refine ⟨isCap c, ?_⟩
      rw [List.singleton_append, camelLoop_cons, camelLoop_cons, if_pos hl, if_pos hl]
      simp [camelLoop]
  | c :: c' :: w, X, first, capNext, prevCap, _, hw => by
      have hc := hw c (List.mem_cons_self _ _)
      have hl : (isCap c || isLow c) = true := by rcases hc with h | h <;> simp [h]
      obtain ⟨q, hq⟩ := camelLoop_letters_append (c' :: w) X false false (isCap c)
        (List.cons_ne_nil _ _) (fun x hx => hw x (List.mem_cons_of_mem _ hx))
      refine ⟨q, ?_⟩
      rw [List.cons_append, camelLoop_cons, if_pos hl, hq,
        camelLoop_cons first capNext prevCap c (c' :: w), if_pos hl]
      rfl

theorem camelLoop_word_capNext (first prevCap : Bool) (w : List Char) (hw : IsWord w) :
    camelLoop first true prevCap w = pascalWord w := by
  cases w with
  | nil => exact absurd rfl hw.1
  | cons c w =>
    unfold pascalWord
    rw [camelLoop_letter_capNext _ _ c w (hw.2 c (List.mem_cons_self _ _)),
      camelLoop_letter_capNext _ _ c w (hw.2 c (List.mem_cons_self _ _))]

theorem camelLoop_items : ∀ (items : List (List Char × List Char)) (first prevCap : Bool),
    WordItems items →
    camelLoop first true prevCap (itemsText items) =
      (items.map (fun it => pascalWord it.1)).flatten
  | [], _, _, _ => by simp [itemsText, camelLoop]
  | [it], first, prevCap, h => by
      obtain ⟨hw, hg⟩ := h
      obtain ⟨q, hq⟩ := camelLoop_letters_append it.1 it.2 first true prevCap hw.1 hw.2
      simp only [itemsText, List.map_cons, List.map_nil, List.flatten_cons, List.flatten_nil,
        List.append_nil]
      rw [hq, camelLoop_gap_nil it.2 _ _ _ hg, List.append_nil,
        camelLoop_word_capNext _ _ it.1 hw]
  | it :: next :: rest, first, prevCap, h => by
      obtain ⟨hw, hg, hne, hrest⟩ := h
      have ih := camelLoop_items (next :: rest) false false hrest
      obtain ⟨q, hq⟩ := camelLoop_letters_append it.1 (it.2 ++ itemsText (next :: rest))
        first true prevCap hw.1 hw.2
      have htext : itemsText (it :: next :: rest) =
          it.1 ++ (it.2 ++ itemsText (next :: rest)) := by
        simp [itemsText]
      rw [htext, hq, camelLoop_gap it.2 _ _ _ _ hg hne, ih,
        camelLoop_word_capNext _ _ it.1 hw]
      simp

theorem toCamel_words (g0 : List Char) (items : List (List Char × List Char))
    (hg : IsGap g0) (hi : WordItems items) :
    camelLoop true true false (g0 ++ itemsText items) =
      (items.map (fun it => pascalWord it.1)).flatten := by
  by_cases h : g0 = []
  · rw [h, List.nil_append]
    exact camelLoop_items items true false hi
  · rw [camelLoop_gap g0 _ _ _ _ hg h]
    exact camelLoop_items items false false hi


/-! ## Words and separators: the snake pass -/

theorem delimitedLoop_prev_of_not_cap (d : Char) (p q : Option Char) (c : Char)
    (rest : List Char) (h : isCap c = false) :
    delimitedLoop d false p (c :: rest) = delimitedLoop d false q (c :: rest) := by
  cases rest with
  | nil => rw [delimitedLoop_single, delimitedLoop_single]
  | cons next rest =>
    rw [delimitedLoop_cons_cons, delimitedLoop_cons_cons, h]
    simp

theorem delimitedLoop_gap_byte (p : Option Char) (c : Char) (R : List Char)
    (h : c = ' ' ∨ c = '_' ∨ c = '-') :
    delimitedLoop '_' false p (c :: R) = '_' :: delimitedLoop '_' false none R := by
  obtain ⟨h1, h2, h3, h4⟩ := gap_byte c h
  cases R with
  | nil =>
    rw [delimitedLoop_single, convLower_of_not_cap c h1, h4]
    simp [delimitedLoop]
  | cons next rest =>
    rw [delimitedLoop_cons_cons, convLower_of_not_cap c h1, h1, h2, h3, h4,
      delimitedLoop_prev_irrelevant '_' (some c) none _ (by simp [prevIsCap, h1])]
    simp

theorem delimitedLoop_gap : ∀ (g : List Char) (R : List Char) (p : Option Char),
    IsGap g → prevIsCap p = false →
    delimitedLoop '_' false p (g ++ R) = underscores g ++ delimitedLoop '_' false none R
  | [], R, p, _, hp => by
      rw [List.nil_append, delimitedLoop_prev_irrelevant '_' p none R (by rw [hp]; rfl)]
      rfl
  | c :: g, R, p, hg, _ => by
      rw [List.cons_append, delimitedLoop_gap_byte p c _ (hg c (List.mem_cons_self _ _)),
        delimitedLoop_gap g R none (fun x hx => hg x (List.mem_cons_of_mem _ hx)) rfl]
      rfl

theorem isNum_of_letter (c : Char) (h : isCap c = true ∨ isLow c = true) :
    isNum c = false := by
  rcases h with h | h
  · simp only [isCap, isNum, decide_eq_true_eq, decide_eq_false_iff_not] at h ⊢
    omega
  · exact isNum_of_isLow c h

/-- The snake pass over a word followed by nothing or by a separator: the pass
over the word alone, then the pass over the rest. -/
theorem delimitedLoop_word_append : ∀ (w : List Char) (X : List Char) (p : Option Char),
    w ≠ [] → (∀ c ∈ w, isCap c = true ∨ isLow c = true) →
    (∀ n ∈ X.head?, n = ' ' ∨ n = '_' ∨ n = '-') →
    delimitedLoop '_' false p (w ++ X) =
      delimitedLoop '_' false p w ++ delimitedLoop '_' false none X
  | [], _, _, hne, _, _ => absurd rfl hne
  | [c], X, p, _, hw, hX => by
      cases X with
      | nil => simp [delimitedLoop]
      | cons n r =>
        obtain ⟨h1, h2, h3, h4⟩ := gap_byte n (hX n rfl)
        have hnum := isNum_of_letter c (hw c (List.mem_cons_self _ _))
        rw [List.singleton_append, delimitedLoop_cons_cons, delimitedLoop_single,
          isNum_convLower, hnum, h1, h2, h3,
          delimitedLoop_prev_of_not_cap '_' (some c) none n r h1]
        simp
  | c :: c' :: w, X, p, _, hw, hX => by
      have ih := delimitedLoop_word_append (c' :: w) X (some c) (List.cons_ne_nil _ _)
        (fun x hx => hw x (List.mem_cons_of_mem _ hx)) hX
      rw [List.cons_append, List.cons_append, delimitedLoop_cons_cons,
        delimitedLoop_cons_cons]
      rw [List.cons_append] at ih
      rw [ih]
      split <;> simp

theorem head_gap_append (g R : List Char) (hg : IsGap g) (h : g ≠ [] ∨ R = []) :
    ∀ n ∈ (g ++ R).head?, n = ' ' ∨ n = '_' ∨ n = '-' := by
  intro n hn
  cases g with
  | nil =>
    rcases h with h | h
    · exact absurd rfl h
    · rw [h] at hn; simp at hn
  | cons c g =>
    simp only [List.cons_append, List.head?_cons, Option.mem_def, Option.some.injEq] at hn
    rw [← hn]
    exact hg c (List.mem_cons_self _ _)

theorem delimitedLoop_items : ∀ (items : List (List Char × List Char)) (p : Option Char),
    WordItems items → prevIsCap p = false →
    delimitedLoop '_' false p (itemsText items) =
      (items.map (fun it => snakeWord it.1 ++ underscores it.2)).flatten
  | [], _, _, _ => by simp [itemsText, delimitedLoop]
  | [it], p, h, hp => by
      obtain ⟨hw, hg⟩ := h
      have htext : itemsText [it] = it.1 ++ (it.2 ++ []) := by simp [itemsText]
      rw [htext, delimitedLoop_word_append it.1 _ p hw.1 hw.2
          (head_gap_append it.2 [] hg (Or.inr rfl)),
        delimitedLoop_gap it.2 [] none hg rfl,
        delimitedLoop_prev_irrelevant '_' p none it.1 (by rw [hp]; rfl)]
      simp [snakeWord, delimitedLoop]
  | it :: next :: rest, p, h, hp => by
      obtain ⟨hw, hg, hne, hrest⟩ := h
      have ih := delimitedLoop_items (next :: rest) none hrest rfl
      have htext : itemsText (it :: next :: rest) =
          it.1 ++ (it.2 ++ itemsText (next :: rest)) := by
        simp [itemsText]
      rw [htext, delimitedLoop_word_append it.1 _ p hw.1 hw.2
          (head_gap_append it.2 _ hg (Or.inl hne)),
        delimitedLoop_gap it.2 _ none hg rfl, ih,
        delimitedLoop_prev_irrelevant '_' p none it.1 (by rw [hp]; rfl)]
      simp [snakeWord]

theorem toSnake_words (g0 : List Char) (items : List (List Char × List Char))
    (hg : IsGap g0) (hi : WordItems items) :
    delimitedLoop '_' false none (g0 ++ itemsText items) =
      underscores g0 ++ (items.map (fun it => snakeWord it.1 ++ underscores it.2)).flatten := by
  rw [delimitedLoop_gap g0 _ none hg rfl, delimitedLoop_items items none hi rfl]


/-! ## Cutting a string into words -/

theorem wordItems_grow (c : Char) (w g : List Char) (rest : List (List Char × List Char))
    (hc : isCap c = true ∨ isLow c = true) (h : WordItems ((w, g) :: rest)) :
    WordItems ((c :: w, g) :: rest) := by
  have hword : IsWord w → IsWord (c :: w) := fun hw =>
    ⟨List.cons_ne_nil _ _, fun x hx => by
      rcases List.mem_cons.1 hx with h1 | h1
      · rw [h1]; exact hc
      · exact hw.2 x h1⟩
  cases rest with
  | nil => exact ⟨hword h.1, h.2⟩
  | cons next rest => exact ⟨hword h.1, h.2.1, h.2.2.1, h.2.2.2⟩

theorem wordItems_new (c : Char) (g : List Char) (items : List (List Char × List Char))
    (hc : isCap c = true ∨ isLow c = true) (hg : IsGap g) (hne : g ≠ [] ∨ items = [])
    (h : WordItems items) : WordItems (([c], g) :: items) := by
  have hword : IsWord [c] :=
    ⟨List.cons_ne_nil _ _, fun x hx => by rw [List.mem_singleton.1 hx]; exact hc⟩
  cases items with
  | nil => exact ⟨hword, hg⟩
  | cons next rest =>
    rcases hne with h1 | h1
    · exact ⟨hword, hg, h1, h⟩
    · exact absurd h1 (List.cons_ne_nil _ _)

theorem exists_words_gap_step (c : Char) (t g0 : List Char)
    (items : List (List Char × List Char)) (hg : IsGap g0) (hi : WordItems items)
    (ht : t = g0 ++ itemsText items) (hc : c = ' ' ∨ c = '_' ∨ c = '-') :
    ∃ g0' items', IsGap g0' ∧ WordItems items' ∧ c :: t = g0' ++ itemsText items' :=
  ⟨c :: g0, items, fun x hx => by
      rcases List.mem_cons.1 hx with h1 | h1
      · rw [h1]; exact hc
      · exact hg x h1,
    hi, by rw [ht]; rfl⟩

theorem exists_words_letter_step (c : Char) (t g0 : List Char)
    (items : List (List Char × List Char)) (hg : IsGap g0) (hi : WordItems items)
    (ht : t = g0 ++ itemsText items) (hc : isCap c = true ∨ isLow c = true) :
    ∃ g0' items', IsGap g0' ∧ WordItems items' ∧ c :: t = g0' ++ itemsText items' := by
  by_cases h0 : g0 = []
  · cases items with
    | nil =>
      refine ⟨[], [([c], [])], by simp [IsGap], wordItems_new c [] [] hc (by simp [IsGap])
        (Or.inr rfl) trivial, ?_⟩
      rw [ht, h0]
      simp [itemsText]
    | cons it rest =>
      refine ⟨[], (c :: it.1, it.2) :: rest, by simp [IsGap],
        wordItems_grow c it.1 it.2 rest hc hi, ?_⟩
      rw [ht, h0]
      simp [itemsText]
  · refine ⟨[], ([c], g0) :: items, by simp [IsGap],
      wordItems_new c g0 items hc hg (Or.inl h0) hi, ?_⟩
    rw [ht]
    simp [itemsText]

/-- Every string of letters and separators is a run of separators followed by
words, each with the run of separators after it. -/
theorem exists_words : ∀ t : List Char,
    (∀ c ∈ t, isCap c = true ∨ isLow c = true ∨ c = ' ' ∨ c = '_' ∨ c = '-') →
    ∃ g0 items, IsGap g0 ∧ WordItems items ∧ t = g0 ++ itemsText items
  | [], _ => ⟨[], [], by simp [IsGap], trivial, rfl⟩
  | c :: t, h => by
      obtain ⟨g0, items, hg, hi, ht⟩ := exists_words t
        (fun x hx => h x (List.mem_cons_of_mem _ hx))
      rcases h c (List.mem_cons_self _ _) with hc | hc | hc | hc | hc
      · exact exists_words_letter_step c t g0 items hg hi ht (Or.inl hc)
      · exact exists_words_letter_step c t g0 items hg hi ht (Or.inr hc)
      · exact exists_words_gap_step c t g0 items hg hi ht (Or.inl hc)
      · exact exists_words_gap_step c t g0 items hg hi ht (Or.inr (Or.inl hc))
      · exact exists_words_gap_step c t g0 items hg hi ht (Or.inr (Or.inr hc))

/-! ## Boundaries inside a word -/

theorem camelLoop_append_low : ∀ (a : List Char) (first capNext prevCap : Bool) (c : Char)
    (X : List Char), isLow c = true →
    camelLoop first capNext prevCap (a ++ c :: X) =
      camelLoop first capNext prevCap (a ++ [c]) ++ camelLoop false false false X
  | [], first, capNext, prevCap, c, X, hc => by
      rw [List.nil_append, List.nil_append, camelLoop_low _ _ _ c X hc,
        camelLoop_low _ _ _ c [] hc]
      simp [camelLoop]
  | x :: a, first, capNext, prevCap, c, X, hc => by
      have ih := fun f cn p => camelLoop_append_low a f cn p c X hc
      rw [List.cons_append, List.cons_append, camelLoop_cons, camelLoop_cons]
      split
      · rw [ih]; rfl
      · split
        · rw [ih]; rfl
        · rw [ih]

theorem camelLoop_kept_capital (d : Char) (b : List Char) (hd : isCap d = true) :
    camelLoop false false false (d :: b) = d :: camelLoop false false true b := by
  rw [camelLoop_cons, hd]
  simp [camelByte]

theorem delimitedLoop_low_cap : ∀ (a : List Char) (p : Option Char) (c d : Char)
    (b : List Char), isLow c = true → isCap d = true →
    delimitedLoop '_' false p (a ++ c :: d :: b) =
      delimitedLoop '_' false p (a ++ [c]) ++ '_' :: delimitedLoop '_' false (some c) (d :: b)
  | [], p, c, d, b, hc, hd => by
      have hcap := isCap_of_isLow c hc
      rw [List.nil_append, List.nil_append, delimitedLoop_cons_cons, delimitedLoop_single,
        convLower_of_not_cap c hcap, isSeparator_of_isLow c hc]
      simp [hc, hd, hcap]
  | [x], p, c, d, b, hc, hd => by
      have ih := delimitedLoop_low_cap [] (some x) c d b hc hd
      rw [List.nil_append, List.nil_append] at ih
      rw [List.singleton_append, List.singleton_append,
        delimitedLoop_cons_cons '_' p x c (d :: b), delimitedLoop_cons_cons '_' p x c [], ih]
      split <;> simp
  | x :: y :: a, p, c, d, b, hc, hd => by
      have ih := delimitedLoop_low_cap (y :: a) (some x) c d b hc hd
      rw [List.cons_append, List.cons_append] at ih
      rw [List.cons_append, List.cons_append, List.cons_append, List.cons_append,
        delimitedLoop_cons_cons '_' p x y (a ++ c :: d :: b),
        delimitedLoop_cons_cons '_' p x y (a ++ [c]), ih]
      split <;> simp

theorem delimitedLoop_after_low (c d : Char) (b : List Char) (hc : isLow c = true)
    (hd : isCap d = true) :
    ∃ tail, delimitedLoop '_' false (some c) (d :: b) = convLower d :: tail := by
  have hsep : isSeparator (convLower d) = false := by
    rw [isSeparator_convLower]
    exact not_separator_of_alnum d (by simp [hd])
  cases b with
  | nil => exact ⟨[], by rw [delimitedLoop_single, hsep]; rfl⟩
  | cons n r =>
    have hp : prevIsCap (some c) = false := isCap_of_isLow c hc
    rw [delimitedLoop_cons_cons, hsep, hp]
    split
    · simp only [Bool.and_false, Bool.false_eq_true, if_false, List.nil_append,
        List.singleton_append, List.cons_append]
      exact ⟨_, rfl⟩
    · simp only [Bool.false_eq_true, if_false]
      exact ⟨_, rfl⟩


/-! ## Pascal and snake case of words -/

/-- C11: for every input made of ASCII letters and the separators space,
underscore and hyphen, `PascalCase` contains no separator and `SnakeCase` no
capital letter. The trimmed input is a run of separators followed by words,
each with the run of separators after it; `PascalCase` is the words one after
the other, each beginning with its first letter in uppercase, and `SnakeCase`
is the words in their snake form with an underscore for every separator. At a
lowercase letter followed by a capital inside a word, `PascalCase` keeps the
capital and `SnakeCase` puts an underscore before its lowercase form. -/
theorem pascal_snake_words (s : String)
    (hs : ∀ c ∈ s.data, isCap c = true ∨ isLow c = true ∨ c = ' ' ∨ c = '_' ∨ c = '-') :
    (∀ c ∈ (NewNamingHelper s).PascalCase.data, isSeparator c = false) ∧
    (∀ c ∈ (NewNamingHelper s).SnakeCase.data, isCap c = false) ∧
    (∃ g0 items, IsGap g0 ∧ WordItems items ∧ trimSpace s.data = g0 ++ itemsText items ∧
      (NewNamingHelper s).PascalCase.data = (items.map (fun it => pascalWord it.1)).flatten ∧
      (∀ it ∈ items, ∃ c rest, it.1 = c :: rest ∧
        pascalWord it.1 = asciiUpper c :: camelLoop false false (isCap c) rest ∧
        isCap (asciiUpper c) = true) ∧
      (NewNamingHelper s).SnakeCase.data =
        underscores g0 ++
          (items.map (fun it => snakeWord it.1 ++ underscores it.2)).flatten) ∧
    (∀ (a : List Char) (c d : Char) (b : List Char), isLow c = true → isCap d = true →
      pascalWord (a ++ c :: d :: b) =
        pascalWord (a ++ [c]) ++ d :: camelLoop false false true b ∧
      ∃ tail, snakeWord (a ++ c :: d :: b) =
        snakeWord (a ++ [c]) ++ '_' :: convLower d :: tail) := by
  simp only [NewNamingHelper, NamingHelper.PascalCase, NamingHelper.SnakeCase, toCamel,
    toCamelInitCase, toSnake, toScreamingDelimited]
  refine ⟨fun c hc => ?_, fun c hc => ?_, ?_, fun a c d b hc hd => ⟨?_, ?_⟩⟩
  · exact not_separator_of_alnum c (by
      rcases camelLoop_alnum _ _ _ _ c hc with h | h | h <;> simp [h])
  · exact ((delimitedLoop_stable _ none).1.1 c hc).1
  · obtain ⟨g0, items, hg, hi, ht⟩ := exists_words (trimSpace s.data)
      (fun c hc => hs c (mem_of_mem_trimSpace _ c hc))
    refine ⟨g0, items, hg, hi, ht, ?_, ?_, ?_⟩
    · rw [ht]; exact toCamel_words g0 items hg hi
    · intro it hit
      have hw : IsWord it.1 := by
        clear ht
        induction items with
        | nil => simp at hit
        | cons x rest ih =>
          rcases List.mem_cons.1 hit with h | h
          · cases rest with
            | nil => rw [h]; exact hi.1
            | cons y rest => rw [h]; exact hi.1
          · cases rest with
            | nil => simp at h
            | cons y rest => exact ih hi.2.2.2 h
      cases hw1 : it.1 with
      | nil => exact absurd hw1 hw.1
      | cons c rest =>
        have hc := hw.2 c (by rw [hw1]; exact List.mem_cons_self _ _)
        exact ⟨c, rest, rfl, camelLoop_letter_capNext _ _ c rest hc, isCap_asciiUpper c hc⟩
    · rw [ht]; exact toSnake_words g0 items hg hi
  · unfold pascalWord
    rw [camelLoop_append_low a _ _ _ c (d :: b) hc, camelLoop_kept_capital d b hd]
  · obtain ⟨tail, ht⟩ := delimitedLoop_after_low c d b hc hd
    refine ⟨tail, ?_⟩
    unfold snakeWord
    rw [delimitedLoop_low_cap a none c d b hc hd, ht]

/-- C11 at the input `my blogPost-x`. -/
theorem pascal_snake_words_witness :
    (∀ c ∈ "my blogPost-x".data,
      isCap c = true ∨ isLow c = true ∨ c = ' ' ∨ c = '_' ∨ c = '-') ∧
    (∀ c ∈ (NewNamingHelper "my blogPost-x").PascalCase.data, isSeparator c = false) ∧
    (∀ c ∈ (NewNamingHelper "my blogPost-x").SnakeCase.data, isCap c = false) :=
  ⟨by decide, (pascal_snake_words "my blogPost-x" (by decide)).1,
    (pascal_snake_words "my blogPost-x" (by decide)).2.1⟩


/-! ## The feature generator -/

theorem generate_all_ok (modelName : String) :
    Generate (fun _ => none) modelName =
      (none, modelFiles (NewNamingHelper modelName).SnakeCase) := rfl

/-- C21: with the component type `bloc` the feature generator runs the whole
model generator, so for the feature `user` it also writes the model, the
service and the repository file; with the types `service` and `repository` it
writes no file but the service file, respectively the repository file. -/
theorem runGenerate_bloc_writes_model_files :
    (∀ (fs : String → Option String) (featureName : String),
      runGenerate fs featureName "bloc" = Generate fs featureName) ∧
    (∀ featureName : String,
      (runGenerate (fun _ => none) featureName "bloc").2 =
        modelFiles (NewNamingHelper featureName).SnakeCase) ∧
    runGenerate (fun _ => none) "user" "bloc" =
      (none, ["lib/model/user.dart", "lib/network/service/user_service.dart",
        "lib/repositories/user_repository.dart",
        "lib/state_management/bloc/user/user_bloc.dart",
        "lib/state_management/bloc/user/user_event.dart",
        "lib/state_management/bloc/user/user_state.dart"]) ∧
    (∀ (fs : String → Option String) (featureName p : String),
      p ∈ (runGenerate fs featureName "service").2 →
        p = "lib/network/service/" ++ (NewNamingHelper featureName).SnakeCase ++
          "_service.dart") ∧
    (∀ (fs : String → Option String) (featureName p : String),
      p ∈ (runGenerate fs featureName "repository").2 →
        p = "lib/repositories/" ++ (NewNamingHelper featureName).SnakeCase ++
          "_repository.dart") := by
  refine ⟨fun fs featureName => ?_, fun featureName => ?_, ?_, fun fs featureName p hp => ?_,
    fun fs featureName p hp => ?_⟩
  · simp [runGenerate, FeatureGenerator.generateBloc]
  · simp [runGenerate, FeatureGenerator.generateBloc, generate_all_ok]
  · rfl
  · simp only [runGenerate, FeatureGenerator.generateService, WriteFile, if_true] at hp
    split at hp <;> simp at hp
    exact hp
  · have h1 : ¬ ("repository" = "service") := by decide
    simp only [runGenerate, FeatureGenerator.generateRepository, WriteFile, if_true, h1,
      if_false] at hp
    split at hp <;> simp at hp
    exact hp

/-! ## The Flutter commands -/

/-- C22: the command built by `Create` has no directory set, whatever the
working directory of the `FlutterCLI`, while every command built by
`runCommand` has that directory; with the target directory `apps` and the
project name `my_app` the project is created at `my_app` and the generator
writes to `apps/my_app`. -/
theorem create_ignores_working_directory :
    (∀ (d projectName org : String) (force : Bool),
      ((NewFlutterCLI d).Create projectName org force).dir = "") ∧
    (∀ (d : String) (args : List String), ((NewFlutterCLI d).runCommand args).dir = d) ∧
    (createFlutterProject { DefaultProjectConfig with
      ProjectName := "my_app", TargetDirectory := "apps" }).dir ≠ "apps" ∧
    createdProjectPath (createFlutterProject { DefaultProjectConfig with
      ProjectName := "my_app", TargetDirectory := "apps" }) = "my_app" ∧
    projectPath { DefaultProjectConfig with
      ProjectName := "my_app", TargetDirectory := "apps" } = "apps/my_app" := by
  refine ⟨fun _ _ _ _ => rfl, fun _ _ => rfl, by decide, by decide, by decide⟩


/-! ## The pubspec template -/

/-- C23: in the dependency list that `GeneratePubspec` prints, each of the four
Firebase packages is named exactly when `UseFirebase` is set,
`firebase_messaging` exactly when `UseFirebase` and `EnableNotifications` are
both set, and `supabase_flutter` exactly when `UseSupabase` is set; the
description printed is `cfg.Description`, or the default text when that is
empty; and the output consists of the name, the description line, the
dependency list and the development dependency list in that order. -/
theorem generatePubspec_optional_dependencies (cfg : ProjectConfig) :
    ("firebase_core" ∈ (pubspecDependencies cfg).map packageOf ↔ cfg.UseFirebase = true) ∧
    ("firebase_auth" ∈ (pubspecDependencies cfg).map packageOf ↔ cfg.UseFirebase = true) ∧
    ("cloud_firestore" ∈ (pubspecDependencies cfg).map packageOf ↔
      cfg.UseFirebase = true) ∧
    ("google_sign_in" ∈ (pubspecDependencies cfg).map packageOf ↔ cfg.UseFirebase = true) ∧
    ("firebase_messaging" ∈ (pubspecDependencies cfg).map packageOf ↔
      (cfg.UseFirebase = true ∧ cfg.EnableNotifications = true)) ∧
    ("supabase_flutter" ∈ (pubspecDependencies cfg).map packageOf ↔
      cfg.UseSupabase = true) ∧
    (cfg.Description = "" ∧
        pubspecDescription cfg = "A new Flutter project with Pine architecture." ∨
      cfg.Description ≠ "" ∧ pubspecDescription cfg = cfg.Description) ∧
    GeneratePubspec cfg =
      "name: " ++ cfg.ProjectName ++ "\ndescription: " ++ pubspecDescription cfg ++
        "\npublish_to: 'none'\nversion: 1.0.0+1\n\nenvironment:\n  sdk: '>=3.0.0 <4.0.0'\n\n" ++
        "dependencies:\n  " ++ "\n  ".intercalate (pubspecDependencies cfg) ++
        "\n\ndev_dependencies:\n  " ++ "\n  ".intercalate pubspecDevDependencies ++
        "\n\nflutter:\n  uses-material-design: true\n  generate: true\n" := by
  have hdesc : cfg.Description = "" ∧
        pubspecDescription cfg = "A new Flutter project with Pine architecture." ∨
      cfg.Description ≠ "" ∧ pubspecDescription cfg = cfg.Description := by
    unfold pubspecDescription
    by_cases h : cfg.Description = ""
    · exact Or.inl ⟨h, by rw [if_pos h]⟩
    · exact Or.inr ⟨h, by rw [if_neg h]⟩
  refine ⟨?_, ?_, ?_, ?_, ?_, ?_, hdesc, rfl⟩ <;>
  · unfold pubspecDependencies
    cases cfg.UseFirebase <;> cases cfg.EnableNotifications <;> cases cfg.UseSupabase <;>
      decide


/-! ## The steps of the project generator -/

theorem runSteps_nil (outcome : Step → Option String) (r : Run) :
    runSteps outcome [] r = r := rfl

theorem runSteps_cons (outcome : Step → Option String) (sm : Step × String)
    (steps : List (Step × String)) (r : Run) :
    runSteps outcome (sm :: steps) r = runSteps outcome steps (doStep outcome sm.2 sm.1 r) :=
  rfl

theorem runSteps_append (outcome : Step → Option String) (a b : List (Step × String))
    (r : Run) : runSteps outcome (a ++ b) r = runSteps outcome b (runSteps outcome a r) := by
  unfold runSteps
  rw [List.foldl_append]

theorem runSteps_error (outcome : Step → Option String) (steps : List (Step × String))
    (e : String) (done : List Step) :
    runSteps outcome steps (some e, done) = (some e, done) := by
  induction steps with
  | nil => rfl
  | cons sm steps ih =>
    rw [runSteps_cons]
    have h : doStep outcome sm.2 sm.1 (some e, done) = (some e, done) := rfl
    rw [h, ih]

theorem runSteps_ok (outcome : Step → Option String) (steps : List (Step × String))
    (done : List Step) (h : ∀ sm ∈ steps, outcome sm.1 = none) :
    runSteps outcome steps (none, done) = (none, done ++ steps.map Prod.fst) := by
  induction steps generalizing done with
  | nil => simp [runSteps_nil]
  | cons sm steps ih =>
    rw [runSteps_cons]
    have h1 : doStep outcome sm.2 sm.1 (none, done) = (none, done ++ [sm.1]) := by
      simp [doStep, h sm (List.mem_cons_self _ _)]
    rw [h1, ih _ (fun x hx => h x (List.mem_cons_of_mem _ hx))]
    simp

theorem runSteps_fail (outcome : Step → Option String) (pre post : List (Step × String))
    (s : Step) (msg e : String) (done : List Step)
    (hpre : ∀ sm ∈ pre, outcome sm.1 = none) (hs : outcome s = some e) :
    runSteps outcome (pre ++ (s, msg) :: post) (none, done) =
      (some (msg ++ ": " ++ e), done ++ pre.map Prod.fst ++ [s]) := by
  rw [runSteps_append, runSteps_ok outcome pre done hpre, runSteps_cons]
  have h1 : doStep outcome msg s (none, done ++ pre.map Prod.fst) =
      (some (msg ++ ": " ++ e), done ++ pre.map Prod.fst ++ [s]) := by
    simp [doStep, hs]
  show runSteps outcome post (doStep outcome msg s (none, done ++ pre.map Prod.fst)) = _
  rw [h1, runSteps_error]

/-- The function `Generate` runs its guarded steps in order and then, if none
failed, the code generation, whose error it drops. -/
theorem generate_eq_runSteps (g : ProjectGenerator) (outcome : Step → Option String) :
    g.Generate outcome =
      match (runSteps outcome (guardedSteps g.config) (none, [])).1 with
      | some _ => runSteps outcome (guardedSteps g.config) (none, [])
      | none => (none, (runCodeGeneration outcome
          (runSteps outcome (guardedSteps g.config) (none, [])).2).2) := by
  unfold ProjectGenerator.Generate guardedSteps
  cases g.config.UseFirebase <;> cases g.config.UseSupabase <;>
    by_cases h : g.config.Models.length > 0 <;>
    simp only [h, if_true, if_false, Bool.false_eq_true, List.append_nil, List.cons_append,
      List.nil_append, runSteps_cons, runSteps_nil]

/-- C24: when every guarded step of `Generate` succeeds, `Generate` returns no
error, whatever the two commands of the code generation return; when a guarded
step fails after the ones before it succeeded, `Generate` returns that step's
error wrapped in the step's message, and the steps it has performed are the
ones before and the failing one, so no later step and no code generation. -/
theorem generate_codegen_failure_not_fatal (g : ProjectGenerator)
    (outcome : Step → Option String) :
    ((∀ sm ∈ guardedSteps g.config, outcome sm.1 = none) →
      (g.Generate outcome).1 = none ∧
      (g.Generate outcome).2 = (guardedSteps g.config).map Prod.fst ++
        (if outcome .genL10n = none then [Step.genL10n, Step.buildRunnerBuild]
         else [Step.genL10n])) ∧
    (∀ (pre post : List (Step × String)) (s : Step) (msg e : String),
      guardedSteps g.config = pre ++ (s, msg) :: post →
      (∀ sm ∈ pre, outcome sm.1 = none) → outcome s = some e →
      g.Generate outcome = (some (msg ++ ": " ++ e), pre.map Prod.fst ++ [s])) := by
  refine ⟨fun h => ?_, fun pre post s msg e hsteps hpre hs => ?_⟩
  · rw [generate_eq_runSteps, runSteps_ok outcome _ [] h]
    simp only [List.nil_append]
    unfold runCodeGeneration
    cases h1 : outcome .genL10n with
    | some e1 => simp
    | none => cases h2 : outcome .buildRunnerBuild <;> simp
  · rw [generate_eq_runSteps, hsteps, runSteps_fail outcome pre post s msg e [] hpre hs]
    simp

/-- C24 for the default configuration: when only `flutter gen-l10n` fails,
`Generate` returns no error; when `flutter pub get` fails with `exit status 1`,
`Generate` returns `failed to install dependencies: exit status 1` after the
five first steps. -/
theorem generate_codegen_failure_not_fatal_witness :
    ((ProjectGenerator.mk DefaultProjectConfig).Generate
        (fun s => if s = Step.genL10n then some "exit status 1" else none)).1 = none ∧
    (ProjectGenerator.mk DefaultProjectConfig).Generate
        (fun s => if s = Step.pubGet then some "exit status 1" else none) =
      (some "failed to install dependencies: exit status 1",
        [Step.createFlutterProject, Step.updatePubspec, Step.createFolderStructure,
          Step.generateCoreFiles, Step.pubGet]) :=
  ⟨((generate_codegen_failure_not_fatal ⟨DefaultProjectConfig⟩
      (fun s => if s = Step.genL10n then some "exit status 1" else none)).1
      (by decide)).1,
    (generate_codegen_failure_not_fatal ⟨DefaultProjectConfig⟩
      (fun s => if s = Step.pubGet then some "exit status 1" else none)).2
      [(.createFlutterProject, "failed to create Flutter project"),
        (.updatePubspec, "failed to update pubspec"),
        (.createFolderStructure, "failed to create folders"),
        (.generateCoreFiles, "failed to generate core files")]
      [(.generateScreens, "failed to generate screens")]
      .pubGet "failed to install dependencies" "exit status 1" (by decide) (by decide) rfl⟩


/-! ## The screens of the wizard -/

theorem setScreenFlags_cons (cfg : ProjectConfig) (screen : String) (rest : List String) :
    setScreenFlags cfg (screen :: rest) = setScreenFlags (setScreenFlag cfg screen) rest := rfl

theorem setScreenFlags_login (cfg : ProjectConfig) (sel : List String) :
    (setScreenFlags cfg sel).GenerateLoginScreen =
      (cfg.GenerateLoginScreen || decide ("login" ∈ sel)) := by
  induction sel generalizing cfg with
  | nil => simp [setScreenFlags]
  | cons screen rest ih =>
    rw [setScreenFlags_cons, ih]
    have hmem : decide ("login" ∈ screen :: rest) =
        (decide (screen = "login") || decide ("login" ∈ rest)) := by
      by_cases h : screen = "login"
      · simp [h]
      · have h2 : ¬ "login" = screen := fun e => h e.symm
        simp [h, h2]
    rw [hmem]
    unfold setScreenFlag
    split_ifs <;> simp_all

theorem setScreenFlags_home (cfg : ProjectConfig) (sel : List String) :
    (setScreenFlags cfg sel).GenerateHomeScreen =
      (cfg.GenerateHomeScreen || decide ("home" ∈ sel)) := by
  induction sel generalizing cfg with
  | nil => simp [setScreenFlags]
  | cons screen rest ih =>
    rw [setScreenFlags_cons, ih]
    have hmem : decide ("home" ∈ screen :: rest) =
        (decide (screen = "home") || decide ("home" ∈ rest)) := by
      by_cases h : screen = "home"
      · simp [h]
      · have h2 : ¬ "home" = screen := fun e => h e.symm
        simp [h, h2]
    rw [hmem]
    unfold setScreenFlag
    split_ifs <;> simp_all

theorem setScreenFlags_profile (cfg : ProjectConfig) (sel : List String) :
    (setScreenFlags cfg sel).GenerateProfileScreen =
      (cfg.GenerateProfileScreen || decide ("profile" ∈ sel)) := by
  induction sel generalizing cfg with
  | nil => simp [setScreenFlags]
  | cons screen rest ih =>
    rw [setScreenFlags_cons, ih]
    have hmem : decide ("profile" ∈ screen :: rest) =
        (decide (screen = "profile") || decide ("profile" ∈ rest)) := by
      by_cases h : screen = "profile"
      · simp [h]
      · have h2 : ¬ "profile" = screen := fun e => h e.symm
        simp [h, h2]
    rw [hmem]
    unfold setScreenFlag
    split_ifs <;> simp_all

theorem setScreenFlags_settings (cfg : ProjectConfig) (sel : List String) :
    (setScreenFlags cfg sel).GenerateSettingsScreen =
      (cfg.GenerateSettingsScreen || decide ("settings" ∈ sel)) := by
  induction sel generalizing cfg with
  | nil => simp [setScreenFlags]
  | cons screen rest ih =>
    rw [setScreenFlags_cons, ih]
    have hmem : decide ("settings" ∈ screen :: rest) =
        (decide (screen = "settings") || decide ("settings" ∈ rest)) := by
      by_cases h : screen = "settings"
      · simp [h]
      · have h2 : ¬ "settings" = screen := fun e => h e.symm
        simp [h, h2]
    rw [hmem]
    unfold setScreenFlag
    split_ifs <;> simp_all

/-- C25: the wizard starts from the default configuration, in which the login
and the home screen are on, and the selection only turns flags on; so for
every selection the login and the home flag are true, and with the empty
selection `ScreenGenerator.Generate` writes the login and the home page,
neither of which was selected. The profile and the settings flag are true
exactly when their screen is in the selection. -/
theorem wizard_keeps_default_screens :
    (∀ sel : List String, (wizardScreens sel).GenerateLoginScreen = true) ∧
    (∀ sel : List String, (wizardScreens sel).GenerateHomeScreen = true) ∧
    (∀ sel : List String,
      ((wizardScreens sel).GenerateProfileScreen = true ↔ "profile" ∈ sel)) ∧
    (∀ sel : List String,
      ((wizardScreens sel).GenerateSettingsScreen = true ↔ "settings" ∈ sel)) ∧
    "login" ∉ ([] : List String) ∧ "home" ∉ ([] : List String) ∧
    (ScreenGenerator.mk (wizardScreens [])).Generate (fun _ => none) =
      (none, ["lib/ui/login/login_page.dart", "lib/ui/home/home_page.dart"]) ∧
    (ScreenGenerator.mk (wizardScreens ["profile"])).Generate (fun _ => none) =
      (none, ["lib/ui/login/login_page.dart", "lib/ui/home/home_page.dart",
        "lib/ui/profile/profile_page.dart"]) := by
  refine ⟨fun sel => ?_, fun sel => ?_, fun sel => ?_, fun sel => ?_, by simp, by simp,
    by rfl, by rfl⟩
  · unfold wizardScreens
    rw [setScreenFlags_login]
    rfl
  · unfold wizardScreens
    rw [setScreenFlags_home]
    rfl
  · unfold wizardScreens
    rw [setScreenFlags_profile]
    simp [DefaultProjectConfig]
  · unfold wizardScreens
    rw [setScreenFlags_settings]
    simp [DefaultProjectConfig]

/-! ## The round trip through a cased form -/

/-- The kinds of byte the passes tell apart exclude one another. -/
theorem byte_kind (c : Char) :
    (isCap c = true ∧ isLow c = false ∧ isNum c = false ∧ isSeparator c = false) ∨
    (isCap c = false ∧ isLow c = true ∧ isNum c = false ∧ isSeparator c = false) ∨
    (isCap c = false ∧ isLow c = false ∧ isNum c = true ∧ isSeparator c = false) ∨
    (isCap c = false ∧ isLow c = false ∧ isNum c = false ∧ isSeparator c = true) ∨
    (isCap c = false ∧ isLow c = false ∧ isNum c = false ∧ isSeparator c = false) := by
  simp only [isCap, isLow, isNum, isSeparator, decide_eq_true_eq, decide_eq_false_iff_not]
  omega

theorem isCap_camelByte (first capNext prevCap : Bool) (c : Char) :
    isCap (camelByte first capNext prevCap c) =
      ((isCap c || isLow c) && (capNext || (isCap c && !first && !prevCap))) := by
  rcases byte_kind c with ⟨h1, h2, h3, h4⟩ | ⟨h1, h2, h3, h4⟩ | ⟨h1, h2, h3, h4⟩ |
    ⟨h1, h2, h3, h4⟩ | ⟨h1, h2, h3, h4⟩ <;>
  cases first <;> cases capNext <;> cases prevCap <;>
  simp [camelByte, h1, h2, isCap_upperByte, isCap_convLower, isLow_lowerByte, isCap_of_isLow]

theorem isLow_camelByte (first capNext prevCap : Bool) (c : Char) :
    isLow (camelByte first capNext prevCap c) =
      ((isCap c || isLow c) && !(capNext || (isCap c && !first && !prevCap))) := by
  rcases byte_kind c with ⟨h1, h2, h3, h4⟩ | ⟨h1, h2, h3, h4⟩ | ⟨h1, h2, h3, h4⟩ |
    ⟨h1, h2, h3, h4⟩ | ⟨h1, h2, h3, h4⟩ <;>
  cases first <;> cases capNext <;> cases prevCap <;>
  simp [camelByte, h1, h2, isLow_upperByte, isLow_lowerByte]

theorem isNum_camelByte (first capNext prevCap : Bool) (c : Char) :
    isNum (camelByte first capNext prevCap c) = isNum c := by
  by_cases h : isCap c = true ∨ isLow c = true
  · rw [isNum_of_letter _ (camelByte_letter first capNext prevCap c h), isNum_of_letter c h]
  · have h1 : isCap c = false := by
      cases hc : isCap c
      · rfl
      · exact absurd (Or.inl hc) h
    have h2 : isLow c = false := by
      cases hc : isLow c
      · rfl
      · exact absurd (Or.inr hc) h
    rw [camelByte_not_letter _ _ _ c h1 h2]

theorem convLower_lowerByte (c : Char) (h : isCap c = true) :
    convLower (lowerByte c) = lowerByte c :=
  convLower_of_not_cap _ (isCap_of_isLow _ (isLow_lowerByte c h))

theorem convLower_camelByte (first capNext prevCap : Bool) (c : Char) :
    convLower (camelByte first capNext prevCap c) = convLower c := by
  rcases byte_kind c with ⟨h1, h2, h3, h4⟩ | ⟨h1, h2, h3, h4⟩ | ⟨h1, h2, h3, h4⟩ |
    ⟨h1, h2, h3, h4⟩ | ⟨h1, h2, h3, h4⟩ <;>
  cases first <;> cases capNext <;> cases prevCap <;>
  simp [camelByte, h1, h2, convLower_upperByte, convLower_lowerByte, convLower_of_not_cap] <;>
  simp [convLower, h1]

theorem snakeByte_camelByte (first capNext prevCap : Bool) (c : Char) :
    snakeByte (camelByte first capNext prevCap c) = snakeByte c := by
  unfold snakeByte
  rw [convLower_camelByte]

theorem snake_prev (x y : Char) (R : List Char) :
    delimitedLoop '_' false (some x) (y :: R) =
      und (isCap x && isCap y && byteIs isLow R.head?) ++
        delimitedLoop '_' false none (y :: R) := by
  cases R with
  | nil => simp [delimitedLoop_single, und, byteIs]
  | cons n R' =>
    rw [delimitedLoop_cons_cons, delimitedLoop_cons_cons]
    rcases byte_kind x with ⟨_, _, _, _⟩ | ⟨_, _, _, _⟩ | ⟨_, _, _, _⟩ | ⟨_, _, _, _⟩ |
      ⟨_, _, _, _⟩ <;>
    rcases byte_kind y with ⟨_, _, _, _⟩ | ⟨_, _, _, _⟩ | ⟨_, _, _, _⟩ | ⟨_, _, _, _⟩ |
      ⟨_, _, _, _⟩ <;>
    rcases byte_kind n with ⟨_, _, _, _⟩ | ⟨_, _, _, _⟩ | ⟨_, _, _, _⟩ | ⟨_, _, _, _⟩ |
      ⟨_, _, _, _⟩ <;>
    simp [*, und, byteIs, prevIsCap, isNum_convLower]

theorem snake_single (x : Char) : delimitedLoop '_' false none [x] = [snakeByte x] := by
  rw [delimitedLoop_single]; rfl

theorem snake_step (x y : Char) (R : List Char) :
    delimitedLoop '_' false none (x :: y :: R) =
      snakeByte x :: (und (gapAfter x y R.head?) ++ delimitedLoop '_' false none (y :: R)) := by
  rw [delimitedLoop_cons_cons, snake_prev]
  cases R with
  | nil =>
    rcases byte_kind x with ⟨_, _, _, _⟩ | ⟨_, _, _, _⟩ | ⟨_, _, _, _⟩ | ⟨_, _, _, _⟩ |
      ⟨_, _, _, _⟩ <;>
    rcases byte_kind y with ⟨_, _, _, _⟩ | ⟨_, _, _, _⟩ | ⟨_, _, _, _⟩ | ⟨_, _, _, _⟩ |
      ⟨_, _, _, _⟩ <;>
    simp [*, und, byteIs, prevIsCap, isNum_convLower, isSeparator_convLower, gapAfter, snakeByte]
  | cons n R' =>
    rcases byte_kind x with ⟨_, _, _, _⟩ | ⟨_, _, _, _⟩ | ⟨_, _, _, _⟩ | ⟨_, _, _, _⟩ |
      ⟨_, _, _, _⟩ <;>
    rcases byte_kind y with ⟨_, _, _, _⟩ | ⟨_, _, _, _⟩ | ⟨_, _, _, _⟩ | ⟨_, _, _, _⟩ |
      ⟨_, _, _, _⟩ <;>
    rcases byte_kind n with ⟨_, _, _, _⟩ | ⟨_, _, _, _⟩ | ⟨_, _, _, _⟩ | ⟨_, _, _, _⟩ |
      ⟨_, _, _, _⟩ <;>
    simp [*, und, byteIs, prevIsCap, isNum_convLower, isSeparator_convLower, gapAfter, snakeByte]

theorem camelFrom_nil (init : Bool) (p : Option Char) : camelFrom init p [] = [] := by
  simp [camelFrom, camelLoop]

theorem camelFrom_cons (init : Bool) (p : Option Char) (c : Char) (r : List Char) :
    camelFrom init p (c :: r) =
      (if isAlpha c || isNum c then [camelOut init p c] else []) ++
        camelFrom init (some c) r := by
  unfold camelFrom camelOut
  rw [camelLoop_cons]
  rcases byte_kind c with ⟨h1, h2, h3, h4⟩ | ⟨h1, h2, h3, h4⟩ | ⟨h1, h2, h3, h4⟩ |
    ⟨h1, h2, h3, h4⟩ | ⟨h1, h2, h3, h4⟩ <;>
  simp [h1, h2, h3, h4, isAlpha, capNextOf, prevIsCap, isNum_camelByte, camelByte_not_letter]

theorem alnum_kind (c : Char) (h : (isAlpha c || isNum c) = true) :
    (isCap c = true ∧ isLow c = false ∧ isNum c = false ∧ isSeparator c = false) ∨
    (isCap c = false ∧ isLow c = true ∧ isNum c = false ∧ isSeparator c = false) ∨
    (isCap c = false ∧ isLow c = false ∧ isNum c = true ∧ isSeparator c = false) := by
  rcases byte_kind c with ⟨h1, h2, h3, h4⟩ | ⟨h1, h2, h3, h4⟩ | ⟨h1, h2, h3, h4⟩ |
    ⟨h1, h2, h3, h4⟩ | ⟨h1, h2, h3, h4⟩ <;> simp [isAlpha, h1, h2, h3, h4] at h ⊢

theorem id_kind (c : Char) (h : isIdByte c = true) :
    (isCap c = true ∧ isLow c = false ∧ isNum c = false ∧ isSeparator c = false) ∨
    (isCap c = false ∧ isLow c = true ∧ isNum c = false ∧ isSeparator c = false) ∨
    (isCap c = false ∧ isLow c = false ∧ isNum c = true ∧ isSeparator c = false) ∨
    (isCap c = false ∧ isLow c = false ∧ isNum c = false ∧ isSeparator c = true) := by
  rcases byte_kind c with ⟨h1, h2, h3, h4⟩ | ⟨h1, h2, h3, h4⟩ | ⟨h1, h2, h3, h4⟩ |
    ⟨h1, h2, h3, h4⟩ | ⟨h1, h2, h3, h4⟩ <;> simp [isIdByte, isAlpha, h1, h2, h3, h4] at h ⊢

theorem isCap_camelOut (init : Bool) (p : Option Char) (c : Char) :
    isCap (camelOut init p c) =
      ((isCap c || isLow c) && (capNextOf init p || (isCap c && !p.isNone && !prevIsCap p))) :=
  isCap_camelByte _ _ _ c

theorem isLow_camelOut (init : Bool) (p : Option Char) (c : Char) :
    isLow (camelOut init p c) =
      ((isCap c || isLow c) && !(capNextOf init p || (isCap c && !p.isNone && !prevIsCap p))) :=
  isLow_camelByte _ _ _ c

theorem isNum_camelOut (init : Bool) (p : Option Char) (c : Char) :
    isNum (camelOut init p c) = isNum c :=
  isNum_camelByte _ _ _ c

theorem snakeByte_camelOut (init : Bool) (p : Option Char) (c : Char) :
    snakeByte (camelOut init p c) = snakeByte c :=
  snakeByte_camelByte _ _ _ c

theorem snakeByte_ne_underscore (c : Char) (h : (isAlpha c || isNum c) = true) :
    snakeByte c ≠ '_' := by
  intro he
  have hs : isSeparator (snakeByte c) = true := by rw [he]; decide
  rcases alnum_kind c h with ⟨h1, h2, h3, h4⟩ | ⟨h1, h2, h3, h4⟩ | ⟨h1, h2, h3, h4⟩ <;>
  simp [snakeByte, isSeparator_convLower, h4] at hs

theorem snakeByte_separator (c : Char) (h : isSeparator c = true) : snakeByte c = '_' := by
  simp [snakeByte, isSeparator_convLower, h]

theorem gapAfter_congr (x y : Char) (n m : Option Char) (h : byteIs isLow n = byteIs isLow m) :
    gapAfter x y n = gapAfter x y m := by
  unfold gapAfter
  rw [h]

theorem und_cancel (a b : Bool) (c d : Char) (A B : List Char) (hc : c ≠ '_') (hd : d ≠ '_') :
    und a ++ c :: A = und b ++ d :: B ↔ a = b ∧ c :: A = d :: B := by
  cases a <;> cases b <;> simp [und]
  · intro h; exact absurd h hc
  · intro h; exact absurd h.symm hd

/-- After a separator or a digit, and at the start of the Pascal form, the
camel pass does not begin with a lowercase letter. -/
theorem camelFrom_head_not_low (init : Bool) : ∀ (r : List Char) (p : Option Char),
    capNextOf init p = true → (∀ c ∈ r, isIdByte c = true) →
    byteIs isLow (camelFrom init p r).head? = false
  | [], p, _, _ => by simp [camelFrom_nil, byteIs]
  | c :: r, p, hp, hr => by
      rw [camelFrom_cons]
      rcases id_kind c (hr c (List.mem_cons_self _ _)) with ⟨h1, h2, h3, h4⟩ |
        ⟨h1, h2, h3, h4⟩ | ⟨h1, h2, h3, h4⟩ | ⟨h1, h2, h3, h4⟩
      · simp [isAlpha, h1, h2, h3, byteIs, isLow_camelOut, hp]
      · simp [isAlpha, h1, h2, h3, byteIs, isLow_camelOut, hp]
      · simp [isAlpha, h1, h2, h3, byteIs, isLow_camelOut, hp]
      · have ih := camelFrom_head_not_low init r (some c) (by simp [capNextOf, h4])
          (fun x hx => hr x (List.mem_cons_of_mem _ hx))
        simpa [isAlpha, h1, h2, h3] using ih

theorem camelFrom_head_low (init : Bool) (y : Char) (R : List Char)
    (hR : ∀ c ∈ R, isIdByte c = true) :
    byteIs isLow (camelFrom init (some y) R).head? =
      byteIs isLow (R.head?.map (camelOut init (some y))) := by
  cases R with
  | nil => simp [camelFrom_nil, byteIs]
  | cons z R' =>
    rw [camelFrom_cons]
    rcases id_kind z (hR z (List.mem_cons_self _ _)) with ⟨h1, h2, h3, h4⟩ |
      ⟨h1, h2, h3, h4⟩ | ⟨h1, h2, h3, h4⟩ | ⟨h1, h2, h3, h4⟩
    · simp [isAlpha, h1, h2, h3, byteIs]
    · simp [isAlpha, h1, h2, h3, byteIs]
    · simp [isAlpha, h1, h2, h3, byteIs]
    · have h := camelFrom_head_not_low init R' (some z) (by simp [capNextOf, h4])
        (fun x hx => hR x (List.mem_cons_of_mem _ hx))
      simp only [isAlpha, h1, h2, h3, Bool.or_false, Bool.false_eq_true, if_false,
        List.nil_append]
      rw [h]
      simp [byteIs, isLow_camelOut, h1, h2]

set_option maxHeartbeats 4000000 in
theorem local_adj (init : Bool) (p : Option Char) (x y : Char) (R : List Char)
    (hp : ∀ c ∈ p, isIdByte c = true) (hx : (isAlpha x || isNum x) = true)
    (hy : (isAlpha y || isNum y) = true) (hR : ∀ c ∈ R.head?, isIdByte c = true) :
    (gapAfter (camelOut init p x) (camelOut init (some x) y)
        (R.head?.map (camelOut init (some y))) = gapAfter x y R.head?) ↔
      breaksAt init p (x :: y :: R) = false := by
  cases p with
  | none =>
    cases R with
    | nil =>
      simp only [breaksAt, oneLetterWord, startsWord, endsWord, gapAfter, byteIs, isAlpha,
        isCap_camelOut, isLow_camelOut, isNum_camelOut, capNextOf, prevIsCap, List.head?_cons,
        List.head?_nil, Option.map_none', Option.map_some', Option.isNone_none,
        Option.isNone_some, Option.isSome_none, Option.isSome_some]
      rcases alnum_kind x hx with ⟨_, _, _, _⟩ | ⟨_, _, _, _⟩ | ⟨_, _, _, _⟩ <;>
      rcases alnum_kind y hy with ⟨_, _, _, _⟩ | ⟨_, _, _, _⟩ | ⟨_, _, _, _⟩ <;>
      cases init <;> simp [*]
    | cons z R' =>
      simp only [breaksAt, oneLetterWord, startsWord, endsWord, gapAfter, byteIs, isAlpha,
        isCap_camelOut, isLow_camelOut, isNum_camelOut, capNextOf, prevIsCap, List.head?_cons,
        List.head?_nil, Option.map_none', Option.map_some', Option.isNone_none,
        Option.isNone_some, Option.isSome_none, Option.isSome_some]
      rcases alnum_kind x hx with ⟨_, _, _, _⟩ | ⟨_, _, _, _⟩ | ⟨_, _, _, _⟩ <;>
      rcases alnum_kind y hy with ⟨_, _, _, _⟩ | ⟨_, _, _, _⟩ | ⟨_, _, _, _⟩ <;>
      rcases id_kind z (hR z rfl) with ⟨_, _, _, _⟩ | ⟨_, _, _, _⟩ | ⟨_, _, _, _⟩ |
        ⟨_, _, _, _⟩ <;>
      cases init <;> simp [*]
  | some q =>
    cases R with
    | nil =>
      simp only [breaksAt, oneLetterWord, startsWord, endsWord, gapAfter, byteIs, isAlpha,
        isCap_camelOut, isLow_camelOut, isNum_camelOut, capNextOf, prevIsCap, List.head?_cons,
        List.head?_nil, Option.map_none', Option.map_some', Option.isNone_none,
        Option.isNone_some, Option.isSome_none, Option.isSome_some]
      rcases id_kind q (hp q rfl) with ⟨_, _, _, _⟩ | ⟨_, _, _, _⟩ | ⟨_, _, _, _⟩ |
        ⟨_, _, _, _⟩ <;>
      rcases alnum_kind x hx with ⟨_, _, _, _⟩ | ⟨_, _, _, _⟩ | ⟨_, _, _, _⟩ <;>
      rcases alnum_kind y hy with ⟨_, _, _, _⟩ | ⟨_, _, _, _⟩ | ⟨_, _, _, _⟩ <;>
      cases init <;> simp [*]
    | cons z R' =>
      simp only [breaksAt, oneLetterWord, startsWord, endsWord, gapAfter, byteIs, isAlpha,
        isCap_camelOut, isLow_camelOut, isNum_camelOut, capNextOf, prevIsCap, List.head?_cons,
        List.head?_nil, Option.map_none', Option.map_some', Option.isNone_none,
        Option.isNone_some, Option.isSome_none, Option.isSome_some]
      rcases id_kind q (hp q rfl) with ⟨_, _, _, _⟩ | ⟨_, _, _, _⟩ | ⟨_, _, _, _⟩ |
        ⟨_, _, _, _⟩ <;>
      rcases alnum_kind x hx with ⟨_, _, _, _⟩ | ⟨_, _, _, _⟩ | ⟨_, _, _, _⟩ <;>
      rcases alnum_kind y hy with ⟨_, _, _, _⟩ | ⟨_, _, _, _⟩ | ⟨_, _, _, _⟩ <;>
      rcases id_kind z (hR z rfl) with ⟨_, _, _, _⟩ | ⟨_, _, _, _⟩ | ⟨_, _, _, _⟩ |
        ⟨_, _, _, _⟩ <;>
      cases init <;> simp [*]

theorem sep_kind (c : Char) (h : isSeparator c = true) :
    isCap c = false ∧ isLow c = false ∧ isNum c = false ∧ isSeparator c = true := by
  rcases byte_kind c with ⟨h1, h2, h3, h4⟩ | ⟨h1, h2, h3, h4⟩ | ⟨h1, h2, h3, h4⟩ |
    ⟨h1, h2, h3, h4⟩ | ⟨h1, h2, h3, h4⟩ <;> simp [h1, h2, h3, h4] at h ⊢

set_option maxHeartbeats 4000000 in
theorem local_sep (init : Bool) (p : Option Char) (x s y : Char) (R : List Char)
    (hp : ∀ c ∈ p, isIdByte c = true) (hx : (isAlpha x || isNum x) = true)
    (hs : isSeparator s = true)
    (hy : (isAlpha y || isNum y) = true) (hR : ∀ c ∈ R.head?, isIdByte c = true) :
    gapAfter (camelOut init p x) (camelOut init (some s) y)
        (R.head?.map (camelOut init (some y))) = true ↔
      (breaksAt init p (x :: s :: y :: R) = false ∧
        breaksAt init (some x) (s :: y :: R) = false) := by
  obtain ⟨_, _, _, _⟩ := sep_kind s hs
  cases p with
  | none =>
    cases R with
    | nil =>
      simp only [breaksAt, oneLetterWord, startsWord, endsWord, gapAfter, byteIs, isAlpha,
        isCap_camelOut, isLow_camelOut, isNum_camelOut, capNextOf, prevIsCap, List.head?_cons,
        List.head?_nil, Option.map_none', Option.map_some', Option.isNone_none,
        Option.isNone_some, Option.isSome_none, Option.isSome_some]
      rcases alnum_kind x hx with ⟨_, _, _, _⟩ | ⟨_, _, _, _⟩ | ⟨_, _, _, _⟩ <;>
      rcases alnum_kind y hy with ⟨_, _, _, _⟩ | ⟨_, _, _, _⟩ | ⟨_, _, _, _⟩ <;>
      cases init <;> simp [*]
    | cons z R' =>
      simp only [breaksAt, oneLetterWord, startsWord, endsWord, gapAfter, byteIs, isAlpha,
        isCap_camelOut, isLow_camelOut, isNum_camelOut, capNextOf, prevIsCap, List.head?_cons,
        List.head?_nil, Option.map_none', Option.map_some', Option.isNone_none,
        Option.isNone_some, Option.isSome_none, Option.isSome_some]
      rcases alnum_kind x hx with ⟨_, _, _, _⟩ | ⟨_, _, _, _⟩ | ⟨_, _, _, _⟩ <;>
      rcases alnum_kind y hy with ⟨_, _, _, _⟩ | ⟨_, _, _, _⟩ | ⟨_, _, _, _⟩ <;>
      rcases id_kind z (hR z rfl) with ⟨_, _, _, _⟩ | ⟨_, _, _, _⟩ | ⟨_, _, _, _⟩ |
        ⟨_, _, _, _⟩ <;>
      cases init <;> simp [*]
  | some q =>
    cases R with
    | nil =>
      simp only [breaksAt, oneLetterWord, startsWord, endsWord, gapAfter, byteIs, isAlpha,
        isCap_camelOut, isLow_camelOut, isNum_camelOut, capNextOf, prevIsCap, List.head?_cons,
        List.head?_nil, Option.map_none', Option.map_some', Option.isNone_none,
        Option.isNone_some, Option.isSome_none, Option.isSome_some]
      rcases id_kind q (hp q rfl) with ⟨_, _, _, _⟩ | ⟨_, _, _, _⟩ | ⟨_, _, _, _⟩ |
        ⟨_, _, _, _⟩ <;>
      rcases alnum_kind x hx with ⟨_, _, _, _⟩ | ⟨_, _, _, _⟩ | ⟨_, _, _, _⟩ <;>
      rcases alnum_kind y hy with ⟨_, _, _, _⟩ | ⟨_, _, _, _⟩ | ⟨_, _, _, _⟩ <;>
      cases init <;> simp [*]
    | cons z R' =>
      simp only [breaksAt, oneLetterWord, startsWord, endsWord, gapAfter, byteIs, isAlpha,
        isCap_camelOut, isLow_camelOut, isNum_camelOut, capNextOf, prevIsCap, List.head?_cons,
        List.head?_nil, Option.map_none', Option.map_some', Option.isNone_none,
        Option.isNone_some, Option.isSome_none, Option.isSome_some]
      rcases id_kind q (hp q rfl) with ⟨_, _, _, _⟩ | ⟨_, _, _, _⟩ | ⟨_, _, _, _⟩ |
        ⟨_, _, _, _⟩ <;>
      rcases alnum_kind x hx with ⟨_, _, _, _⟩ | ⟨_, _, _, _⟩ | ⟨_, _, _, _⟩ <;>
      rcases alnum_kind y hy with ⟨_, _, _, _⟩ | ⟨_, _, _, _⟩ | ⟨_, _, _, _⟩ <;>
      rcases id_kind z (hR z rfl) with ⟨_, _, _, _⟩ | ⟨_, _, _, _⟩ | ⟨_, _, _, _⟩ |
        ⟨_, _, _, _⟩ <;>
      cases init <;> simp [*]

theorem snake_cons (y : Char) (R : List Char) :
    ∃ T, delimitedLoop '_' false none (y :: R) = snakeByte y :: T := by
  cases R with
  | nil => exact ⟨[], snake_single y⟩
  | cons z R' => exact ⟨_, snake_step y z R'⟩

theorem camelFrom_alnum (init : Bool) (p : Option Char) (x : Char) (r : List Char)
    (hx : (isAlpha x || isNum x) = true) :
    camelFrom init p (x :: r) = camelOut init p x :: camelFrom init (some x) r := by
  rw [camelFrom_cons, if_pos hx]
  rfl

theorem camelFrom_sep (init : Bool) (p : Option Char) (s : Char) (r : List Char)
    (hs : isSeparator s = true) :
    camelFrom init p (s :: r) = camelFrom init (some s) r := by
  obtain ⟨h1, h2, h3, _⟩ := sep_kind s hs
  rw [camelFrom_cons]
  simp [isAlpha, h1, h2, h3]

theorem camelFrom_all_alnum (init : Bool) (p : Option Char) (r : List Char) :
    ∀ c ∈ camelFrom init p r, (isAlpha c || isNum c) = true := by
  intro c hc
  have h := camelLoop_alnum r _ _ _ c hc
  simp only [isAlpha, Bool.or_eq_true]
  tauto

theorem alnum_of_not_sep (c : Char) (h : isIdByte c = true) (hs : isSeparator c = false) :
    (isAlpha c || isNum c) = true := by
  simpa [isIdByte, hs] using h

theorem gapAfter_sep_right (x s : Char) (n : Option Char) (hs : isSeparator s = true) :
    gapAfter x s n = false := by
  obtain ⟨h1, h2, h3, _⟩ := sep_kind s hs
  simp [gapAfter, h1, h2, h3]

theorem gapAfter_sep_left (s y : Char) (n : Option Char) (hs : isSeparator s = true) :
    gapAfter s y n = false := by
  obtain ⟨h1, h2, h3, _⟩ := sep_kind s hs
  simp [gapAfter, h1, h2, h3]

theorem breaksAt_single (init : Bool) (p : Option Char) (x : Char)
    (hx : (isAlpha x || isNum x) = true) : breaksAt init p [x] = false := by
  rcases alnum_kind x hx with ⟨h1, h2, h3, h4⟩ | ⟨h1, h2, h3, h4⟩ | ⟨h1, h2, h3, h4⟩ <;>
  simp [breaksAt, isAlpha, h1, h2, h3, h4]

theorem breaksAt_trailing_sep (init : Bool) (p : Option Char) (s : Char)
    (hs : isSeparator s = true) : breaksAt init p [s] = true := by
  simp [breaksAt, hs]

theorem breaksAt_double_sep (init : Bool) (p : Option Char) (s z : Char) (R : List Char)
    (hs : isSeparator s = true) (hz : isSeparator z = true) :
    breaksAt init p (s :: z :: R) = true := by
  simp [breaksAt, hs, hz, byteIs]

theorem noBreak_cons (init : Bool) (p : Option Char) (x : Char) (r : List Char) :
    noBreak init p (x :: r) = (!breaksAt init p (x :: r) && noBreak init (some x) r) := rfl

/-- The two passes in step: on a text of letters, digits and separators that
does not begin with a separator, the snake pass over the camel pass equals the
snake pass exactly when nothing breaks the round trip. -/
theorem roundTrip_lockstep (init : Bool) : ∀ (n : Nat) (r : List Char) (p : Option Char),
    r.length ≤ n → (∀ c ∈ p, isIdByte c = true) → (∀ c ∈ r, isIdByte c = true) →
    (∀ c ∈ r.head?, isSeparator c = false) →
    (delimitedLoop '_' false none (camelFrom init p r) = delimitedLoop '_' false none r ↔
      noBreak init p r = true) := by
  intro n
  induction n with
  | zero =>
    intro r p hn _ _ _
    have h0 : r = [] := List.length_eq_zero.1 (Nat.le_zero.1 hn)
    subst h0
    simp [camelFrom_nil, noBreak]
  | succ n ih =>
    intro r p hn hp hr hh
    match r, hn, hr, hh with
    | [], _, _, _ => simp [camelFrom_nil, noBreak]
    | [x], _, hr, hh =>
      have hx := alnum_of_not_sep x (hr x (List.mem_cons_self _ _)) (hh x rfl)
      rw [camelFrom_alnum init p x [] hx, camelFrom_nil, snake_single, snake_single,
        snakeByte_camelOut]
      simp [noBreak, breaksAt_single init p x hx]
    | x :: y :: R, hn, hr, hh =>
      have hx := alnum_of_not_sep x (hr x (List.mem_cons_self _ _)) (hh x rfl)
      have hyid := hr y (List.mem_cons_of_mem _ (List.mem_cons_self _ _))
      have hRid : ∀ c ∈ R, isIdByte c = true :=
        fun c hc => hr c (List.mem_cons_of_mem _ (List.mem_cons_of_mem _ hc))
      have hpx : ∀ c ∈ some x, isIdByte c = true := by
        intro c hc
        cases hc
        exact hr x (List.mem_cons_self _ _)
      have hpy : ∀ c ∈ some y, isIdByte c = true := by
        intro c hc
        cases hc
        exact hyid
      by_cases hys : isSeparator y = true
      · cases R with
        | nil =>
          have hb : breaksAt init (some x) [y] = true := breaksAt_trailing_sep init _ y hys
          rw [camelFrom_alnum init p x _ hx, camelFrom_sep init _ y _ hys, camelFrom_nil,
            snake_single, snake_step, snake_single, snakeByte_camelOut, noBreak_cons,
            noBreak_cons, hb]
          simp
        | cons z R2 =>
          have hzid := hRid z (List.mem_cons_self _ _)
          by_cases hzs : isSeparator z = true
          · have hb : breaksAt init (some x) (y :: z :: R2) = true :=
              breaksAt_double_sep init _ y z R2 hys hzs
            have hnb : noBreak init p (x :: y :: z :: R2) = false := by
              rw [noBreak_cons, noBreak_cons, hb]
              simp
            rw [hnb]
            have hne : delimitedLoop '_' false none (camelFrom init p (x :: y :: z :: R2)) ≠
                delimitedLoop '_' false none (x :: y :: z :: R2) := by
              rw [camelFrom_alnum init p x _ hx, camelFrom_sep init _ y _ hys,
                camelFrom_sep init _ z _ hzs, snake_step x y, snake_step y z,
                gapAfter_sep_right x y _ hys, gapAfter_sep_left y z _ hys,
                snakeByte_separator y hys]
              obtain ⟨T, hT⟩ := snake_cons z R2
              rw [hT, snakeByte_separator z hzs]
              have hall := camelFrom_all_alnum init (some z) R2
              cases hQ : camelFrom init (some z) R2 with
              | nil =>
                rw [snake_single, snakeByte_camelOut]
                simp [und]
              | cons q Q =>
                have hq : (isAlpha q || isNum q) = true :=
                  hall q (by rw [hQ]; exact List.mem_cons_self _ _)
                obtain ⟨T2, hT2⟩ := snake_cons q Q
                rw [snake_step, hT2, snakeByte_camelOut]
                have hqne := snakeByte_ne_underscore q hq
                intro heq
                cases hg : gapAfter (camelOut init p x) q Q.head? <;>
                  simp [hg, und] at heq
                · exact hqne heq.1
                · exact hqne heq.1
            simp [hne]
          · have hzs2 : isSeparator z = false := by simpa using hzs
            have hz := alnum_of_not_sep z hzid hzs2
            have hR2id : ∀ c ∈ R2, isIdByte c = true :=
              fun c hc => hRid c (List.mem_cons_of_mem _ hc)
            have e2 : camelFrom init (some y) (z :: R2) =
                camelOut init (some y) z :: camelFrom init (some z) R2 :=
              camelFrom_alnum init _ z _ hz
            have IH := ih (z :: R2) (some y)
              (by simp only [List.length_cons] at hn ⊢; omega) hpy hRid
              (by intro c hc; cases hc; exact hzs2)
            obtain ⟨T1, hT1⟩ := snake_cons (camelOut init (some y) z)
              (camelFrom init (some z) R2)
            obtain ⟨T2, hT2⟩ := snake_cons z R2
            have hQ : delimitedLoop '_' false none (camelFrom init (some y) (z :: R2)) =
                snakeByte z :: T1 := by
              rw [e2, hT1, snakeByte_camelOut]
            have main : (delimitedLoop '_' false none (camelFrom init p (x :: y :: z :: R2)) =
                delimitedLoop '_' false none (x :: y :: z :: R2)) ↔
                (gapAfter (camelOut init p x) (camelOut init (some y) z)
                    (R2.head?.map (camelOut init (some z))) = true ∧
                  delimitedLoop '_' false none (camelFrom init (some y) (z :: R2)) =
                    delimitedLoop '_' false none (z :: R2)) := by
              rw [camelFrom_alnum init p x _ hx, camelFrom_sep init _ y _ hys, e2,
                snake_step (camelOut init p x), snake_step x y, snake_step y z,
                snakeByte_camelOut,
                gapAfter_congr _ _ _ _ (camelFrom_head_low init z R2 hR2id),
                gapAfter_sep_right x y _ hys, gapAfter_sep_left y z _ hys,
                snakeByte_separator y hys, hT1, hT2, snakeByte_camelOut]
              have hc := und_cancel
                (gapAfter (camelOut init p x) (camelOut init (some y) z)
                  (R2.head?.map (camelOut init (some z)))) true
                (snakeByte z) (snakeByte z) T1 T2
                (snakeByte_ne_underscore z hz) (snakeByte_ne_underscore z hz)
              simpa [und] using hc
            refine main.trans ?_
            rw [noBreak_cons, noBreak_cons, Bool.and_eq_true, Bool.and_eq_true,
              Bool.not_eq_true', Bool.not_eq_true', ← and_assoc]
            exact and_congr
              (local_sep init p x y z R2 hp hx hys hz
                (fun c hc => hR2id c (List.mem_of_mem_head? hc)))
              IH
      · have hys2 : isSeparator y = false := by simpa using hys
        have hy := alnum_of_not_sep y hyid hys2
        have e2 : camelFrom init (some x) (y :: R) =
            camelOut init (some x) y :: camelFrom init (some y) R :=
          camelFrom_alnum init _ y _ hy
        have IH := ih (y :: R) (some x)
          (by simp only [List.length_cons] at hn ⊢; omega) hpx
          (fun c hc => hr c (List.mem_cons_of_mem _ hc))
          (by intro c hc; cases hc; exact hys2)
        obtain ⟨T1, hT1⟩ := snake_cons (camelOut init (some x) y) (camelFrom init (some y) R)
        obtain ⟨T2, hT2⟩ := snake_cons y R
        have main : (delimitedLoop '_' false none (camelFrom init p (x :: y :: R)) =
            delimitedLoop '_' false none (x :: y :: R)) ↔
            (gapAfter (camelOut init p x) (camelOut init (some x) y)
                (R.head?.map (camelOut init (some y))) = gapAfter x y R.head? ∧
              delimitedLoop '_' false none (camelFrom init (some x) (y :: R)) =
                delimitedLoop '_' false none (y :: R)) := by
          rw [camelFrom_alnum init p x _ hx, e2, snake_step (camelOut init p x),
            snake_step x y, snakeByte_camelOut,
            gapAfter_congr _ _ _ _ (camelFrom_head_low init y R hRid), hT1, hT2,
            snakeByte_camelOut]
          have hc := und_cancel
            (gapAfter (camelOut init p x) (camelOut init (some x) y)
              (R.head?.map (camelOut init (some y)))) (gapAfter x y R.head?)
            (snakeByte y) (snakeByte y) T1 T2
            (snakeByte_ne_underscore y hy) (snakeByte_ne_underscore y hy)
          simpa using hc
        refine main.trans ?_
        rw [noBreak_cons, Bool.and_eq_true, Bool.not_eq_true']
        exact and_congr
          (local_adj init p x y R hp hx hy (fun c hc => hRid c (List.mem_of_mem_head? hc)))
          IH

theorem mem_und (b : Bool) (c : Char) (h : c ∈ und b) : c = '_' := by
  cases b <;> simp [und] at h
  exact h

theorem snakeByte_mem_snake : ∀ (r : List Char) (c : Char), c ∈ r →
    snakeByte c ∈ delimitedLoop '_' false none r
  | [], _, h => by simp at h
  | [x], c, h => by
      rw [snake_single]
      simp only [List.mem_singleton] at h
      rw [h]
      exact List.mem_singleton_self _
  | x :: y :: R, c, h => by
      rw [snake_step]
      rcases List.mem_cons.1 h with h | h
      · rw [h]; exact List.mem_cons_self _ _
      · exact List.mem_cons_of_mem _
          (List.mem_append_right _ (snakeByte_mem_snake (y :: R) c h))

theorem isIdByte_snakeByte (x : Char) (hx : isIdByte x = true) :
    isIdByte (snakeByte x) = true := by
  rcases id_kind x hx with ⟨h1, h2, h3, h4⟩ | ⟨h1, h2, h3, h4⟩ | ⟨h1, h2, h3, h4⟩ |
    ⟨h1, h2, h3, h4⟩
  · simp [snakeByte, isSeparator_convLower, h4, isIdByte, isAlpha, isLow_convLower, h1]
  · simp [snakeByte, isSeparator_convLower, h4, isIdByte, isAlpha, isLow_convLower, h2]
  · simp [snakeByte, isSeparator_convLower, h4, isIdByte, isAlpha, isNum_convLower, h3]
  · rw [snakeByte_separator x h4]; decide

theorem isIdByte_of_mem_snake : ∀ (r : List Char), (∀ c ∈ r, isIdByte c = true) →
    ∀ c ∈ delimitedLoop '_' false none r, isIdByte c = true
  | [], _, c, h => by simp [delimitedLoop] at h
  | [x], hr, c, h => by
      rw [snake_single, List.mem_singleton] at h
      rw [h]
      exact isIdByte_snakeByte x (hr x (List.mem_cons_self _ _))
  | x :: y :: R, hr, c, h => by
      rw [snake_step] at h
      rcases List.mem_cons.1 h with h | h
      · rw [h]; exact isIdByte_snakeByte x (hr x (List.mem_cons_self _ _))
      · rcases List.mem_append.1 h with h | h
        · rw [mem_und _ _ h]; decide
        · exact isIdByte_of_mem_snake (y :: R) (fun c hc => hr c (List.mem_cons_of_mem _ hc))
            c h

theorem snakeByte_of_other (c : Char) (h : isIdByte c = false) : snakeByte c = c := by
  rcases byte_kind c with ⟨h1, h2, h3, h4⟩ | ⟨h1, h2, h3, h4⟩ | ⟨h1, h2, h3, h4⟩ |
    ⟨h1, h2, h3, h4⟩ | ⟨h1, h2, h3, h4⟩ <;>
  simp [isIdByte, isAlpha, h1, h2, h3, h4] at h
  simp [snakeByte, isSeparator_convLower, h4, convLower_of_not_cap c h1]

theorem noBreak_of_other (init : Bool) : ∀ (r : List Char) (p : Option Char) (c : Char),
    c ∈ r → isIdByte c = false → noBreak init p r = false
  | [], _, _, h, _ => by simp at h
  | x :: r, p, c, h, hc => by
      rw [noBreak_cons]
      rcases List.mem_cons.1 h with h | h
      · subst h
        have hb : breaksAt init p (c :: r) = true := by
          have h' : (isAlpha c || isNum c || isSeparator c) = false := hc
          simp [breaksAt, h']
        simp [hb]
      · simp [noBreak_of_other init r (some x) c h hc]

theorem isIdByte_of_alnum (c : Char) (h : (isAlpha c || isNum c) = true) :
    isIdByte c = true := by
  simp [isIdByte, h]

theorem isSpace_of_alnum (c : Char) (h : (isAlpha c || isNum c) = true) :
    isSpace c = false := by
  simp only [isAlpha, isCap, isLow, isNum, isSpace, Bool.or_eq_true, decide_eq_true_eq,
    decide_eq_false_iff_not] at h ⊢
  omega

/-- The snake form of a cased form is the snake pass over the camel pass of
the trimmed text. -/
theorem toSnake_camelFrom (init : Bool) (t : List Char) :
    toSnake (camelFrom init none t) = delimitedLoop '_' false none (camelFrom init none t) := by
  unfold toSnake toScreamingDelimited
  rw [trimSpace_of_no_space _
    (fun c hc => isSpace_of_alnum c (camelFrom_all_alnum init none t c hc))]

/-- The round trip over a trimmed text. -/
theorem roundTrip_iff (init : Bool) (t : List Char) :
    delimitedLoop '_' false none (camelFrom init none t) = delimitedLoop '_' false none t ↔
      noBreak init none t = true := by
  by_cases hall : ∀ c ∈ t, isIdByte c = true
  · cases t with
    | nil => simp [camelFrom_nil, noBreak]
    | cons x r =>
      by_cases hxs : isSeparator x = true
      · have hb : breaksAt init none (x :: r) = true := by
          simp [breaksAt, hxs]
        have hnb : noBreak init none (x :: r) = false := by
          rw [noBreak_cons, hb]; rfl
        rw [hnb]
        obtain ⟨T, hT⟩ := snake_cons x r
        rw [hT, snakeByte_separator x hxs]
        have hal := camelFrom_all_alnum init none (x :: r)
        cases hQ : camelFrom init none (x :: r) with
        | nil => simp [delimitedLoop]
        | cons q Q =>
          obtain ⟨T2, hT2⟩ := snake_cons q Q
          rw [hT2]
          have hq := snakeByte_ne_underscore q (hal q (by rw [hQ]; exact List.mem_cons_self _ _))
          simp [hq]
      · exact roundTrip_lockstep init (x :: r).length (x :: r) none (Nat.le_refl _)
          (by intro c hc; cases hc) hall
          (by intro c hc; cases hc; simpa using hxs)
  · have hex : ∃ c ∈ t, isIdByte c = false := by
      by_contra hcon
      apply hall
      intro c hc
      cases hv : isIdByte c
      · exact absurd ⟨c, hc, hv⟩ hcon
      · rfl
    obtain ⟨c, hc, hv⟩ := hex
    rw [noBreak_of_other init t none c hc hv]
    have h1 := snakeByte_mem_snake t c hc
    rw [snakeByte_of_other c hv] at h1
    have h2 := isIdByte_of_mem_snake (camelFrom init none t)
      (fun x hx => isIdByte_of_alnum x (camelFrom_all_alnum init none t x hx))
    constructor
    · intro heq
      rw [← heq] at h1
      rw [h2 c h1] at hv
      exact absurd hv (by simp)
    · intro h; exact absurd h (by simp)

theorem string_mk_eq_iff (a b : List Char) : String.mk a = String.mk b ↔ a = b :=
  ⟨fun h => congrArg String.data h, fun h => congrArg String.mk h⟩

/-- C13 (amended): the snake form of the Pascal form of a string is the snake
form of the string exactly when nothing breaks the round trip in its text
without the surrounding white space: the text is made of letters, digits and
separators, no separator stands at its start, at its end, next to another
separator or between two digits, no two capitals are followed by a lowercase
letter, and no two one-letter words stand in a row; the same holds for the
camel form, where a one-letter word at the very start may be followed by
another. So the round trip holds for `x`, `ab_c`, `a_bc`, `blogPost`,
`blog post`, `Blog_Post`, `user2name`, `foo.bar` and `userID`, and for the
camel form of `a_b`; it fails for `HTTPServer`, `a__b`, `_a`, `1_2` and
`a!b`. -/
theorem snakeCase_of_cased_form :
    (∀ s : String,
      ((NewNamingHelper (NewNamingHelper s).PascalCase).SnakeCase =
          (NewNamingHelper s).SnakeCase ↔
        noBreak true none (trimSpace s.data) = true) ∧
      ((NewNamingHelper (NewNamingHelper s).CamelCase).SnakeCase =
          (NewNamingHelper s).SnakeCase ↔
        noBreak false none (trimSpace s.data) = true)) ∧
    (["x", "ab_c", "a_bc", "blogPost", "blog post", "Blog_Post", "user2name", "foo.bar",
        "userID"].all (fun s => noBreak true none (trimSpace s.data) &&
          noBreak false none (trimSpace s.data))) = true ∧
    noBreak false none (trimSpace "a_b".data) = true ∧
    (["a_b", "HTTPServer", "a__b", "_a", "1_2", "a!b"].any
        (fun s => noBreak true none (trimSpace s.data))) = false := by
  refine ⟨fun s => ?_, by decide, by decide, by decide⟩
  have hP : toCamel s.data = camelFrom true none (trimSpace s.data) := rfl
  have hC : toLowerCamel s.data = camelFrom false none (trimSpace s.data) := rfl
  have hS : toSnake s.data = delimitedLoop '_' false none (trimSpace s.data) := rfl
  simp only [NewNamingHelper, NamingHelper.SnakeCase, NamingHelper.PascalCase,
    NamingHelper.CamelCase, string_mk_eq_iff, hP, hC, toSnake_camelFrom, hS]
  exact ⟨roundTrip_iff true _, roundTrip_iff false _⟩

end Gocli
